import Mathlib

/-!
# Gradient star detector (`kstars/fitsviewer/fitsgradientdetector.cpp`)

A shallow embedding of `FITSGradientDetector`: the Sobel operator, the
flood-fill partitioner (`partition` / `trace`), the mass table with the
dominant-region selection and noise rejection, the ray-casting radius scan and
the half-flux radius.

Conventions of the embedding.

* A `QVector` or raw buffer is a function `Int → Int` from the element index to
  the element; the code's own bounds checks keep every access of `sobel`,
  `partition` and `trace` inside `0 .. width*height - 1`.
* C++ `int` is `Int`; image sizes are assumed far below `2^31`, so no
  wrap-around.  The conversion of a `float` to `int` is `toInt32`, and
  `uint32_t size` is `copySize`.
* `float` / `double` values are rationals (`ℚ`).  `float32` and `float64` round
  a rational to the nearest value of 24 and of 53 significant bits (ties to
  even, exponent range not bounded).  The rounding is applied in the selection
  loop (`selectStep`, `floatDiv`), in `accumulateMassesFloat`, in `sobelFloat`
  and in `sliceLoopDouble`; the other definitions (`accumulateMasses`,
  `sliceLoop`, `hfrLoop`, the centroid) compute the same expressions without
  rounding.  A float quotient by zero of a positive numerator is `+inf`,
  modelled by `⊤`.
* Sobel magnitudes of integer samples are computed in `int` and then stored as
  floats, so the gradient vector holds integers.
* The recursion of `trace` carries a fuel argument that bounds the nesting
  depth; `none` means the fuel ran out.  `partition` hands out
  `width*height + 1`, which is proved to be enough.
* The smoothing filters of `FITSData` and the `cos`/`sin` values of the ray
  loop are not part of this file; they are parameters (`Collaborators`).
  So are `atan` and `M_PI` in the direction output of `sobel`.
* The image buffer is a function on all indices: the values past
  `width*height - 1` stand for the memory after the buffer.
-/

namespace FITSGradientDetector

/-! ## Vectors -/

/-- Writing `a` at index `i` of a vector. -/
def setAt (v : Int → Int) (i a : Int) : Int → Int :=
  fun k => if k = i then a else v k

/-- The values `-1, 0, 1` of `for (int j = -1; j < 2; j++)`. -/
def loop3 : List Int := [-1, 0, 1]

/-- The values `0, 1, .., n-1` of `for (int k = 0; k < n; k++)`. -/
def upTo (n : Int) : List Int :=
  (List.range n.toNat).map (fun (k : Nat) => (k : Int))

/-- The values `1, 2, .., n-1` of `for (int k = 1; k < n; k++)`. -/
def from1 (n : Int) : List Int :=
  (List.range (n - 1).toNat).map (fun (k : Nat) => (k : Int) + 1)

/-! ## Sobel -/

/-- The horizontal gradient of `sobel` at column `x`, from the three row
pointers (as offsets into the buffer) and the clamped columns. -/
def sobelGradX (buffer : Int → Int) (grayLine_m1 grayLine grayLine_p1 x_m1 x_p1 : Int) : Int :=
  buffer (grayLine_m1 + x_p1) + 2 * buffer (grayLine + x_p1) + buffer (grayLine_p1 + x_p1)
    - buffer (grayLine_m1 + x_m1) - 2 * buffer (grayLine + x_m1) - buffer (grayLine_p1 + x_m1)

/-- The vertical gradient of `sobel` at column `x`. -/
def sobelGradY (buffer : Int → Int) (grayLine_m1 grayLine_p1 x_m1 x x_p1 : Int) : Int :=
  buffer (grayLine_m1 + x_m1) + 2 * buffer (grayLine_m1 + x) + buffer (grayLine_m1 + x_p1)
    - buffer (grayLine_p1 + x_m1) - 2 * buffer (grayLine_p1 + x) - buffer (grayLine_p1 + x_p1)

/-- One row of `sobel`: the inner `for x` loop writing `gradientLine[x]`. -/
def sobelRow (width height : Int) (buffer : Int → Int) (gradient : Int → Int) (y : Int) :
    Int → Int :=
  let yOffset := y * width
  let grayLine := yOffset
  let grayLine_m1 := if y < 1 then grayLine else grayLine - width
  let grayLine_p1 := if y ≥ height - 1 then grayLine else grayLine + width
  (upTo width).foldl (fun gradient x =>
    let x_m1 := if x < 1 then x else x - 1
    let x_p1 := if x ≥ width - 1 then x else x + 1
    let gradX := sobelGradX buffer grayLine_m1 grayLine grayLine_p1 x_m1 x_p1
    let gradY := sobelGradY buffer grayLine_m1 grayLine_p1 x_m1 x x_p1
    setAt gradient (yOffset + x) (|gradX| + |gradY|)) gradient

/-- The gradient output of `sobel` over a `width × height` buffer: the vector is
resized (zero filled) and every row is written in turn. -/
def sobel (width height : Int) (buffer : Int → Int) : Int → Int :=
  (upTo height).foldl (fun gradient y => sobelRow width height buffer gradient y) (fun _ => 0)

/-- The value the loop body of `sobel` writes for the pixel `(x, y)`. -/
def sobelMag (width height : Int) (buffer : Int → Int) (x y : Int) : Int :=
  let yOffset := y * width
  let grayLine := yOffset
  let grayLine_m1 := if y < 1 then grayLine else grayLine - width
  let grayLine_p1 := if y ≥ height - 1 then grayLine else grayLine + width
  let x_m1 := if x < 1 then x else x - 1
  let x_p1 := if x ≥ width - 1 then x else x + 1
  |sobelGradX buffer grayLine_m1 grayLine grayLine_p1 x_m1 x_p1|
    + |sobelGradY buffer grayLine_m1 grayLine_p1 x_m1 x x_p1|

/-! ## Partition -/

/-- The recursive flood fill `trace`.  The first argument bounds the nesting
depth of the recursion. -/
def trace : Nat → Int → Int → Int → (Int → Int) → (Int → Int) → Int → Int → Option (Int → Int)
  | 0, _, _, _, _, _, _, _ => none
  | fuel + 1, width, height, id, image, ids, x, y =>
    let yOffset := y * width
    if ids (yOffset + x) ≠ 0 then some ids
    else
      loop3.foldlM (fun acc j =>
        let nextY := y + j
        if nextY < 0 ∨ nextY ≥ height then some acc
        else
          loop3.foldlM (fun acc2 i =>
            let nextX := x + i
            if i = j ∨ nextX < 0 ∨ nextX ≥ width then some acc2
            else if image (yOffset + j * width + nextX) > 0 then
              trace fuel width height id image acc2 nextX nextY
            else some acc2) acc) (setAt ids (yOffset + x) id)

/-- The fuel `partition` gives to each `trace`. -/
def traceFuel (width height : Int) : Nat := (width * height).toNat + 1

/-- The body of the inner loop of `partition` at pixel `(x, y)`; the state is
the running `id` and the label map. -/
def partitionStep (width height : Int) (gradient : Int → Int) (y : Int)
    (st : Int × (Int → Int)) (x : Int) : Option (Int × (Int → Int)) :=
  let index := x + y * width
  let val := gradient index
  if val > 0 ∧ st.2 index = 0 then
    (trace (traceFuel width height) width height (st.1 + 1) gradient st.2 x y).map
      (fun ids => (st.1 + 1, ids))
  else some st

/-- One row of `partition`. -/
def partitionRow (width height : Int) (gradient : Int → Int)
    (st : Int × (Int → Int)) (y : Int) : Option (Int × (Int → Int)) :=
  (from1 (width - 1)).foldlM (partitionStep width height gradient y) st

/-- The function `partition`: returns the maximal id and the label map. -/
def partition (width height : Int) (gradient ids : Int → Int) : Option (Int × (Int → Int)) :=
  (from1 (height - 1)).foldlM (partitionRow width height gradient) (0, ids)

/-! ## Region masses -/

/-- The accumulator kept per region label. -/
structure massInfo where
  massX : ℚ := 0
  massY : ℚ := 0
  totalMass : ℚ := 0
  deriving DecidableEq

/-- A `QMap<int, massInfo>`: the entries in ascending key order. -/
abbrev QMap := List (Int × massInfo)

/-- The ascending key list `masses.keys()`. -/
def QMap.keys (m : QMap) : List Int := m.map Prod.fst

/-- The lookup `masses.value(key)`: a default-constructed value when absent. -/
def QMap.value : QMap → Int → massInfo
  | [], _ => {}
  | (k, v) :: rest, key => if key = k then v else QMap.value rest key

/-- The access `masses[key]` followed by an update of the referenced value: a
default-constructed entry is inserted first when the key is absent. -/
def QMap.modify : QMap → Int → (massInfo → massInfo) → QMap
  | [], key, f => [(key, f {})]
  | (k, v) :: rest, key, f =>
    if key < k then (key, f {}) :: (k, v) :: rest
    else if key = k then (k, f v) :: rest
    else (k, v) :: QMap.modify rest key f

/-- The mass accumulation loop (`#7`) over the sub-region. -/
def accumulateMasses (subW subH : Int) (gradients ids : Int → Int) : QMap :=
  (upTo subH).foldl (fun masses y =>
    (upTo subW).foldl (fun masses x =>
      let index := x + y * subW
      let regionID := ids index
      if regionID > 0 then
        let pixel : ℚ := (gradients index : ℚ)
        QMap.modify masses regionID (fun m =>
          { totalMass := m.totalMass + pixel
            massX := m.massX + (x : ℚ) * pixel
            massY := m.massY + (y : ℚ) * pixel })
      else masses) masses) []

/-- Truncation of a floating value toward zero. -/
def truncToInt (q : ℚ) : Int :=
  if 0 ≤ q then Rat.floor q else -Rat.floor (-q)

/-! ## Machine arithmetic -/

/-- The number of halvings that take `n` below 2, i.e. `floor (log2 n)` for
`n ≥ 1`; the first argument bounds the number of steps. -/
def log2Fuel : Nat → Nat → Nat
  | 0, _ => 0
  | fuel + 1, n => if n < 2 then 0 else log2Fuel fuel (n / 2) + 1

/-- The binary exponent `e` of `q ≠ 0`: `2^e ≤ |q| < 2^(e+1)`. -/
def binaryExponent (q : ℚ) : Int :=
  let a := q.num.natAbs
  let b := q.den
  let e0 : Int := (log2Fuel a a : Int) - (log2Fuel b b : Int)
  if ((a : ℚ) / (b : ℚ)) < (2 : ℚ) ^ e0 then e0 - 1 else e0

/-- Rounding to the nearest integer, ties to the even one. -/
def roundHalfEven (q : ℚ) : Int :=
  let f := Rat.floor q
  let r := q - (f : ℚ)
  if r < 1 / 2 then f
  else if r > 1 / 2 then f + 1
  else if f % 2 = 0 then f else f + 1

/-- Rounding to the nearest binary floating value of `p` significant bits, ties
to even.  The exponent range is not bounded: no overflow to infinity and no
subnormal values. -/
def roundToPrecision (p : Nat) (q : ℚ) : ℚ :=
  if q = 0 then 0
  else
    let quantum : ℚ := (2 : ℚ) ^ (binaryExponent q - ((p : Int) - 1))
    (roundHalfEven (q / quantum) : ℚ) * quantum

/-- Rounding to `float` (IEEE 754 single precision, 24 significant bits). -/
def float32 (q : ℚ) : ℚ := roundToPrecision 24 q

/-- Conversion of a floating value to `int`: truncation toward zero when the
truncated value fits in 32 bits.  C++ leaves the other case undefined; the
conversion instruction of x86-64 then yields `INT_MIN`, the value taken here. -/
def toInt32 (q : ℚ) : Int :=
  if -2147483648 ≤ truncToInt q ∧ truncToInt q ≤ 2147483647 then truncToInt q
  else -2147483648

/-- The quotient `oneMass.totalMass / maxTotalMass` of the selection loop: the
`int` divisor is converted to `float`, the quotient is rounded to `float` and
then widened to `double`.  The dividend is positive when the divisor is zero,
and the quotient is then `+inf`. -/
def floatDiv (a : ℚ) (b : Int) : WithTop ℚ :=
  if b = 0 then ⊤ else ((float32 (a / float32 (b : ℚ)) : ℚ) : WithTop ℚ)

/-- The three variables of the selection loop. -/
structure Selection where
  maxRegionID : Int
  maxTotalMass : Int
  totalMassRatio : WithTop ℚ

/-- The body of the selection loop for one key.  The comparison converts
`int maxTotalMass` to `float`; the assignment converts the `float` mass to
`int`. -/
def selectStep (masses : QMap) (s : Selection) (key : Int) : Selection :=
  let oneMass := QMap.value masses key
  if oneMass.totalMass > float32 (s.maxTotalMass : ℚ) then
    { totalMassRatio := floatDiv oneMass.totalMass s.maxTotalMass
      maxTotalMass := toInt32 oneMass.totalMass
      maxRegionID := key }
  else s

/-- The selection of the region of highest total mass.  The table passed in is
the one after `masses[1]` has been evaluated. -/
def selectMax (masses : QMap) : Selection :=
  (QMap.keys masses).foldl (selectStep masses)
    { maxRegionID := 1
      maxTotalMass := toInt32 (QMap.value masses 1).totalMass
      totalMassRatio := ((1000000 : ℚ) : WithTop ℚ) }

/-- The noise test `maxID > 10 && totalMassRatio < 1.5`. -/
def isNoise (maxID : Int) (totalMassRatio : WithTop ℚ) : Bool :=
  decide (maxID > 10) && decide (totalMassRatio < (((3 : ℚ) / 2 : ℚ) : WithTop ℚ))

/-! ## Radius scan -/

/-- The inner `theta` loop at radius `r`: `true` when `pass` reaches 24 before
a sample point leaves the sub-region.  `rays` lists `(cos theta, sin theta)` for
the angles the loop visits, in order. -/
def rayLoop (subW subH : Int) (gradients : Int → Int) (cx cy : ℚ) (r : Int) :
    List (ℚ × ℚ) → Int → Bool
  | [], _ => false
  | (c, s) :: rest, pass =>
    let testX := truncToInt (cx + c * (r : ℚ))
    let testY := truncToInt (cy + s * (r : ℚ))
    if testX < 0 ∨ testX ≥ subW ∨ testY < 0 ∨ testY ≥ subH then false
    else if gradients (testX + testY * subW) > 0 then
      if pass + 1 ≥ 24 then true
      else rayLoop subW subH gradients cx cy r rest (pass + 1)
    else rayLoop subW subH gradients cx cy r rest pass

/-- The radii `maxR, maxR - 1, .., 2` of `for (int r = maxR; r > 1; r--)`. -/
def radii (maxR : Int) : List Int :=
  (List.range (maxR - 1).toNat).map (fun (k : Nat) => maxR - (k : Int))

/-- The outer loop over the radii: the width `2r` of the first radius whose
ray loop succeeds, `-1` when none does. -/
def radiusScan (subW subH : Int) (gradients : Int → Int) (rays : List (ℚ × ℚ)) (cx cy : ℚ) :
    List Int → Int
  | [] => -1
  | r :: rest =>
    if rayLoop subW subH gradients cx cy r rays 0 then r * 2
    else radiusScan subW subH gradients rays cx cy rest

/-! ## Half-flux radius -/

/-- The sub-pixel step `resolution`. -/
def resolution : ℚ := 1 / 20

/-- The function `qRound` of Qt. -/
def qRound (d : ℚ) : Int :=
  if d ≥ 0 then truncToInt (d + 1 / 2)
  else truncToInt (d - (truncToInt (d - 1) : ℚ) + 1 / 2) + truncToInt (d - 1)

/-- The sampling loop `for (double x = leftEdge; x <= rightEdge; x += resolution)`;
the first argument bounds the number of iterations. -/
def sliceLoop (origBuffer : Int → Int) (cen_y dataWidth : Int) (rightEdge : ℚ) :
    Nat → ℚ → List ℚ
  | 0, _ => []
  | n + 1, x =>
    if x ≤ rightEdge then
      (resolution * (origBuffer (Rat.floor x + cen_y * dataWidth) : ℚ)) ::
        sliceLoop origBuffer cen_y dataWidth rightEdge n (x + resolution)
    else []

/-- The integration loop `for (int k = 1; k < subPixelCenter; k++)` over the
remaining values of `k`; the result is the value left in `center->HFR`. -/
def hfrLoop (subPixels : List ℚ) (HF : ℚ) (subPixelCenter : Int) : List Int → ℚ → ℚ → ℚ
  | [], _, _ => 1
  | k :: ks, TF, lastTF =>
    let TF1 := TF + subPixels.getD (subPixelCenter + k).toNat 0
    let TF2 := TF1 + subPixels.getD (subPixelCenter - k).toNat 0
    if TF2 ≥ HF then ((k : ℚ) - 1 + ((HF - lastTF) / (TF2 - lastTF)) * 2) * resolution
    else hfrLoop subPixels HF subPixelCenter ks TF2 TF2

/-! ## The detector -/

/-- The record `Edge` describing a detected feature. -/
structure Edge where
  x : ℚ
  y : ℚ
  width : Int
  HFR : ℚ
  deriving DecidableEq

/-- The rectangle `QRect`. -/
structure QRect where
  x : Int
  y : Int
  width : Int
  height : Int

/-- The test `QRect::isNull`: width and height are both zero. -/
def QRect.isNull (r : QRect) : Bool := r.width == 0 && r.height == 0

/-- The part of `FITSData` the detector reads. -/
structure FITSData where
  width : Int
  height : Int
  imageBuffer : Int → Int

/-- What the detector takes from outside this file: the two smoothing filters
applied to the scratch image (`applyFilter(FITS_MEDIAN)` then
`applyFilter(FITS_HIGH_CONTRAST)`, after `calculateStats`), as a function of
the scratch width, height and buffer, and the `(cos, sin)` pairs of the angles
of the ray loop. -/
structure Collaborators where
  applyFilters : Int → Int → (Int → Int) → (Int → Int)
  rays : List (ℚ × ℚ)

/-- A `memcpy` of `n` samples from `src + s` to `dst + d`. -/
def memcpy (dst : Int → Int) (d : Int) (src : Int → Int) (s n : Int) : Int → Int :=
  fun i => if d ≤ i ∧ i < d + n then src (s + (i - d)) else dst i

/-- The sub-region copy (`#2`): one block when the offset is zero, line by line
otherwise. -/
def copySubRegion (src : Int → Int) (subX subY subW subH dataWidth : Int) : Int → Int :=
  let size := subW * subH
  let offset := subX + subY * dataWidth
  if offset = 0 then memcpy (fun _ => 0) 0 src 0 size
  else
    (upTo subH).foldl (fun dst k =>
      let height := subY + k
      let lineOffset := subX + height * dataWidth
      memcpy dst (k * subW) src lineOffset subW) (fun _ => 0)

/-- The sub-region origin `subX`. -/
def subX (boundary : QRect) : Int := max 0 (if boundary.isNull then 0 else boundary.x)

/-- The sub-region origin `subY`. -/
def subY (boundary : QRect) : Int := max 0 (if boundary.isNull then 0 else boundary.y)

/-- The sub-region width `subW`. -/
def subW (data : FITSData) (boundary : QRect) : Int :=
  if boundary.isNull then data.width else boundary.width

/-- The sub-region height `subH`. -/
def subH (data : FITSData) (boundary : QRect) : Int :=
  if boundary.isNull then data.height else boundary.height

/-- The scratch image `boundedImage` handed to `sobel` (steps `#2` to `#5`): the
copy of the sub-region after the two filters. -/
def boundedImage (env : Collaborators) (data : FITSData) (boundary : QRect) : Int → Int :=
  env.applyFilters (subW data boundary) (subH data boundary)
    (copySubRegion data.imageBuffer (subX boundary) (subY boundary) (subW data boundary)
      (subH data boundary) data.width)

/-- The table `masses` as the selection loop sees it: the accumulation loop
followed by the access `masses[1]`. -/
def regionMasses (subW subH : Int) (gradients ids : Int → Int) : QMap :=
  QMap.modify (accumulateMasses subW subH gradients ids) 1 id

/-- The half-flux radius computation (from `double FSum = 0` on) for a found
`width`; the value left in `center->HFR`. -/
def halfFluxRadius (data : FITSData) (offset : Int) (cx cy : ℚ) (width : Int) : ℚ :=
  let dataWidth := data.width
  let cen_y := qRound cy
  let rightEdge := cx + (width : ℚ) / 2
  let leftEdge := cx - (width : ℚ) / 2
  let origBuffer : Int → Int := fun i => data.imageBuffer (offset + i)
  let subPixels :=
    sliceLoop origBuffer cen_y dataWidth rightEdge (20 * width + 1).toNat leftEdge
  let FSum := subPixels.sum
  let HF := FSum / 2
  let subPixelCenter := truncToInt (((width : ℚ) / resolution) / 2)
  let TF := subPixels.getD subPixelCenter.toNat 0
  hfrLoop subPixels HF subPixelCenter (from1 subPixelCenter) TF TF

/-- The part of `findSources<T>` after `partition` has returned `maxID` and
filled `ids`: the returned `int` and the caller's list afterwards. -/
def detectFrom (env : Collaborators) (data : FITSData) (starCenters : List Edge)
    (boundary : QRect) (gradients : Int → Int) (maxID : Int) (ids : Int → Int) :
    Int × List Edge :=
  let subX := subX boundary
  let subY := subY boundary
  let subW := subW data boundary
  let subH := subH data boundary
  let offset := subX + subY * data.width
  if maxID = 0 then (0, starCenters)
  else
    let masses := regionMasses subW subH gradients ids
    let sel := selectMax masses
    if isNoise maxID sel.totalMassRatio then (0, starCenters)
    else
      let m := QMap.value masses sel.maxRegionID
      let cx : ℚ := m.massX / m.totalMass + 1 / 2
      let cy : ℚ := m.massY / m.totalMass + 1 / 2
      let maxR := Int.tdiv (min (subW - 1) (subH - 1)) 2
      let width := radiusScan subW subH gradients env.rays cx cy (radii maxR)
      if width = -1 then (0, starCenters)
      else
        let HFR := halfFluxRadius data offset cx cy width
        let center : Edge :=
          { x := cx + (subX : ℚ), y := cy + (subY : ℚ), width := width, HFR := HFR }
        (1, starCenters ++ [center])

/-- The template `findSources<T>` on samples: the returned `int` and the
caller's list afterwards.  `none` stands for a call for which no result is
defined here: with a negative `subW` or `subH` the sizes reach `new`, `memcpy`,
`resize` and the filters as unsigned or negative values (`copySize`, or
`subW * BBP` converted to `size_t`), and a copy far larger than the image is
asked for.  `none` is also what is left if `partition` ran out of fuel. -/
def findSourcesT (env : Collaborators) (data : Option FITSData) (starCenters : List Edge)
    (boundary : QRect) : Option (Int × List Edge) :=
  match data with
  | none => some (0, starCenters)
  | some data =>
    if subW data boundary < 0 ∨ subH data boundary < 0 then none
    else
      let gradients := sobel (subW data boundary) (subH data boundary)
        (boundedImage env data boundary)
      (partition (subW data boundary) (subH data boundary) gradients (fun _ => 0)).map
        (fun r => detectFrom env data starCenters boundary gradients r.1 r.2)

/-! ## Predicates on label maps -/

/-- The pixel `(x, y)` lies in the `W × H` sub-region. -/
def inBounds (W H x y : Int) : Prop := 0 ≤ x ∧ x < W ∧ 0 ≤ y ∧ y < H

/-- The adjacency rule of the partitioner: `(x', y')` is `(x + i, y + j)` for an
offset with `i, j ∈ {-1, 0, 1}` and `i ≠ j`. -/
def adjacent (x y x' y' : Int) : Prop :=
  ∃ i ∈ loop3, ∃ j ∈ loop3, i ≠ j ∧ x' = x + i ∧ y' = y + j

/-- Every in-bounds neighbour of `(x, y)` with positive magnitude is labelled. -/
def neighboursLabelled (W H : Int) (g ids : Int → Int) (x y : Int) : Prop :=
  ∀ x' y', adjacent x y x' y' → inBounds W H x' y' → g (x' + y' * W) > 0 →
    ids (x' + y' * W) ≠ 0

/-- The number of unlabelled entries of the label map of a `W × H` sub-region. -/
def unlabelled (W H : Int) (ids : Int → Int) : Nat :=
  ((Finset.Ico (0 : Int) (W * H)).filter (fun n => ids n = 0)).card

/-- What a returning call `trace .. id image ids x y` guarantees about the new
label map `ids'`. -/
structure TracePost (W H id : Int) (g ids ids' : Int → Int) (x y : Int) : Prop where
  mono : ∀ n, ids n ≠ 0 → ids' n = ids n
  only : ∀ n, ids' n = ids n ∨ ids' n = id
  here : ids' (x + y * W) ≠ 0
  good : ∀ x' y', inBounds W H x' y' → ids (x' + y' * W) = 0 → ids' (x' + y' * W) ≠ 0 →
    neighboursLabelled W H g ids' x' y'
  pos : ∀ n, ids n = 0 → ids' n ≠ 0 → n = x + y * W ∨ g n > 0

/-- The loop invariant of `trace`, relative to the map `ids1` after the pixel
itself has been labelled. -/
def TraceInv (W H id : Int) (g ids1 acc : Int → Int) : Prop :=
  (∀ n, ids1 n ≠ 0 → acc n = ids1 n) ∧ (∀ n, acc n = ids1 n ∨ acc n = id) ∧
    (∀ x' y', inBounds W H x' y' → ids1 (x' + y' * W) = 0 → acc (x' + y' * W) ≠ 0 →
      neighboursLabelled W H g acc x' y') ∧
    (∀ n, ids1 n = 0 → acc n ≠ 0 → g n > 0)

/-- The pixel `(x, y)` is strictly inside the outermost ring. -/
def interior (W H x y : Int) : Prop := 1 ≤ x ∧ x < W - 1 ∧ 1 ≤ y ∧ y < H - 1

/-- The invariant of the scan of `partition` on the state `(id, ids)`. -/
structure PartInv (W H : Int) (g : Int → Int) (st : Int × (Int → Int)) : Prop where
  id_nonneg : 0 ≤ st.1
  range : ∀ n, 0 ≤ st.2 n ∧ st.2 n ≤ st.1
  surj : ∀ k, 1 ≤ k → k ≤ st.1 → ∃ x y, interior W H x y ∧ st.2 (x + y * W) = k
  pos : ∀ n, st.2 n ≠ 0 → g n > 0
  closed : ∀ x y, inBounds W H x y → st.2 (x + y * W) ≠ 0 →
    ∀ x' y', adjacent x y x' y' → inBounds W H x' y' → g (x' + y' * W) > 0 →
      st.2 (x' + y' * W) = st.2 (x + y * W)

/-! ## Inputs used to exercise the definitions -/

/-- A `3 × 2` ramp image used to exercise `sobel` at a corner pixel. -/
def rampImage : Int → Int := fun n => n * n

/-- Filters that leave the scratch image as it is, and no rays. -/
def plainEnv : Collaborators := { applyFilters := fun _ _ b => b, rays := [] }

/-- The null rectangle: the whole image is used. -/
def nullRect : QRect := { x := 0, y := 0, width := 0, height := 0 }

/-- A flat `3 × 3` image: every sample is 7. -/
def flatImage : FITSData := { width := 3, height := 3, imageBuffer := fun _ => 7 }

/-- A mass table with three regions, the last two tied for the greatest mass. -/
def threeRegions : QMap :=
  [(1, { totalMass := 5 }), (2, { totalMass := 9 }), (3, { totalMass := 9 })]

/-- A `45 × 5` image with eleven isolated bright pixels, at `(2 + 4k, 2)`. -/
def blobImage : FITSData :=
  { width := 45, height := 5
    imageBuffer := fun n => if n / 45 = 2 ∧ (n % 45) % 4 = 2 then 10 else 0 }

/-- The gradient field of `blobImage` in closed form: eleven rings of
magnitude 20 around the bright pixels. -/
def blobField : Int → Int := fun n =>
  if 0 ≤ n ∧ n < 225 then
    if 1 ≤ n / 45 ∧ n / 45 ≤ 3 ∧ (n % 45) % 4 ≠ 0 ∧ ¬ (n / 45 = 2 ∧ (n % 45) % 4 = 2) then 20
    else 0
  else 0

/-! ## Notions used in the statements -/

/-- The output of `sobel` entry by entry: the entry `n` of a `W × H` buffer is
the pixel `(n % W, n / W)`. -/
def sobelField (W H : Int) (I : Int → Int) : Int → Int :=
  fun n => if 0 ≤ n ∧ n < W * H then sobelMag W H I (n % W) (n / W) else 0

/-- A buffer of `W × H` samples is flat: all its samples are equal. -/
def isFlat (W H : Int) (I : Int → Int) : Prop :=
  ∀ n m, 0 ≤ n → n < W * H → 0 ≤ m → m < W * H → I n = I m

/-- The six offsets `(i, j)` named by the claim on `trace`, in visiting order. -/
def traceOffsets : List (Int × Int) := [(0, -1), (1, -1), (-1, 0), (1, 0), (-1, 1), (0, 1)]

/-- What `trace` does for one offset: recurse into the cell when it is in
bounds and has positive magnitude. -/
def traceVisit (fuel : Nat) (width height id : Int) (image : Int → Int) (x y : Int)
    (acc : Int → Int) (p : Int × Int) : Option (Int → Int) :=
  if 0 ≤ x + p.1 ∧ x + p.1 < width ∧ 0 ≤ y + p.2 ∧ y + p.2 < height ∧
      image ((x + p.1) + (y + p.2) * width) > 0 then
    trace fuel width height id image acc (x + p.1) (y + p.2)
  else some acc

/-- The labels `1, 2, .., N`. -/
def labels (N : Int) : List Int := from1 (N + 1)

/-- A mass the selection loop handles without loss: a whole number from 0 to
`2^31 - 1` that is a `float` value. -/
def plainMass (q : ℚ) : Prop :=
  q = (truncToInt q : ℚ) ∧ 0 ≤ q ∧ q < 2147483648 ∧ float32 q = q

/-- The invariant of the selection loop once the keys `seen` have been scanned:
the running maximum is the mass of the selected region, which is the first of
the scanned regions of greatest mass. -/
def SelInv (masses : QMap) (seen : List Int) (s : Selection) : Prop :=
  (s.maxTotalMass : ℚ) = (QMap.value masses s.maxRegionID).totalMass ∧
  s.maxRegionID ∈ seen ∧
  ∀ k ∈ seen, (QMap.value masses k).totalMass ≤ (QMap.value masses s.maxRegionID).totalMass ∧
    ((QMap.value masses k).totalMass = (QMap.value masses s.maxRegionID).totalMass →
      s.maxRegionID ≤ k)

/-- The keys of a `QMap` are strictly ascending. -/
def QMap.sorted (m : QMap) : Prop := (QMap.keys m).Pairwise (· < ·)

/-- The body of the accumulation loop at pixel `(x, y)`. -/
def accStep (subW : Int) (gradients ids : Int → Int) (y : Int) (masses : QMap) (x : Int) : QMap :=
  if ids (x + y * subW) > 0 then
    QMap.modify masses (ids (x + y * subW)) (fun m =>
      { totalMass := m.totalMass + (gradients (x + y * subW) : ℚ)
        massX := m.massX + (x : ℚ) * (gradients (x + y * subW) : ℚ)
        massY := m.massY + (y : ℚ) * (gradients (x + y * subW) : ℚ) })
  else masses

/-- The sum of `f x y` over the pixels of the sub-region labelled `k`, row by
row. -/
def regionSum (W H : Int) (ids : Int → Int) (k : Int) (f : Int → Int → ℚ) : ℚ :=
  ((upTo H).map (fun y =>
    ((upTo W).map (fun x => if ids (x + y * W) = k then f x y else 0)).sum)).sum

/-- The region the selection loop leaves in `maxRegionID`. -/
def selectedRegion (W H : Int) (g ids : Int → Int) : Int :=
  (selectMax (regionMasses W H g ids)).maxRegionID

/-- The sub-region-local `center->x`: `massX / totalMass + 0.5` of the
selected region. -/
def centroidX (W H : Int) (g ids : Int → Int) : ℚ :=
  (QMap.value (regionMasses W H g ids) (selectedRegion W H g ids)).massX /
    (QMap.value (regionMasses W H g ids) (selectedRegion W H g ids)).totalMass + 1 / 2

/-- The sub-region-local `center->y`. -/
def centroidY (W H : Int) (g ids : Int → Int) : ℚ :=
  (QMap.value (regionMasses W H g ids) (selectedRegion W H g ids)).massY /
    (QMap.value (regionMasses W H g ids) (selectedRegion W H g ids)).totalMass + 1 / 2

/-- The value of `center->width` after the radius scan. -/
def scanWidth (env : Collaborators) (W H : Int) (g ids : Int → Int) : Int :=
  radiusScan W H g env.rays (centroidX W H g ids) (centroidY W H g ids)
    (radii (Int.tdiv (min (W - 1) (H - 1)) 2))

/-- The feature appended to the caller's list when the scan finds a width. -/
def reportedEdge (env : Collaborators) (data : FITSData) (boundary : QRect)
    (g ids : Int → Int) : Edge :=
  { x := centroidX (subW data boundary) (subH data boundary) g ids + (subX boundary : ℚ)
    y := centroidY (subW data boundary) (subH data boundary) g ids + (subY boundary : ℚ)
    width := scanWidth env (subW data boundary) (subH data boundary) g ids
    HFR := halfFluxRadius data (subX boundary + subY boundary * data.width)
      (centroidX (subW data boundary) (subH data boundary) g ids)
      (centroidY (subW data boundary) (subH data boundary) g ids)
      (scanWidth env (subW data boundary) (subH data boundary) g ids) }

/-- The integer sample point of a ray `(cos, sin)` at radius `r`. -/
def samplePoint (cx cy : ℚ) (r : Int) (ray : ℚ × ℚ) : Int × Int :=
  (truncToInt (cx + ray.1 * (r : ℚ)), truncToInt (cy + ray.2 * (r : ℚ)))

/-- The sample point of the ray lies in the sub-region. -/
def sampleInside (W H : Int) (cx cy : ℚ) (r : Int) (ray : ℚ × ℚ) : Bool :=
  decide (0 ≤ (samplePoint cx cy r ray).1 ∧ (samplePoint cx cy r ray).1 < W ∧
    0 ≤ (samplePoint cx cy r ray).2 ∧ (samplePoint cx cy r ray).2 < H)

/-- The ray hits: the magnitude at its sample point is positive. -/
def sampleHits (W : Int) (g : Int → Int) (cx cy : ℚ) (r : Int) (ray : ℚ × ℚ) : Bool :=
  decide (g ((samplePoint cx cy r ray).1 + (samplePoint cx cy r ray).2 * W) > 0)

/-- The number of rays that hit before the first ray whose sample point falls
outside the sub-region, the rays being taken in order. -/
def hitsBeforeExit (W H : Int) (g : Int → Int) (cx cy : ℚ) (r : Int) (rays : List (ℚ × ℚ)) : Nat :=
  ((rays.takeWhile (sampleInside W H cx cy r)).filter (sampleHits W g cx cy r)).length

/-! ## Notions for the half-flux radius -/

/-- The symmetric running total `T_k` of the claim: `T_0 = s[c]` and
`T_k = T_(k-1) + s[c+k] + s[c-k]`. -/
def runningTotal (s : List ℚ) (c : Int) : Nat → ℚ
  | 0 => s.getD c.toNat 0
  | k + 1 => runningTotal s c k + s.getD (c + ((k + 1 : Nat) : Int)).toNat 0
      + s.getD (c - ((k + 1 : Nat) : Int)).toNat 0

/-- The list `subPixels` of a call of the half-flux computation. -/
def subPixelsOf (data : FITSData) (offset : Int) (cx cy : ℚ) (width : Int) : List ℚ :=
  sliceLoop (fun i => data.imageBuffer (offset + i)) (qRound cy) data.width
    (cx + (width : ℚ) / 2) (20 * width + 1).toNat (cx - (width : ℚ) / 2)

/-- The index `subPixelCenter` of a call of the half-flux computation. -/
def subPixelCenterOf (width : Int) : Int := truncToInt (((width : ℚ) / resolution) / 2)

/-- The values `j + 1, j + 2, .., j + n` of the loop counter `k`. -/
def stepsFrom (j n : Nat) : List Int := (List.range n).map (fun (i : Nat) => ((i + j + 1 : Nat) : Int))

/-! ## Inputs for the whole detector -/

/-- A table of rays `(cos θ, sin θ)`, to three decimals: the 36 multiples of
ten degrees, and a last angle just below a full turn. -/
def rayTable : List (ℚ × ℚ) :=
  [(1000 / 1000, 0 / 1000), (985 / 1000, 174 / 1000), (940 / 1000, 342 / 1000),
   (866 / 1000, 500 / 1000), (766 / 1000, 643 / 1000), (643 / 1000, 766 / 1000),
   (500 / 1000, 866 / 1000), (342 / 1000, 940 / 1000), (174 / 1000, 985 / 1000),
   (0 / 1000, 1000 / 1000), (-174 / 1000, 985 / 1000), (-342 / 1000, 940 / 1000),
   (-500 / 1000, 866 / 1000), (-643 / 1000, 766 / 1000), (-766 / 1000, 643 / 1000),
   (-866 / 1000, 500 / 1000), (-940 / 1000, 342 / 1000), (-985 / 1000, 174 / 1000),
   (-1000 / 1000, 0 / 1000), (-985 / 1000, -174 / 1000), (-940 / 1000, -342 / 1000),
   (-866 / 1000, -500 / 1000), (-766 / 1000, -643 / 1000), (-643 / 1000, -766 / 1000),
   (-500 / 1000, -866 / 1000), (-342 / 1000, -940 / 1000), (-174 / 1000, -985 / 1000),
   (0 / 1000, -1000 / 1000), (174 / 1000, -985 / 1000), (342 / 1000, -940 / 1000),
   (500 / 1000, -866 / 1000), (643 / 1000, -766 / 1000), (766 / 1000, -643 / 1000),
   (866 / 1000, -500 / 1000), (940 / 1000, -342 / 1000), (985 / 1000, -174 / 1000),
   (1, -1 / 1000000)]

/-- Collaborators whose filters leave the scratch image as it is, with the
rays of `rayTable`. -/
def starEnv : Collaborators := { applyFilters := fun _ _ b => b, rays := rayTable }

/-- A `7 × 7` image with three lit pixels: `(2, 3)` at 200, `(5, 4)` and
`(1, 6)` at 100. -/
def sparseImage : FITSData :=
  { width := 7, height := 7
    imageBuffer := fun n => if n = 23 then 200 else if n = 33 ∨ n = 43 then 100 else 0 }

/-- The gradient field of `sparseImage` taken whole. -/
def sparseGradients : Int → Int :=
  sobel (subW sparseImage nullRect) (subH sparseImage nullRect)
    (boundedImage starEnv sparseImage nullRect)

/-! ## Dispatch on the sample type -/

/-- The eight type tags the `switch` of `findSources` has a case for. -/
inductive DataType where
  | TBYTE | TSHORT | TUSHORT | TLONG | TULONG | TFLOAT | TLONGLONG | TDOUBLE
  deriving DecidableEq

/-- The sample types `findSources<T>` is instantiated with. -/
inductive SampleType where
  | uint8_t | int16_t | uint16_t | int32_t | uint32_t | float | int64_t | double
  deriving DecidableEq

/-- The `switch` of `findSources`: the template argument each tag is
dispatched to. -/
def findSourcesDispatch : DataType → SampleType
  | DataType.TBYTE => SampleType.uint8_t
  | DataType.TSHORT => SampleType.int16_t
  | DataType.TUSHORT => SampleType.uint16_t
  | DataType.TLONG => SampleType.int32_t
  | DataType.TULONG => SampleType.uint16_t
  | DataType.TFLOAT => SampleType.float
  | DataType.TLONGLONG => SampleType.int64_t
  | DataType.TDOUBLE => SampleType.double

/-- The encoding the specification gives for each tag. -/
def specEncoding : DataType → SampleType
  | DataType.TBYTE => SampleType.uint8_t
  | DataType.TSHORT => SampleType.int16_t
  | DataType.TUSHORT => SampleType.uint16_t
  | DataType.TLONG => SampleType.int32_t
  | DataType.TULONG => SampleType.uint32_t
  | DataType.TFLOAT => SampleType.float
  | DataType.TLONGLONG => SampleType.int64_t
  | DataType.TDOUBLE => SampleType.double

/-! ## Reads of the sub-region copy -/

/-- The indices of the image buffer the sub-region copy (`#2`) reads, in
samples: the first `size` ones when the offset is zero, the `subW` ones from
`lineOffset` on for each line otherwise. -/
def copyReads (subX subY subW subH dataWidth : Int) : List Int :=
  let size := subW * subH
  let offset := subX + subY * dataWidth
  if offset = 0 then upTo size
  else (upTo subH).flatMap (fun k =>
    let height := subY + k
    let lineOffset := subX + height * dataWidth
    (upTo subW).map (fun i => lineOffset + i))

/-- A rectangle of seven rows below the only row of `ghostImage`. -/
def ghostRect : QRect := { x := 0, y := 1, width := 7, height := 7 }

/-- A `7 × 1` image of zeros; the memory after its buffer holds the samples of
`sparseImage`. -/
def ghostImage : FITSData :=
  { width := 7, height := 1, imageBuffer := fun n => sparseImage.imageBuffer (n - 7) }

/-! ## Direction output of `sobel` -/

/-- The angle `a = 180. * atan(qreal(gradY) / gradX) / M_PI`, for a given
`atan` and `M_PI`. -/
def angleDegrees (atan : ℚ → ℚ) (M_PI : ℚ) (gradX gradY : Int) : ℚ :=
  180 * atan ((gradY : ℚ) / (gradX : ℚ)) / M_PI

/-- The value `sobel` writes to `directionLine[x]`. -/
def classifyDirection (atan : ℚ → ℚ) (M_PI : ℚ) (gradX gradY : Int) : Int :=
  if gradX = 0 ∧ gradY = 0 then 0
  else if gradX = 0 then 3
  else
    let a := angleDegrees atan M_PI gradX gradY
    if a ≥ -45 / 2 ∧ a < 45 / 2 then 0
    else if a ≥ 45 / 2 ∧ a < 135 / 2 then 2
    else if a ≥ -135 / 2 ∧ a < -45 / 2 then 1
    else 3

/-- One row of `sobel`, for the vector `direction`. -/
def sobelDirectionRow (atan : ℚ → ℚ) (M_PI : ℚ) (width height : Int) (buffer : Int → Int)
    (direction : Int → Int) (y : Int) : Int → Int :=
  let yOffset := y * width
  let grayLine := yOffset
  let grayLine_m1 := if y < 1 then grayLine else grayLine - width
  let grayLine_p1 := if y ≥ height - 1 then grayLine else grayLine + width
  (upTo width).foldl (fun direction x =>
    let x_m1 := if x < 1 then x else x - 1
    let x_p1 := if x ≥ width - 1 then x else x + 1
    let gradX := sobelGradX buffer grayLine_m1 grayLine grayLine_p1 x_m1 x_p1
    let gradY := sobelGradY buffer grayLine_m1 grayLine_p1 x_m1 x x_p1
    setAt direction (yOffset + x) (classifyDirection atan M_PI gradX gradY)) direction

/-- The direction output of `sobel` over a `width × height` buffer. -/
def sobelDirection (atan : ℚ → ℚ) (M_PI : ℚ) (width height : Int) (buffer : Int → Int) :
    Int → Int :=
  (upTo height).foldl
    (fun direction y => sobelDirectionRow atan M_PI width height buffer direction y)
    (fun _ => 0)

/-- The `gradX` of the loop body of `sobel` for the pixel `(x, y)`. -/
def gradXAt (width height : Int) (buffer : Int → Int) (x y : Int) : Int :=
  let yOffset := y * width
  let grayLine := yOffset
  let grayLine_m1 := if y < 1 then grayLine else grayLine - width
  let grayLine_p1 := if y ≥ height - 1 then grayLine else grayLine + width
  let x_m1 := if x < 1 then x else x - 1
  let x_p1 := if x ≥ width - 1 then x else x + 1
  sobelGradX buffer grayLine_m1 grayLine grayLine_p1 x_m1 x_p1

/-- The `gradY` of the loop body of `sobel` for the pixel `(x, y)`. -/
def gradYAt (width height : Int) (buffer : Int → Int) (x y : Int) : Int :=
  let yOffset := y * width
  let grayLine := yOffset
  let grayLine_m1 := if y < 1 then grayLine else grayLine - width
  let grayLine_p1 := if y ≥ height - 1 then grayLine else grayLine + width
  let x_m1 := if x < 1 then x else x - 1
  let x_p1 := if x ≥ width - 1 then x else x + 1
  sobelGradY buffer grayLine_m1 grayLine_p1 x_m1 x x_p1

/-- An `atan` for exercising the classification: `atan (-21/11)` to three
decimals, and 0 elsewhere. -/
def sampleAtan : ℚ → ℚ := fun q => if q = -21 / 11 then -1088 / 1000 else 0

/-- A `23 × 3` image; only its size is used. -/
def dotsImage : FITSData := { width := 23, height := 3, imageBuffer := fun _ => 0 }

/-- A gradient field over `23 × 3` pixels with eleven isolated pixels of
positive magnitude in the middle row, the fourth three times as strong as the
others. -/
def dotsField : Int → Int := fun n =>
  if n / 23 = 1 ∧ (n % 23) % 2 = 1 then (if n % 23 = 7 then 3 else 1) else 0

/-! ## Notions for the regions of the partitioner -/

/-- One link of a chain inside a region: a step to a neighbour under the
adjacency rule that is in bounds, has positive magnitude and carries the label
`k`. -/
def linkStep (W H : Int) (g ids : Int → Int) (k : Int) (p q : Int × Int) : Prop :=
  adjacent p.1 p.2 q.1 q.2 ∧ inBounds W H q.1 q.2 ∧ g (q.1 + q.2 * W) > 0 ∧
    ids (q.1 + q.2 * W) = k

/-- A chain of pixels labelled `k`, each a neighbour of the one before. -/
def chain (W H : Int) (g ids : Int → Int) (k : Int) (p q : Int × Int) : Prop :=
  Relation.ReflTransGen (linkStep W H g ids k) p q

/-- One link of a chain of pixels of positive magnitude. -/
def posStep (W H : Int) (g : Int → Int) (p q : Int × Int) : Prop :=
  adjacent p.1 p.2 q.1 q.2 ∧ inBounds W H q.1 q.2 ∧ g (q.1 + q.2 * W) > 0

/-- The pixel `q` is linked to `p` through a chain of in-bounds pixels of
positive magnitude that are consecutive neighbours. -/
def linked (W H : Int) (g : Int → Int) (p q : Int × Int) : Prop :=
  Relation.ReflTransGen (posStep W H g) p q

/-- What a returning call of `trace` at `(x, y)` guarantees on the pixels it
labels: each is an in-bounds pixel joined to `(x, y)` by a chain labelled
`id`. -/
def TraceConn (W H id : Int) (g ids ids' : Int → Int) (x y : Int) : Prop :=
  ∀ n, ids n = 0 → ids' n ≠ 0 →
    ids' (x + y * W) = id ∧
    ∃ x' y', inBounds W H x' y' ∧ n = x' + y' * W ∧ chain W H g ids' id (x, y) (x', y')

/-- The loop invariant of `trace` on connectivity, relative to the map `ids1`
after the pixel `(x, y)` itself has been labelled. -/
def ConnInv (W H id : Int) (g ids1 : Int → Int) (x y : Int) (acc : Int → Int) : Prop :=
  (∀ n, ids1 n ≠ 0 → acc n = ids1 n) ∧
    ∀ n, ids1 n = 0 → acc n ≠ 0 →
      ∃ x' y', inBounds W H x' y' ∧ n = x' + y' * W ∧ chain W H g acc id (x, y) (x', y')

/-- The invariant of the scan of `partition` on connectivity: labels sit on
in-bounds pixels, and every region is chained to a seed inside the outermost
ring. -/
structure PartConn (W H : Int) (g : Int → Int) (st : Int × (Int → Int)) : Prop where
  inb : ∀ n, st.2 n ≠ 0 → ∃ x y, inBounds W H x y ∧ n = x + y * W
  seed : ∀ k, 1 ≤ k → k ≤ st.1 → ∃ sx sy, interior W H sx sy ∧ g (sx + sy * W) > 0 ∧
    st.2 (sx + sy * W) = k ∧
    ∀ x y, inBounds W H x y → st.2 (x + y * W) = k → chain W H g st.2 k (sx, sy) (x, y)

/-- The test `trace` makes at `(x, y)` before it looks at the magnitude of
`(x', y')`: the offset between them is one of the six, and `(x', y')` is in
bounds. -/
def considers (W H x y x' y' : Int) : Prop :=
  ∃ p ∈ traceOffsets, x' = x + p.1 ∧ y' = y + p.2 ∧ inBounds W H x' y'

/-- The function `trace` with a counter of the calls that do not return at
once (the calls that label a pixel); the state is the label map and the
counter. -/
def traceCalls : Nat → Int → Int → Int → (Int → Int) → (Int → Int) × Nat → Int → Int →
    Option ((Int → Int) × Nat)
  | 0, _, _, _, _, _, _, _ => none
  | fuel + 1, width, height, id, image, st, x, y =>
    let yOffset := y * width
    if st.1 (yOffset + x) ≠ 0 then some st
    else
      loop3.foldlM (fun acc j =>
        let nextY := y + j
        if nextY < 0 ∨ nextY ≥ height then some acc
        else
          loop3.foldlM (fun acc2 i =>
            let nextX := x + i
            if i = j ∨ nextX < 0 ∨ nextX ≥ width then some acc2
            else if image (yOffset + j * width + nextX) > 0 then
              traceCalls fuel width height id image acc2 nextX nextY
            else some acc2) acc) (setAt st.1 (yOffset + x) id, st.2 + 1)

/-! ## Further inputs -/

/-- A `9 × 9` image whose samples are all 7. -/
def plateauImage : FITSData := { width := 9, height := 9, imageBuffer := fun _ => 7 }

/-- A field over `4 × 3` pixels whose two pixels inside the outermost ring,
`(1, 1)` and `(2, 1)`, have magnitude 1. -/
def pairField : Int → Int := fun n => if n = 5 ∨ n = 6 then 1 else 0

/-! ## Variants with the rounding of the machine -/

instance plainMass.decidable (q : ℚ) : Decidable (plainMass q) := by
  unfold plainMass
  infer_instance

/-- The `return` statement by which `findSources<T>` leaves after
`partition`: `return 0` after `maxID == 0`, `return 0` of the noise test,
`return 0` after the radius scan found no width, or the final `return 1`. -/
inductive Exit where
  | noRegion
  | noise
  | noWidth
  | feature
  deriving DecidableEq

/-- The exit `findSources<T>` takes after `partition` has returned `maxID` and
filled `ids`: the guards of `detectFrom`, in the same order. -/
def detectExit (env : Collaborators) (data : FITSData) (boundary : QRect)
    (gradients : Int → Int) (maxID : Int) (ids : Int → Int) : Exit :=
  let subW := subW data boundary
  let subH := subH data boundary
  if maxID = 0 then Exit.noRegion
  else
    let masses := regionMasses subW subH gradients ids
    let sel := selectMax masses
    if isNoise maxID sel.totalMassRatio then Exit.noise
    else
      let m := QMap.value masses sel.maxRegionID
      let cx : ℚ := m.massX / m.totalMass + 1 / 2
      let cy : ℚ := m.massY / m.totalMass + 1 / 2
      let maxR := Int.tdiv (min (subW - 1) (subH - 1)) 2
      let width := radiusScan subW subH gradients env.rays cx cy (radii maxR)
      if width = -1 then Exit.noWidth else Exit.feature

/-- The horizontal gradient of `sobel<float>` at column `x`: the samples are
`float` values, the six terms are added and subtracted from left to right in
`float`, and the result is converted to `int`. -/
def sobelGradXFloat (buffer : Int → ℚ) (grayLine_m1 grayLine grayLine_p1 x_m1 x_p1 : Int) :
    Int :=
  toInt32
    (float32 (float32 (float32 (float32 (float32 (buffer (grayLine_m1 + x_p1)
      + float32 (2 * buffer (grayLine + x_p1))) + buffer (grayLine_p1 + x_p1))
      - buffer (grayLine_m1 + x_m1)) - float32 (2 * buffer (grayLine + x_m1)))
      - buffer (grayLine_p1 + x_m1)))

/-- The vertical gradient of `sobel<float>` at column `x`. -/
def sobelGradYFloat (buffer : Int → ℚ) (grayLine_m1 grayLine_p1 x_m1 x x_p1 : Int) : Int :=
  toInt32
    (float32 (float32 (float32 (float32 (float32 (buffer (grayLine_m1 + x_m1)
      + float32 (2 * buffer (grayLine_m1 + x))) + buffer (grayLine_m1 + x_p1))
      - buffer (grayLine_p1 + x_m1)) - float32 (2 * buffer (grayLine_p1 + x)))
      - buffer (grayLine_p1 + x_p1)))

/-- One row of `sobel<float>`. -/
def sobelRowFloat (width height : Int) (buffer : Int → ℚ) (gradient : Int → Int) (y : Int) :
    Int → Int :=
  let yOffset := y * width
  let grayLine := yOffset
  let grayLine_m1 := if y < 1 then grayLine else grayLine - width
  let grayLine_p1 := if y ≥ height - 1 then grayLine else grayLine + width
  (upTo width).foldl (fun gradient x =>
    let x_m1 := if x < 1 then x else x - 1
    let x_p1 := if x ≥ width - 1 then x else x + 1
    let gradX := sobelGradXFloat buffer grayLine_m1 grayLine grayLine_p1 x_m1 x_p1
    let gradY := sobelGradYFloat buffer grayLine_m1 grayLine_p1 x_m1 x x_p1
    setAt gradient (yOffset + x) (|gradX| + |gradY|)) gradient

/-- The gradient output of `sobel<float>` over a `width × height` buffer of
`float` samples.  The entries are the `int` sums `qAbs(gradX) + qAbs(gradY)`;
the vector stores them as `float`, which keeps their sign. -/
def sobelFloat (width height : Int) (buffer : Int → ℚ) : Int → Int :=
  (upTo height).foldl (fun gradient y => sobelRowFloat width height buffer gradient y)
    (fun _ => 0)

/-- The mass accumulation loop (`#7`) with the `float` fields of `massInfo`:
`pixel` is the `float` entry of the gradient vector, and every product and sum
is rounded to `float`. -/
def accumulateMassesFloat (subW subH : Int) (gradients ids : Int → Int) : QMap :=
  (upTo subH).foldl (fun masses y =>
    (upTo subW).foldl (fun masses x =>
      let index := x + y * subW
      let regionID := ids index
      if regionID > 0 then
        let pixel : ℚ := float32 (gradients index : ℚ)
        QMap.modify masses regionID (fun m =>
          { totalMass := float32 (m.totalMass + pixel)
            massX := float32 (m.massX + float32 (float32 (x : ℚ) * pixel))
            massY := float32 (m.massY + float32 (float32 (y : ℚ) * pixel)) })
      else masses) masses) []

/-- The table `masses` with `float` fields as the selection loop sees it. -/
def regionMassesFloat (subW subH : Int) (gradients ids : Int → Int) : QMap :=
  QMap.modify (accumulateMassesFloat subW subH gradients ids) 1 id

/-- The entry of the selected region in the table with `float` fields. -/
def selectedMassFloat (W H : Int) (g ids : Int → Int) : massInfo :=
  QMap.value (regionMassesFloat W H g ids)
    (selectMax (regionMassesFloat W H g ids)).maxRegionID

/-- The sub-region-local `center->y` from the `float` fields: the quotient
`massY / totalMass` is rounded to `float`; the sum with `0.5` is formed in
`double` and taken as exact. -/
def centerYFloat (W H : Int) (g ids : Int → Int) : ℚ :=
  float32 ((selectedMassFloat W H g ids).massY / (selectedMassFloat W H g ids).totalMass) + 1 / 2

/-- The sub-region-local `center->x` from the `float` fields. -/
def centerXFloat (W H : Int) (g ids : Int → Int) : ℚ :=
  float32 ((selectedMassFloat W H g ids).massX / (selectedMassFloat W H g ids).totalMass) + 1 / 2

/-- The row `cen_y = qRound(center->y)` from the `float` fields. -/
def sampledRowFloat (W H : Int) (g ids : Int → Int) : Int := qRound (centerYFloat W H g ids)

/-- A flat buffer of `float` samples, all `8388609 = 2^23 + 1`. -/
def flatFloat : Int → ℚ := fun _ => 8388609

/-- The image `blobImage` with its first bright pixel raised to `2^28`. -/
def brightImage : FITSData :=
  { width := 45, height := 5
    imageBuffer := fun n =>
      if n / 45 = 2 ∧ (n % 45) % 4 = 2 then (if n % 45 = 2 then 268435456 else 10) else 0 }

/-- The gradient field of `brightImage` in closed form: a ring of magnitude
`2^29` around the first bright pixel and ten rings of magnitude 20. -/
def brightField : Int → Int := fun n =>
  if 0 ≤ n ∧ n < 225 then
    if 1 ≤ n / 45 ∧ n / 45 ≤ 3 ∧ (n % 45) % 4 ≠ 0 ∧ ¬ (n / 45 = 2 ∧ (n % 45) % 4 = 2) then
      (if n % 45 < 4 then 536870912 else 20)
    else 0
  else 0

/-- A `7 × 7` image whose samples are all 7. -/
def heavyImage : FITSData := { width := 7, height := 7, imageBuffer := fun _ => 7 }

/-- A gradient field over `7 × 7` pixels: the pixel `(3, 5)` has magnitude 2,
the pixel `(3, 6)` of the last row has magnitude `2^25`, every other pixel has
magnitude 0. -/
def borderField : Int → Int := fun n => if n = 38 then 2 else if n = 45 then 33554432 else 0

theorem mem_upTo {n k : Int} : k ∈ upTo n ↔ 0 ≤ k ∧ k < n := by
  unfold upTo
  simp only [List.mem_map, List.mem_range]
  constructor
  · rintro ⟨a, ha, rfl⟩

    omega
  · rintro ⟨h0, h1⟩
    exact ⟨k.toNat, by omega, by omega⟩

theorem mem_from1 {n k : Int} : k ∈ from1 n ↔ 1 ≤ k ∧ k < n := by
  unfold from1
  simp only [List.mem_map, List.mem_range]
  constructor
  · rintro ⟨a, ha, rfl⟩
    omega
  · rintro ⟨h0, h1⟩
    exact ⟨(k - 1).toNat, by omega, by omega⟩

theorem mem_loop3 {k : Int} : k ∈ loop3 ↔ k = -1 ∨ k = 0 ∨ k = 1 := by
  simp [loop3]

/-- Two in-bounds pixels with the same index are the same pixel. -/
theorem index_inj {W x y x' y' : Int} (hx : 0 ≤ x) (hxW : x < W) (hx' : 0 ≤ x') (hxW' : x' < W)
    (h : x + y * W = x' + y' * W) : x = x' ∧ y = y' := by
  have hy : y = y' := by
    rcases lt_trichotomy y y' with hlt | heq | hgt
    · exfalso
      have : (y' - y) * W ≥ 1 * W := by
        apply mul_le_mul_of_nonneg_right <;> omega
      nlinarith
    · exact heq
    · exfalso
      have : (y - y') * W ≥ 1 * W := by
        apply mul_le_mul_of_nonneg_right <;> omega
      nlinarith
  subst hy
  exact ⟨by omega, rfl⟩

/-- The index of an in-bounds pixel lies in the vector. -/
theorem index_bounds {W H x y : Int} (hx : 0 ≤ x) (hxW : x < W) (hy : 0 ≤ y) (hyH : y < H) :
    0 ≤ x + y * W ∧ x + y * W < W * H := by
  constructor
  · have : 0 ≤ y * W := mul_nonneg hy (by omega)
    omega
  · have : (y + 1) * W ≤ H * W := by
      apply mul_le_mul_of_nonneg_right <;> omega
    nlinarith

/-- A loop of writes at `b + k`, read back at one index. -/
theorem foldl_setAt (f : Int → Int) (b : Int) (l : List Int) (g0 : Int → Int) (n : Int) :
    (l.foldl (fun g k => setAt g (b + k) (f k)) g0) n
      = if (n - b) ∈ l then f (n - b) else g0 n := by
  induction l generalizing g0 with
  | nil => simp
  | cons k l ih =>
    rw [List.foldl_cons, ih]
    by_cases h1 : n - b ∈ l
    · simp [h1]
    · by_cases h2 : n - b = k
      · subst h2
        simp [h1, setAt]
      · have : ¬ n = b + k := by omega
        simp [h1, h2, setAt, this]

theorem sobelRow_apply (W H : Int) (I g : Int → Int) (y n : Int) :
    sobelRow W H I g y n = if (n - y * W) ∈ upTo W then sobelMag W H I (n - y * W) y else g n := by
  exact foldl_setAt (fun x => sobelMag W H I x y) (y * W) (upTo W) g n

theorem sobel_rows (W H : Int) (I : Int → Int) (l : List Int) (g0 : Int → Int) (x y : Int)
    (hx : 0 ≤ x) (hxW : x < W) :
    (l.foldl (fun gradient y => sobelRow W H I gradient y) g0) (x + y * W)
      = if y ∈ l then sobelMag W H I x y else g0 (x + y * W) := by
  induction l generalizing g0 with
  | nil => simp
  | cons y' l ih =>
    rw [List.foldl_cons, ih]
    by_cases h1 : y ∈ l
    · simp [h1]
    · rw [if_neg h1, sobelRow_apply]
      by_cases h2 : y = y'
      · subst h2
        have : x + y * W - y * W = x := by ring
        rw [this, if_pos (mem_upTo.2 ⟨hx, hxW⟩)]
        simp
      · have : ¬ (x + y * W - y' * W) ∈ upTo W := by
          rw [mem_upTo]
          rintro ⟨h3, h4⟩
          have := @index_inj W x y (x + y * W - y' * W) y'
            hx hxW h3 h4 (by ring)
          exact h2 this.2
        rw [if_neg this]
        simp [h2, h1]

theorem sobel_outside_rows (W H : Int) (I : Int → Int) (l : List Int) (g0 : Int → Int) (n : Int)
    (hn : ∀ x y, 0 ≤ x → x < W → y ∈ l → x + y * W ≠ n) :
    (l.foldl (fun gradient y => sobelRow W H I gradient y) g0) n = g0 n := by
  induction l generalizing g0 with
  | nil => simp
  | cons y' l ih =>
    rw [List.foldl_cons, ih _ (fun x y h1 h2 h3 => hn x y h1 h2 (List.mem_cons_of_mem _ h3)),
      sobelRow_apply]
    have : ¬ (n - y' * W) ∈ upTo W := by
      rw [mem_upTo]
      rintro ⟨h3, h4⟩
      exact hn (n - y' * W) y' h3 h4 (List.mem_cons_self _ _) (by ring)
    rw [if_neg this]

theorem sobel_at (W H : Int) (I : Int → Int) (x y : Int)
    (hx : 0 ≤ x) (hxW : x < W) (hy : 0 ≤ y) (hyH : y < H) :
    sobel W H I (x + y * W) = sobelMag W H I x y := by
  unfold sobel
  rw [sobel_rows W H I _ _ x y hx hxW, if_pos (mem_upTo.2 ⟨hy, hyH⟩)]

theorem sobel_outside (W H : Int) (I : Int → Int) (n : Int)
    (hn : ∀ x y, 0 ≤ x → x < W → 0 ≤ y → y < H → x + y * W ≠ n) :
    sobel W H I n = 0 := by
  unfold sobel
  rw [sobel_outside_rows]
  intro x y h1 h2 h3
  rw [mem_upTo] at h3
  exact hn x y h1 h2 h3.1 h3.2

/-- The output of `sobel`, entry by entry. -/
theorem sobel_eq_sobelField (W H : Int) (I : Int → Int) (hW : 0 < W) :
    sobel W H I = sobelField W H I := by
  funext n
  unfold sobelField
  split_ifs with h
  · have h1 : 0 ≤ n % W := Int.emod_nonneg n (by omega)
    have h2 : n % W < W := Int.emod_lt_of_pos n hW
    have h3 : 0 ≤ n / W := Int.ediv_nonneg h.1 (by omega)
    have h4 : n / W < H := by
      rw [Int.ediv_lt_iff_lt_mul hW]
      rw [mul_comm]; exact h.2
    have h5 : n % W + n / W * W = n := by
      rw [mul_comm]; exact Int.emod_add_ediv n W
    have := sobel_at W H I (n % W) (n / W) h1 h2 h3 h4
    rw [h5] at this
    exact this
  · apply sobel_outside
    intro x y hx hxW hy hyH he
    have := index_bounds hx hxW hy hyH
    rw [he] at this
    exact h this

/-- The value of `sobel` at a pixel, with the rows and columns clamped by
`max` and `min`. -/
theorem sobel_clamped (W H : Int) (I : Int → Int) (x y : Int)
    (hx : 0 ≤ x) (hxW : x < W) (hy : 0 ≤ y) (hyH : y < H) :
    sobel W H I (x + y * W) =
      |(I (min (x + 1) (W - 1) + max (y - 1) 0 * W) + 2 * I (min (x + 1) (W - 1) + y * W)
            + I (min (x + 1) (W - 1) + min (y + 1) (H - 1) * W))
          - (I (max (x - 1) 0 + max (y - 1) 0 * W) + 2 * I (max (x - 1) 0 + y * W)
            + I (max (x - 1) 0 + min (y + 1) (H - 1) * W))|
      + |(I (max (x - 1) 0 + max (y - 1) 0 * W) + 2 * I (x + max (y - 1) 0 * W)
            + I (min (x + 1) (W - 1) + max (y - 1) 0 * W))
          - (I (max (x - 1) 0 + min (y + 1) (H - 1) * W) + 2 * I (x + min (y + 1) (H - 1) * W)
            + I (min (x + 1) (W - 1) + min (y + 1) (H - 1) * W))| := by
  rw [sobel_at W H I x y hx hxW hy hyH]
  unfold sobelMag sobelGradX sobelGradY
  simp only []
  have e1 : (if x < 1 then x else x - 1) = max (x - 1) 0 := by
    split_ifs <;> omega
  have e2 : (if x ≥ W - 1 then x else x + 1) = min (x + 1) (W - 1) := by
    split_ifs <;> omega
  have e3 : (if y < 1 then y * W else y * W - W) = max (y - 1) 0 * W := by
    split_ifs with h
    · have : max (y - 1) 0 = y := by omega
      rw [this]
    · have : max (y - 1) 0 = y - 1 := by omega
      rw [this]; ring
  have e4 : (if y ≥ H - 1 then y * W else y * W + W) = min (y + 1) (H - 1) * W := by
    split_ifs with h
    · have : min (y + 1) (H - 1) = y := by omega
      rw [this]
    · have : min (y + 1) (H - 1) = y + 1 := by omega
      rw [this]; ring
  rw [e1, e2, e3, e4]
  congr 2 <;> ring_nf


/-! ## Flood fill -/



/-- An invariant of a loop in the `Option` monad: every step succeeds. -/
theorem foldlM_inv {α β : Type} (f : β → α → Option β) (P : β → Prop) (Q : α → β → Prop)
    (l : List α) (b : β) (hP : P b)
    (hstep : ∀ b a, a ∈ l → P b → ∃ b', f b a = some b' ∧ P b' ∧ Q a b' ∧
      ∀ a', Q a' b → Q a' b') :
    ∃ r, l.foldlM f b = some r ∧ P r ∧ ∀ a ∈ l, Q a r := by
  induction l generalizing b P with
  | nil => exact ⟨b, rfl, hP, by simp⟩
  | cons a l ih =>
    obtain ⟨b', hb', hP', hQ', hpres⟩ := hstep b a (List.mem_cons_self _ _) hP
    -- strengthen the invariant with `Q a`
    have := ih (fun b => P b ∧ Q a b) b' ⟨hP', hQ'⟩ (fun b a' ha' hb => by
      obtain ⟨c, hc, hPc, hQc, hpc⟩ := hstep b a' (List.mem_cons_of_mem _ ha') hb.1
      exact ⟨c, hc, ⟨hPc, hpc a hb.2⟩, hQc, hpc⟩)
    obtain ⟨r, hr, ⟨hPr, hQr⟩, hall⟩ := this
    refine ⟨r, ?_, hPr, ?_⟩
    · simp [List.foldlM_cons, hb', hr]
    · intro a' ha'
      rcases List.mem_cons.1 ha' with rfl | h
      · exact hQr
      · exact hall a' h

theorem unlabelled_mono (W H : Int) (ids ids' : Int → Int)
    (h : ∀ n, ids n ≠ 0 → ids' n = ids n) : unlabelled W H ids' ≤ unlabelled W H ids := by
  unfold unlabelled
  apply Finset.card_le_card
  intro n hn
  rw [Finset.mem_filter] at hn ⊢
  refine ⟨hn.1, ?_⟩
  by_contra hne
  rw [h n hne] at hn
  exact hne hn.2

theorem unlabelled_setAt (W H : Int) (ids : Int → Int) (x y id : Int) (hid : id ≠ 0)
    (hb : inBounds W H x y) (h0 : ids (x + y * W) = 0) :
    unlabelled W H (setAt ids (x + y * W) id) < unlabelled W H ids := by
  unfold unlabelled
  apply Finset.card_lt_card
  rw [Finset.ssubset_iff_of_subset]
  · refine ⟨x + y * W, ?_, ?_⟩
    · rw [Finset.mem_filter, Finset.mem_Ico]
      exact ⟨index_bounds hb.1 hb.2.1 hb.2.2.1 hb.2.2.2, h0⟩
    · rw [Finset.mem_filter]
      simp [setAt, hid]
  · intro n hn
    rw [Finset.mem_filter] at hn ⊢
    refine ⟨hn.1, ?_⟩
    have := hn.2
    unfold setAt at this
    split_ifs at this with h
    · exact absurd this hid
    · exact this

theorem unlabelled_le (W H : Int) (ids : Int → Int) : unlabelled W H ids ≤ (W * H).toNat := by
  unfold unlabelled
  calc _ ≤ (Finset.Ico (0 : Int) (W * H)).card := Finset.card_filter_le _ _
    _ = (W * H).toNat := by simp

theorem neighboursLabelled_mono (W H : Int) (g ids ids' : Int → Int) (x y : Int)
    (h : ∀ n, ids n ≠ 0 → ids' n = ids n) (hg : neighboursLabelled W H g ids x y) :
    neighboursLabelled W H g ids' x y := by
  intro x' y' ha hb hpos
  have := hg x' y' ha hb hpos
  rw [h _ this]
  exact this

/-- Composition of the guarantee of a nested call with the loop invariant. -/
theorem tracePost_step (W H id : Int) (g ids1 acc acc' : Int → Int) (x y : Int)
    (hP : TraceInv W H id g ids1 acc) (hseed : g (x + y * W) > 0)
    (hT : TracePost W H id g acc acc' x y) : TraceInv W H id g ids1 acc' := by
  obtain ⟨h1, h2, h3, h4⟩ := hP
  refine ⟨?_, ?_, ?_, ?_⟩
  · intro n hn
    rw [hT.mono n (by rw [h1 n hn]; exact hn), h1 n hn]
  · intro n
    rcases hT.only n with h | h
    · rw [h]; exact h2 n
    · exact Or.inr h
  · intro x' y' hb h0 hne
    by_cases hacc : acc (x' + y' * W) = 0
    · exact hT.good x' y' hb hacc hne
    · exact neighboursLabelled_mono W H g acc acc' x' y' hT.mono (h3 x' y' hb h0 hacc)
  · intro n h0 hne
    by_cases hacc : acc n = 0
    · rcases hT.pos n hacc hne with h | h
      · rw [h]; exact hseed
      · exact h
    · exact h4 n h0 hacc

/-- With fuel above the number of unlabelled entries, `trace` returns, and its
result satisfies `TracePost`. -/
theorem trace_post (W H id : Int) (g : Int → Int) (hid : id ≠ 0) (fuel : Nat) :
    ∀ (ids : Int → Int) (x y : Int), inBounds W H x y → unlabelled W H ids < fuel →
      ∃ ids', trace fuel W H id g ids x y = some ids' ∧ TracePost W H id g ids ids' x y := by
  induction fuel with
  | zero => intro ids x y _ h; exact absurd h (Nat.not_lt_zero _)
  | succ fuel ih =>
    intro ids x y hb hfuel
    have hidx : y * W + x = x + y * W := by ring
    unfold trace
    simp only []
    by_cases hlab : ids (y * W + x) ≠ 0
    · rw [if_pos hlab]
      refine ⟨ids, rfl, ⟨fun _ _ => rfl, fun _ => Or.inl rfl, by rw [← hidx]; exact hlab, ?_,
        fun _ h0 hne => absurd h0 hne⟩⟩
      intro x' y' _ h0 hne
      exact absurd h0 hne
    · rw [if_neg hlab]
      have h0 : ids (x + y * W) = 0 := by
        rw [← hidx]; exact not_not.1 hlab
      have hlt : unlabelled W H (setAt ids (x + y * W) id) < unlabelled W H ids :=
        unlabelled_setAt W H ids x y id hid hb h0
      rw [hidx]
      -- the invariant holds initially
      have hP0 : TraceInv W H id g (setAt ids (x + y * W) id) (setAt ids (x + y * W) id) :=
        ⟨fun _ _ => rfl, fun _ => Or.inl rfl, fun _ _ _ h0 hne => absurd h0 hne,
          fun _ h0 hne => absurd h0 hne⟩
      -- the outer loop
      obtain ⟨r, hr, hPr, hQr⟩ := foldlM_inv
        (fun acc j =>
          if y + j < 0 ∨ y + j ≥ H then some acc
          else
            loop3.foldlM (fun acc2 i =>
              if i = j ∨ x + i < 0 ∨ x + i ≥ W then some acc2
              else if g (y * W + j * W + (x + i)) > 0 then
                trace fuel W H id g acc2 (x + i) (y + j)
              else some acc2) acc)
        (TraceInv W H id g (setAt ids (x + y * W) id))
        (fun j acc => ∀ i ∈ loop3, i ≠ j → inBounds W H (x + i) (y + j) →
          g ((x + i) + (y + j) * W) > 0 → acc ((x + i) + (y + j) * W) ≠ 0)
        loop3 (setAt ids (x + y * W) id) hP0
        (by
          intro acc j hj hP
          beta_reduce
          by_cases hyb : y + j < 0 ∨ y + j ≥ H
          · rw [if_pos hyb]
            refine ⟨acc, rfl, hP, ?_, fun _ h => h⟩
            intro i _ _ hbi
            exfalso
            rcases hyb with h | h
            · exact absurd hbi.2.2.1 (by omega)
            · exact absurd hbi.2.2.2 (by omega)
          · rw [if_neg hyb]
            -- the inner loop
            obtain ⟨r2, hr2, ⟨hPr2, hmono2⟩, hQr2⟩ := foldlM_inv
              (fun acc2 i =>
                if i = j ∨ x + i < 0 ∨ x + i ≥ W then some acc2
                else if g (y * W + j * W + (x + i)) > 0 then
                  trace fuel W H id g acc2 (x + i) (y + j)
                else some acc2)
              (fun b => TraceInv W H id g (setAt ids (x + y * W) id) b ∧
                ∀ n, acc n ≠ 0 → b n = acc n)
              (fun i b => i ≠ j → inBounds W H (x + i) (y + j) →
                g ((x + i) + (y + j) * W) > 0 → b ((x + i) + (y + j) * W) ≠ 0)
              loop3 acc ⟨hP, fun _ _ => rfl⟩
              (by
                intro b i hi hb2
                beta_reduce
                have he : y * W + j * W + (x + i) = (x + i) + (y + j) * W := by ring
                by_cases hxb : i = j ∨ x + i < 0 ∨ x + i ≥ W
                · rw [if_pos hxb]
                  refine ⟨b, rfl, hb2, ?_, fun _ h => h⟩
                  intro hne hbi
                  exfalso
                  rcases hxb with h | h | h
                  · exact hne h
                  · exact absurd hbi.1 (by omega)
                  · exact absurd hbi.2.1 (by omega)
                · rw [if_neg hxb]
                  by_cases hpos : g (y * W + j * W + (x + i)) > 0
                  · rw [if_pos hpos]
                    have hbi : inBounds W H (x + i) (y + j) := by
                      unfold inBounds
                      push_neg at hxb hyb
                      omega
                    have hfu : unlabelled W H b < fuel := by
                      have := unlabelled_mono W H _ b hb2.1.1
                      omega
                    obtain ⟨b', hb', hT⟩ := ih b (x + i) (y + j) hbi hfu
                    refine ⟨b', hb', ⟨tracePost_step W H id g _ b b' _ _ hb2.1 (he ▸ hpos) hT, ?_⟩,
                      fun _ _ _ => hT.here, ?_⟩
                    · intro n hn
                      rw [hT.mono n (by rw [hb2.2 n hn]; exact hn), hb2.2 n hn]
                    · intro a' hQ h1 h2 h3
                      rw [hT.mono _ (hQ h1 h2 h3)]
                      exact hQ h1 h2 h3
                  · rw [if_neg hpos]
                    refine ⟨b, rfl, hb2, ?_, fun _ h => h⟩
                    intro _ _ hg
                    rw [he] at hpos
                    exact absurd hg hpos)
            refine ⟨r2, hr2, hPr2, ?_, ?_⟩
            · intro i hi hne hbi hg
              exact hQr2 i hi hne hbi hg
            · intro j' hQ i hi hne hbi hg
              rw [hmono2 _ (hQ i hi hne hbi hg)]
              exact hQ i hi hne hbi hg)
      refine ⟨r, hr, ?_⟩
      obtain ⟨hm, ho, hgd, hps⟩ := hPr
      have hself : setAt ids (x + y * W) id (x + y * W) = id := by simp [setAt]
      have hoth : ∀ n, n ≠ x + y * W → setAt ids (x + y * W) id n = ids n := by
        intro n hn; simp [setAt, hn]
      refine ⟨?_, ?_, ?_, ?_, ?_⟩
      · intro n hn
        have hne : n ≠ x + y * W := by
          rintro rfl; exact hn h0
        rw [hm n (by rw [hoth n hne]; exact hn), hoth n hne]
      · intro n
        by_cases hne : n = x + y * W
        · subst hne
          right
          rw [hm _ (by rw [hself]; exact hid), hself]
        · rcases ho n with h | h
          · left; rw [h, hoth n hne]
          · right; exact h
      · rw [hm _ (by rw [hself]; exact hid), hself]
        exact hid
      · intro x' y' hb' h0' hne'
        by_cases heq : x' + y' * W = x + y * W
        · obtain ⟨rfl, rfl⟩ := index_inj hb'.1 hb'.2.1 hb.1 hb.2.1 heq
          intro x2 y2 hadj hb2 hg2
          obtain ⟨i, hi, j, hj, hne, rfl, rfl⟩ := hadj
          exact hQr j hj i hi hne hb2 hg2
        · exact hgd x' y' hb' (by rw [hoth _ heq]; exact h0') hne'
      · intro n h0n hnen
        by_cases heq : n = x + y * W
        · exact Or.inl heq
        · exact Or.inr (hps n (by rw [hoth _ heq]; exact h0n) hnen)

theorem interior_inBounds {W H x y : Int} (h : interior W H x y) : inBounds W H x y := by
  unfold interior at h
  unfold inBounds
  omega

theorem adjacent_symm {x y x' y' : Int} (h : adjacent x y x' y') : adjacent x' y' x y := by
  obtain ⟨i, hi, j, hj, hne, rfl, rfl⟩ := h
  rw [mem_loop3] at hi hj
  refine ⟨-i, ?_, -j, ?_, ?_, by ring, by ring⟩
  · rw [mem_loop3]; omega
  · rw [mem_loop3]; omega
  · omega

/-- One step of the scan keeps the invariant, only adds labels, and leaves the
scanned pixel labelled when its magnitude is positive. -/
theorem partitionStep_inv (W H : Int) (g : Int → Int) (x y : Int) (hint : interior W H x y)
    (st : Int × (Int → Int)) (hinv : PartInv W H g st) :
    ∃ st', partitionStep W H g y st x = some st' ∧ PartInv W H g st' ∧
      (∀ n, st.2 n ≠ 0 → st'.2 n = st.2 n) ∧
      (g (x + y * W) > 0 → st'.2 (x + y * W) ≠ 0) := by
  unfold partitionStep
  simp only []
  by_cases hc : g (x + y * W) > 0 ∧ st.2 (x + y * W) = 0
  · rw [if_pos hc]
    have hid : st.1 + 1 ≠ 0 := by have := hinv.id_nonneg; omega
    have hfuel : unlabelled W H st.2 < traceFuel W H := by
      have := unlabelled_le W H st.2
      unfold traceFuel
      omega
    obtain ⟨ids', he, hT⟩ := trace_post W H (st.1 + 1) g hid (traceFuel W H) st.2 x y
      (interior_inBounds hint) hfuel
    refine ⟨(st.1 + 1, ids'), by rw [he]; rfl, ?_, hT.mono, fun _ => hT.here⟩
    have hnew : ∀ n, st.2 n = 0 → ids' n ≠ 0 → ids' n = st.1 + 1 := by
      intro n h0 hne
      rcases hT.only n with h | h
      · rw [h] at hne; exact absurd h0 hne
      · exact h
    have hpos : ∀ n, st.2 n = 0 → ids' n ≠ 0 → g n > 0 := by
      intro n h0 hne
      rcases hT.pos n h0 hne with h | h
      · rw [h]; exact hc.1
      · exact h
    refine ⟨?_, ?_, ?_, ?_, ?_⟩
    · have := hinv.id_nonneg
      show 0 ≤ st.1 + 1
      omega
    · intro n
      show 0 ≤ ids' n ∧ ids' n ≤ st.1 + 1
      have h1 := hinv.range n
      have h2 := hinv.id_nonneg
      rcases hT.only n with h | h <;> rw [h] <;> omega
    · intro k hk1 hk2
      show ∃ x y, interior W H x y ∧ ids' (x + y * W) = k
      by_cases hk : k = st.1 + 1
      · exact ⟨x, y, hint, by rw [hk]; exact hnew _ hc.2 hT.here⟩
      · obtain ⟨x0, y0, hi0, h0⟩ := hinv.surj k hk1 (by change k ≤ st.1 + 1 at hk2; omega)
        exact ⟨x0, y0, hi0, by rw [hT.mono _ (by rw [h0]; omega), h0]⟩
    · intro n hn
      change ids' n ≠ 0 at hn
      by_cases h0 : st.2 n = 0
      · exact hpos n h0 hn
      · exact hinv.pos n h0
    · intro x1 y1 hb1 hl1 x2 y2 hadj hb2 hg2
      change ids' (x1 + y1 * W) ≠ 0 at hl1
      show ids' (x2 + y2 * W) = ids' (x1 + y1 * W)
      by_cases h1 : st.2 (x1 + y1 * W) = 0
      · -- a newly labelled pixel
        have hgood := hT.good x1 y1 hb1 h1 hl1 x2 y2 hadj hb2 hg2
        have h2 : st.2 (x2 + y2 * W) = 0 := by
          by_contra h2
          have := hinv.closed x2 y2 hb2 h2 x1 y1 (adjacent_symm hadj) hb1 (hpos _ h1 hl1)
          rw [h1] at this
          exact h2 this.symm
        rw [hnew _ h1 hl1, hnew _ h2 hgood]
      · have h2 := hinv.closed x1 y1 hb1 h1 x2 y2 hadj hb2 hg2
        rw [hT.mono _ h1, hT.mono _ (by rw [h2]; exact h1), h2]
  · rw [if_neg hc]
    refine ⟨st, rfl, hinv, fun _ _ => rfl, ?_⟩
    intro hg h0
    exact hc ⟨hg, h0⟩

/-- The guarantee of one row of the scan. -/
theorem partitionRow_inv (W H : Int) (g : Int → Int) (y : Int) (hy : 1 ≤ y ∧ y < H - 1)
    (st : Int × (Int → Int)) (hinv : PartInv W H g st) :
    ∃ st', partitionRow W H g st y = some st' ∧ PartInv W H g st' ∧
      (∀ n, st.2 n ≠ 0 → st'.2 n = st.2 n) ∧
      (∀ x ∈ from1 (W - 1), g (x + y * W) > 0 → st'.2 (x + y * W) ≠ 0) := by
  unfold partitionRow
  obtain ⟨r, hr, ⟨hP, hm⟩, hQ⟩ := foldlM_inv (partitionStep W H g y)
    (fun b => PartInv W H g b ∧ ∀ n, st.2 n ≠ 0 → b.2 n = st.2 n)
    (fun x b => g (x + y * W) > 0 → b.2 (x + y * W) ≠ 0)
    (from1 (W - 1)) st ⟨hinv, fun _ _ => rfl⟩
    (by
      intro b x hx hb
      rw [mem_from1] at hx
      obtain ⟨b', hb', hI, hmono, hhere⟩ := partitionStep_inv W H g x y
        ⟨hx.1, hx.2, hy.1, hy.2⟩ b hb.1
      refine ⟨b', hb', ⟨hI, ?_⟩, hhere, ?_⟩
      · intro n hn
        rw [hmono n (by rw [hb.2 n hn]; exact hn), hb.2 n hn]
      · intro a' hQ hg
        rw [hmono _ (hQ hg)]
        exact hQ hg)
  exact ⟨r, hr, hP, hm, hQ⟩

/-- The all-zero label map with `id = 0` satisfies the invariant. -/
theorem partInv_zero (W H : Int) (g : Int → Int) : PartInv W H g (0, fun _ => 0) :=
  ⟨le_refl _, fun _ => ⟨le_refl _, le_refl _⟩, fun k h1 h2 => by
    change k ≤ 0 at h2; omega, fun _ h => absurd rfl h, fun _ _ _ h => absurd rfl h⟩

/-- The function `partition` returns from the all-zero label map, its result
satisfies the invariant, and every pixel inside the outermost ring that has
positive magnitude is labelled. -/
theorem partition_inv (W H : Int) (g : Int → Int) :
    ∃ st, partition W H g (fun _ => 0) = some st ∧ PartInv W H g st ∧
      (∀ x y, interior W H x y → g (x + y * W) > 0 → st.2 (x + y * W) ≠ 0) := by
  unfold partition
  obtain ⟨r, hr, hP, hQ⟩ := foldlM_inv (partitionRow W H g)
    (fun b => PartInv W H g b)
    (fun y b => ∀ x ∈ from1 (W - 1), g (x + y * W) > 0 → b.2 (x + y * W) ≠ 0)
    (from1 (H - 1)) (0, fun _ => 0) (partInv_zero W H g)
    (by
      intro b y hy hb
      rw [mem_from1] at hy
      obtain ⟨b', hb', hI, hmono, hrow⟩ := partitionRow_inv W H g y hy b hb
      refine ⟨b', hb', hI, hrow, ?_⟩
      intro y' hQ x hx hg
      rw [hmono _ (hQ x hx hg)]
      exact hQ x hx hg)
  refine ⟨r, hr, hP, ?_⟩
  intro x y hint hg
  exact hQ y (mem_from1.2 ⟨hint.2.2.1, hint.2.2.2⟩) x (mem_from1.2 ⟨hint.1, hint.2.1⟩) hg

/-! ## Claims on `sobel` -/

/-- C2: at every pixel `(x, y)` of a `W × H` buffer `I`, `sobel` stores at index
`x + y*W` the magnitude `|gradX| + |gradY|` of the claim, with the columns
`x - 1`, `x + 1` and the rows `y - 1`, `y + 1` clamped to the buffer (`I[r][c]`
is `I (c + r*W)`). -/
theorem sobel_magnitude (W H : Int) (I : Int → Int) (x y : Int)
    (hx : 0 ≤ x) (hxW : x < W) (hy : 0 ≤ y) (hyH : y < H) :
    sobel W H I (x + y * W) =
      |(I (min (x + 1) (W - 1) + max (y - 1) 0 * W) + 2 * I (min (x + 1) (W - 1) + y * W)
            + I (min (x + 1) (W - 1) + min (y + 1) (H - 1) * W))
          - (I (max (x - 1) 0 + max (y - 1) 0 * W) + 2 * I (max (x - 1) 0 + y * W)
            + I (max (x - 1) 0 + min (y + 1) (H - 1) * W))|
      + |(I (max (x - 1) 0 + max (y - 1) 0 * W) + 2 * I (x + max (y - 1) 0 * W)
            + I (min (x + 1) (W - 1) + max (y - 1) 0 * W))
          - (I (max (x - 1) 0 + min (y + 1) (H - 1) * W) + 2 * I (x + min (y + 1) (H - 1) * W)
            + I (min (x + 1) (W - 1) + min (y + 1) (H - 1) * W))| :=
  sobel_clamped W H I x y hx hxW hy hyH

/-- Witness of C2: the corner-column pixel `(0, 1)` of the ramp image. -/
theorem sobel_magnitude_witness :
    (0 : Int) ≤ 0 ∧ (0 : Int) < 3 ∧ (0 : Int) ≤ 1 ∧ (1 : Int) < 2 ∧
    sobel 3 2 rampImage (0 + 1 * 3) = 64 := by
  refine ⟨by decide, by decide, by decide, by decide, ?_⟩
  rw [sobel_magnitude 3 2 rampImage 0 1 (by decide) (by decide) (by decide) (by decide)]
  decide

/-- On a flat buffer `sobel` writes 0 everywhere. -/
theorem sobel_flat (W H : Int) (I : Int → Int) (hflat : isFlat W H I) (n : Int) :
    sobel W H I n = 0 := by
  by_cases h : ∃ x y, 0 ≤ x ∧ x < W ∧ 0 ≤ y ∧ y < H ∧ x + y * W = n
  · obtain ⟨x, y, hx, hxW, hy, hyH, rfl⟩ := h
    rw [sobel_clamped W H I x y hx hxW hy hyH]
    have key : ∀ a b, 0 ≤ a → a < W → 0 ≤ b → b < H → I (a + b * W) = I (x + y * W) := by
      intro a b ha haW hb hbH
      have h1 := index_bounds ha haW hb hbH
      have h2 := index_bounds hx hxW hy hyH
      exact hflat _ _ h1.1 h1.2 h2.1 h2.2
    rw [key (min (x + 1) (W - 1)) (max (y - 1) 0) (by omega) (by omega) (by omega) (by omega),
      key (min (x + 1) (W - 1)) (min (y + 1) (H - 1)) (by omega) (by omega) (by omega) (by omega),
      key (min (x + 1) (W - 1)) y (by omega) (by omega) (by omega) (by omega),
      key (max (x - 1) 0) (max (y - 1) 0) (by omega) (by omega) (by omega) (by omega),
      key (max (x - 1) 0) (min (y + 1) (H - 1)) (by omega) (by omega) (by omega) (by omega),
      key (max (x - 1) 0) y (by omega) (by omega) (by omega) (by omega),
      key x (max (y - 1) 0) (by omega) (by omega) (by omega) (by omega),
      key x (min (y + 1) (H - 1)) (by omega) (by omega) (by omega) (by omega)]
    simp
  · apply sobel_outside
    intro x y hx hxW hy hyH he
    exact h ⟨x, y, hx, hxW, hy, hyH, he⟩

/-! ## Claims on `partition` and `trace` -/

/-- A loop in the `Option` monad whose every step returns the state unchanged. -/
theorem foldlM_const {α β : Type} (f : β → α → Option β) (l : List α) (b : β)
    (h : ∀ a ∈ l, f b a = some b) : l.foldlM f b = some b := by
  induction l with
  | nil => rfl
  | cons a l ih =>
    rw [List.foldlM_cons, h a (List.mem_cons_self _ _)]
    exact ih (fun a' ha' => h a' (List.mem_cons_of_mem _ ha'))

/-- When no pixel inside the outermost ring is both positive and unlabelled,
`partition` creates no region and leaves the label map as it is. -/
theorem partition_noop (W H : Int) (g ids : Int → Int)
    (h : ∀ x y, interior W H x y → ¬ (g (x + y * W) > 0 ∧ ids (x + y * W) = 0)) :
    partition W H g ids = some (0, ids) := by
  unfold partition
  apply foldlM_const
  intro y hy
  unfold partitionRow
  apply foldlM_const
  intro x hx
  rw [mem_from1] at hx hy
  unfold partitionStep
  simp only []
  rw [if_neg (h x y ⟨hx.1, hx.2, hy.1, hy.2⟩)]

/-- One row `j` of the loops of `trace`, offset by offset. -/
theorem trace_row (fuel : Nat) (W H id : Int) (g : Int → Int) (x y j : Int) (acc : Int → Int) :
    (if y + j < 0 ∨ y + j ≥ H then some acc
      else loop3.foldlM (fun acc2 i =>
        if i = j ∨ x + i < 0 ∨ x + i ≥ W then some acc2
        else if g ((x + i) + (y + j) * W) > 0 then trace fuel W H id g acc2 (x + i) (y + j)
        else some acc2) acc)
    = loop3.foldlM (fun acc2 i =>
        if i = j then some acc2 else traceVisit fuel W H id g x y acc2 (i, j)) acc := by
  by_cases hrow : y + j < 0 ∨ y + j ≥ H
  · rw [if_pos hrow]
    symm
    apply foldlM_const
    intro i _
    unfold traceVisit
    have : ¬ (0 ≤ x + i ∧ x + i < W ∧ 0 ≤ y + j ∧ y + j < H ∧ g ((x + i) + (y + j) * W) > 0) := by
      rintro ⟨_, _, h1, h2, _⟩
      omega
    simp only [if_neg this, ite_self]
  · rw [if_neg hrow]
    congr 1
    funext acc2 i
    unfold traceVisit
    by_cases hij : i = j
    · simp [hij]
    · by_cases hcol : x + i < 0 ∨ x + i ≥ W
      · have : ¬ (0 ≤ x + i ∧ x + i < W ∧ 0 ≤ y + j ∧ y + j < H ∧
            g ((x + i) + (y + j) * W) > 0) := by
          rintro ⟨h1, h2, _⟩
          omega
        simp only [hij, hcol, or_true, false_or, if_true, if_false, if_neg this]
      · by_cases hg : g ((x + i) + (y + j) * W) > 0
        · have : (0 ≤ x + i ∧ x + i < W ∧ 0 ≤ y + j ∧ y + j < H ∧
              g ((x + i) + (y + j) * W) > 0) := by
            refine ⟨?_, ?_, ?_, ?_, hg⟩ <;> omega
          simp only [hij, hcol, or_false, if_false, if_pos this, if_pos hg]
        · have : ¬ (0 ≤ x + i ∧ x + i < W ∧ 0 ≤ y + j ∧ y + j < H ∧
              g ((x + i) + (y + j) * W) > 0) := fun h => hg h.2.2.2.2
          simp only [hij, hcol, or_false, if_false, if_neg this, if_neg hg]

/-- The body of `trace` as one loop over the six offsets. -/
theorem trace_unfold (fuel : Nat) (W H id : Int) (g ids : Int → Int) (x y : Int) :
    trace (fuel + 1) W H id g ids x y =
      if ids (x + y * W) ≠ 0 then some ids
      else traceOffsets.foldlM (traceVisit fuel W H id g x y) (setAt ids (x + y * W) id) := by
  have e : y * W + x = x + y * W := by ring
  have e1 : ∀ i j : Int, y * W + j * W + (x + i) = (x + i) + (y + j) * W := by intros; ring
  unfold trace
  simp only [e, e1]
  by_cases h : ids (x + y * W) ≠ 0
  · rw [if_pos h, if_pos h]
  · rw [if_neg h, if_neg h]
    simp only [trace_row]
    simp only [loop3, traceOffsets, List.foldlM_cons, List.foldlM_nil]
    simp [Option.bind_assoc]

/-- The six offsets are those with `i, j ∈ {-1, 0, 1}` and `i ≠ j`. -/
theorem traceOffsets_mem (i j : Int) :
    (i, j) ∈ traceOffsets ↔ i ∈ loop3 ∧ j ∈ loop3 ∧ i ≠ j := by
  constructor
  · intro h
    simp only [traceOffsets, List.mem_cons, Prod.mk.injEq, List.mem_nil_iff, or_false] at h
    rcases h with ⟨rfl, rfl⟩ | ⟨rfl, rfl⟩ | ⟨rfl, rfl⟩ | ⟨rfl, rfl⟩ | ⟨rfl, rfl⟩ | ⟨rfl, rfl⟩ <;>
      decide
  · rintro ⟨hi, hj, hne⟩
    rw [mem_loop3] at hi hj
    rcases hi with rfl | rfl | rfl <;> rcases hj with rfl | rfl | rfl <;>
      first
        | exact absurd rfl hne
        | decide

/-- Of the eight neighbour directions only `(-1,-1)` and `(1,1)` are missing. -/
theorem traceOffsets_missing (i j : Int) (hi : i ∈ loop3) (hj : j ∈ loop3)
    (hne : (i, j) ≠ (0, 0)) :
    ((i, j) ∉ traceOffsets ↔ (i = -1 ∧ j = -1) ∨ (i = 1 ∧ j = 1)) := by
  rw [mem_loop3] at hi hj
  rcases hi with rfl | rfl | rfl <;> rcases hj with rfl | rfl | rfl <;>
    first
      | exact absurd rfl hne
      | decide

/-- C6: a call of `trace` that does not return at once labels the pixel and then
visits exactly the six offsets `(0,-1), (1,-1), (-1,0), (1,0), (-1,1), (0,1)`,
recursing only into in-bounds cells of positive magnitude; these are the
offsets with `i, j ∈ {-1, 0, 1}` and `i ≠ j`, so of the eight neighbour
directions exactly `(-1,-1)` and `(1,1)` are never used. -/
theorem trace_six_offsets (fuel : Nat) (W H id : Int) (g ids : Int → Int) (x y : Int) :
    trace (fuel + 1) W H id g ids x y =
      (if ids (x + y * W) ≠ 0 then some ids
        else traceOffsets.foldlM (traceVisit fuel W H id g x y) (setAt ids (x + y * W) id)) ∧
    (∀ i j, (i, j) ∈ traceOffsets ↔ i ∈ loop3 ∧ j ∈ loop3 ∧ i ≠ j) ∧
    (∀ i j, i ∈ loop3 → j ∈ loop3 → (i, j) ≠ (0, 0) →
      ((i, j) ∉ traceOffsets ↔ (i = -1 ∧ j = -1) ∨ (i = 1 ∧ j = 1))) := by
  exact ⟨trace_unfold fuel W H id g ids x y, traceOffsets_mem, traceOffsets_missing⟩

/-- C4: after `partition` has run from the all-zero label map (it always
returns), any two in-bounds pixels of positive magnitude that are neighbours
under the adjacency rule carry the same label. -/
theorem partition_neighbours_same_label (W H : Int) (g : Int → Int) :
    ∃ N ids, partition W H g (fun _ => 0) = some (N, ids) ∧
      ∀ x y x' y', inBounds W H x y → inBounds W H x' y' →
        g (x + y * W) > 0 → g (x' + y' * W) > 0 → adjacent x y x' y' →
        ids (x + y * W) = ids (x' + y' * W) := by
  obtain ⟨st, hst, hinv, _⟩ := partition_inv W H g
  refine ⟨st.1, st.2, hst, ?_⟩
  intro x y x' y' hb hb' hg hg' hadj
  by_cases h : st.2 (x + y * W) = 0
  · by_cases h' : st.2 (x' + y' * W) = 0
    · rw [h, h']
    · have := hinv.closed x' y' hb' h' x y (adjacent_symm hadj) hb hg
      exact this
  · exact (hinv.closed x y hb h x' y' hadj hb' hg').symm

/-- C5: `partition` from the all-zero label map returns a count `N ≥ 0`; every
label lies in `0..N`, each value `1..N` labels a pixel, the non-zero labels of
the map are exactly `1..N` (so there are `N` of them), and `N = 0` exactly when
no pixel is labelled. -/
theorem partition_count (W H : Int) (g : Int → Int) :
    ∃ N ids, partition W H g (fun _ => 0) = some (N, ids) ∧ 0 ≤ N ∧
      (∀ n, 0 ≤ ids n ∧ ids n ≤ N) ∧
      (∀ k, 1 ≤ k → k ≤ N → ∃ x y, inBounds W H x y ∧ ids (x + y * W) = k) ∧
      ((Finset.Ico (0 : Int) (W * H)).image ids).erase 0 = Finset.Icc 1 N ∧
      (((Finset.Ico (0 : Int) (W * H)).image ids).erase 0).card = N.toNat ∧
      (N = 0 ↔ ∀ n, ids n = 0) := by
  obtain ⟨st, hst, hinv, _⟩ := partition_inv W H g
  have hsurj : ∀ k, 1 ≤ k → k ≤ st.1 → ∃ x y, inBounds W H x y ∧ st.2 (x + y * W) = k := by
    intro k h1 h2
    obtain ⟨x, y, hi, he⟩ := hinv.surj k h1 h2
    exact ⟨x, y, interior_inBounds hi, he⟩
  have hset : ((Finset.Ico (0 : Int) (W * H)).image st.2).erase 0 = Finset.Icc 1 st.1 := by
    ext k
    simp only [Finset.mem_erase, Finset.mem_image, Finset.mem_Ico, Finset.mem_Icc]
    constructor
    · rintro ⟨hk, n, _, rfl⟩
      have := hinv.range n
      omega
    · rintro ⟨h1, h2⟩
      obtain ⟨x, y, hb, he⟩ := hsurj k h1 h2
      exact ⟨by omega, x + y * W, index_bounds hb.1 hb.2.1 hb.2.2.1 hb.2.2.2, he⟩
  refine ⟨st.1, st.2, hst, hinv.id_nonneg, hinv.range, hsurj, hset, ?_, ?_⟩
  · rw [hset, Int.card_Icc]
    congr 1
    omega
  · constructor
    · intro h0 n
      have := hinv.range n
      omega
    · intro hall
      by_contra hne
      have h1 : 1 ≤ st.1 := by have := hinv.id_nonneg; omega
      obtain ⟨x, y, _, he⟩ := hsurj 1 (le_refl _) h1
      rw [hall] at he
      exact absurd he (by decide)

/-- C7: running `partition` again on the same field, with the label map of a
first run from all zeros, creates no region (returns 0) and leaves the map
unchanged; and the result of a run is determined by the field. -/
theorem partition_idempotent (W H : Int) (g : Int → Int) :
    ∃ N ids, partition W H g (fun _ => 0) = some (N, ids) ∧
      partition W H g ids = some (0, ids) ∧
      ∀ r, partition W H g (fun _ => 0) = some r → r = (N, ids) := by
  obtain ⟨st, hst, _, hlab⟩ := partition_inv W H g
  refine ⟨st.1, st.2, hst, ?_, ?_⟩
  · apply partition_noop
    intro x y hint hc
    exact hlab x y hint hc.1 hc.2
  · intro r hr
    rw [hst] at hr
    exact (Option.some.inj hr).symm

/-! ## Claims on the selection of the dominant region -/

/-- An integer converts to `int` unchanged. -/
theorem truncToInt_intCast (z : Int) : truncToInt (z : ℚ) = z := by
  unfold truncToInt
  have h1 : Rat.floor (z : ℚ) = z := by
    show ⌊(z : ℚ)⌋ = z
    exact Int.floor_intCast z
  have h2 : Rat.floor (-(z : ℚ)) = -z := by
    show ⌊(-(z : ℚ))⌋ = -z
    rw [← Int.cast_neg]
    exact Int.floor_intCast (-z)
  split_ifs
  · exact h1
  · rw [h2]; ring

/-- The labels `1..N` are ascending. -/
theorem labels_pairwise (N : Int) : (labels N).Pairwise (· ≤ ·) := by
  unfold labels from1
  rw [List.pairwise_map]
  have := List.pairwise_lt_range (N + 1 - 1).toNat
  exact this.imp (fun h => by omega)

/-- The selection step at a key that displaces the maximum. -/
theorem selectStep_pos (masses : QMap) (s : Selection) (key : Int)
    (h : (QMap.value masses key).totalMass > float32 (s.maxTotalMass : ℚ)) :
    selectStep masses s key =
      { totalMassRatio := floatDiv (QMap.value masses key).totalMass s.maxTotalMass
        maxTotalMass := toInt32 (QMap.value masses key).totalMass
        maxRegionID := key } := by
  unfold selectStep
  simp only []
  rw [if_pos h]

/-- The selection step at a key that does not displace the maximum. -/
theorem selectStep_neg (masses : QMap) (s : Selection) (key : Int)
    (h : ¬ (QMap.value masses key).totalMass > float32 (s.maxTotalMass : ℚ)) :
    selectStep masses s key = s := by
  unfold selectStep
  simp only []
  rw [if_neg h]

set_option maxRecDepth 100000 in
/-- The Sobel field of the scratch image of `blobImage` is `blobField`. -/
theorem sobel_blobImage :
    sobel 45 5 (boundedImage plainEnv blobImage nullRect) = blobField := by
  rw [sobel_eq_sobelField 45 5 _ (by decide)]
  have key : ∀ n ∈ upTo 225,
      sobelField 45 5 (boundedImage plainEnv blobImage nullRect) n = blobField n := by
    decide!
  funext n
  by_cases h : 0 ≤ n ∧ n < 225
  · exact key n (mem_upTo.2 h)
  · have h' : ¬ (0 ≤ n ∧ n < 45 * 5) := by omega
    unfold sobelField blobField
    rw [if_neg h, if_neg h']

set_option maxRecDepth 100000 in
/-- C10, evaluated: the eleven-blob image is partitioned into 11 regions of the
same total mass 160, and the noise test does not fire on it. -/
theorem equal_mass_blobs_not_rejected :
    (partition 45 5 (sobel 45 5 (boundedImage plainEnv blobImage nullRect)) (fun _ => 0)).map
      (fun r =>
        (r.1,
         (regionMasses 45 5 (sobel 45 5 (boundedImage plainEnv blobImage nullRect)) r.2).map
           (fun p => (p.1, p.2.totalMass)),
         isNoise r.1 (selectMax (regionMasses 45 5
           (sobel 45 5 (boundedImage plainEnv blobImage nullRect)) r.2)).totalMassRatio))
      = some (11, [(1, 160), (2, 160), (3, 160), (4, 160), (5, 160), (6, 160), (7, 160),
          (8, 160), (9, 160), (10, 160), (11, 160)], false) := by
  rw [sobel_blobImage]
  decide!

/-! ## Claims on the detector as a whole -/

/-! ## The mass table -/

theorem accumulateMasses_eq (W H : Int) (g ids : Int → Int) :
    accumulateMasses W H g ids =
      (upTo H).foldl (fun m y => (upTo W).foldl (accStep W g ids y) m) [] := rfl

theorem QMap.value_absent (m : QMap) (k : Int) (h : k ∉ QMap.keys m) : QMap.value m k = {} := by
  induction m with
  | nil => rfl
  | cons p rest ih =>
    obtain ⟨k0, v⟩ := p
    simp only [QMap.keys, List.map_cons, List.mem_cons, not_or] at h
    unfold QMap.value
    rw [if_neg h.1]
    exact ih h.2

theorem QMap.value_modify (m : QMap) (hs : QMap.sorted m) (key : Int) (f : massInfo → massInfo)
    (k : Int) :
    QMap.value (QMap.modify m key f) k = if k = key then f (QMap.value m key) else QMap.value m k := by
  induction m with
  | nil =>
    simp only [QMap.modify, QMap.value]
  | cons p rest ih =>
    obtain ⟨k0, v⟩ := p
    have hs' : QMap.sorted rest := (List.pairwise_cons.1 hs).2
    have hlt : ∀ a ∈ QMap.keys rest, k0 < a := (List.pairwise_cons.1 hs).1
    unfold QMap.modify
    by_cases h1 : key < k0
    · rw [if_pos h1]
      have habs : QMap.value ((k0, v) :: rest) key = {} := by
        apply QMap.value_absent
        simp only [QMap.keys, List.map_cons, List.mem_cons, not_or]
        refine ⟨by omega, fun hmem => ?_⟩
        have := hlt key hmem
        omega
      rw [habs]
      conv_lhs => unfold QMap.value
    · rw [if_neg h1]
      by_cases h2 : key = k0
      · rw [if_pos h2]
        subst h2
        unfold QMap.value
        by_cases h3 : k = key
        · simp [h3]
        · simp [h3]
      · rw [if_neg h2]
        conv_lhs => unfold QMap.value
        rw [ih hs']
        by_cases h3 : k = k0
        · have : ¬ k = key := by omega
          simp [h3, QMap.value, Ne.symm h2]
        · by_cases h4 : k = key
          · subst h4
            simp [QMap.value, h2]
          · simp [QMap.value, h3, h4]

theorem QMap.keys_modify (m : QMap) (key : Int) (f : massInfo → massInfo) (k : Int) :
    k ∈ QMap.keys (QMap.modify m key f) ↔ k = key ∨ k ∈ QMap.keys m := by
  induction m with
  | nil => simp [QMap.modify, QMap.keys]
  | cons p rest ih =>
    obtain ⟨k0, v⟩ := p
    unfold QMap.modify
    by_cases h1 : key < k0
    · rw [if_pos h1]
      simp [QMap.keys]
    · rw [if_neg h1]
      by_cases h2 : key = k0
      · rw [if_pos h2]
        subst h2
        simp [QMap.keys]
      · rw [if_neg h2]
        simp only [QMap.keys, List.map_cons, List.mem_cons] at ih ⊢
        rw [ih]
        tauto

theorem QMap.sorted_modify (m : QMap) (hs : QMap.sorted m) (key : Int) (f : massInfo → massInfo) :
    QMap.sorted (QMap.modify m key f) := by
  induction m with
  | nil => simp [QMap.modify, QMap.sorted, QMap.keys]
  | cons p rest ih =>
    obtain ⟨k0, v⟩ := p
    have hs' : QMap.sorted rest := (List.pairwise_cons.1 hs).2
    have hlt : ∀ a ∈ QMap.keys rest, k0 < a := (List.pairwise_cons.1 hs).1
    unfold QMap.modify
    by_cases h1 : key < k0
    · rw [if_pos h1]
      unfold QMap.sorted QMap.keys
      simp only [List.map_cons]
      apply List.Pairwise.cons
      · intro a ha
        rcases List.mem_cons.1 ha with rfl | h
        · exact h1
        · have := hlt a h
          omega
      · exact hs
    · rw [if_neg h1]
      by_cases h2 : key = k0
      · rw [if_pos h2]
        exact hs
      · rw [if_neg h2]
        unfold QMap.sorted QMap.keys
        simp only [List.map_cons]
        apply List.Pairwise.cons
        · intro a ha
          have ha' : a ∈ QMap.keys (QMap.modify rest key f) := ha
          rw [QMap.keys_modify] at ha'
          rcases ha' with rfl | h
          · omega
          · exact hlt a h
        · exact ih hs'

theorem accStep_value (W : Int) (g ids : Int → Int) (y : Int) (m : QMap) (hs : QMap.sorted m)
    (x k : Int) (hk : 0 < k) :
    (QMap.value (accStep W g ids y m x) k).totalMass =
        (QMap.value m k).totalMass + (if ids (x + y * W) = k then (g (x + y * W) : ℚ) else 0) ∧
    (QMap.value (accStep W g ids y m x) k).massX =
        (QMap.value m k).massX +
          (if ids (x + y * W) = k then (x : ℚ) * (g (x + y * W) : ℚ) else 0) ∧
    (QMap.value (accStep W g ids y m x) k).massY =
        (QMap.value m k).massY +
          (if ids (x + y * W) = k then (y : ℚ) * (g (x + y * W) : ℚ) else 0) := by
  unfold accStep
  by_cases hpos : ids (x + y * W) > 0
  · rw [if_pos hpos, QMap.value_modify m hs]
    by_cases he : ids (x + y * W) = k
    · have he' : k = ids (x + y * W) := he.symm
      simp only [if_pos he', if_pos he]
      rw [← he']
      exact ⟨rfl, rfl, rfl⟩
    · have he' : ¬ k = ids (x + y * W) := fun h => he h.symm
      simp only [if_neg he', if_neg he, add_zero]
      exact ⟨trivial, trivial, trivial⟩
  · rw [if_neg hpos]
    have he : ¬ ids (x + y * W) = k := by omega
    simp only [if_neg he, add_zero]
    exact ⟨trivial, trivial, trivial⟩

theorem accStep_sorted (W : Int) (g ids : Int → Int) (y : Int) (m : QMap) (hs : QMap.sorted m)
    (x : Int) : QMap.sorted (accStep W g ids y m x) := by
  unfold accStep
  split_ifs
  · exact QMap.sorted_modify m hs _ _
  · exact hs

theorem accStep_keys (W : Int) (g ids : Int → Int) (y : Int) (m : QMap) (x k : Int) :
    k ∈ QMap.keys (accStep W g ids y m x) ↔
      k ∈ QMap.keys m ∨ (ids (x + y * W) = k ∧ 0 < k) := by
  unfold accStep
  by_cases hpos : ids (x + y * W) > 0
  · rw [if_pos hpos, QMap.keys_modify]
    constructor
    · rintro (h | h)
      · right; exact ⟨h.symm, by omega⟩
      · left; exact h
    · rintro (h | h)
      · right; exact h
      · left; exact h.1.symm
  · rw [if_neg hpos]
    constructor
    · intro h; exact Or.inl h
    · rintro (h | h)
      · exact h
      · omega

/-- The inner accumulation loop over a list of columns. -/
theorem accRow (W : Int) (g ids : Int → Int) (y : Int) (lx : List Int) :
    ∀ (m : QMap), QMap.sorted m →
      QMap.sorted (lx.foldl (accStep W g ids y) m) ∧
      (∀ k, k ∈ QMap.keys (lx.foldl (accStep W g ids y) m) ↔
        k ∈ QMap.keys m ∨ ∃ x ∈ lx, ids (x + y * W) = k ∧ 0 < k) ∧
      ∀ k, 0 < k →
        (QMap.value (lx.foldl (accStep W g ids y) m) k).totalMass =
          (QMap.value m k).totalMass +
            (lx.map (fun x => if ids (x + y * W) = k then (g (x + y * W) : ℚ) else 0)).sum ∧
        (QMap.value (lx.foldl (accStep W g ids y) m) k).massX =
          (QMap.value m k).massX +
            (lx.map (fun x =>
              if ids (x + y * W) = k then (x : ℚ) * (g (x + y * W) : ℚ) else 0)).sum ∧
        (QMap.value (lx.foldl (accStep W g ids y) m) k).massY =
          (QMap.value m k).massY +
            (lx.map (fun x =>
              if ids (x + y * W) = k then (y : ℚ) * (g (x + y * W) : ℚ) else 0)).sum := by
  induction lx with
  | nil =>
    intro m hs
    simp [hs]
  | cons x lx ih =>
    intro m hs
    rw [List.foldl_cons]
    obtain ⟨h1, h2, h3⟩ := ih (accStep W g ids y m x) (accStep_sorted W g ids y m hs x)
    refine ⟨h1, ?_, ?_⟩
    · intro k
      rw [h2, accStep_keys]
      constructor
      · rintro ((h | h) | ⟨x', hx', h⟩)
        · exact Or.inl h
        · exact Or.inr ⟨x, List.mem_cons_self _ _, h⟩
        · exact Or.inr ⟨x', List.mem_cons_of_mem _ hx', h⟩
      · rintro (h | ⟨x', hx', h⟩)
        · exact Or.inl (Or.inl h)
        · rcases List.mem_cons.1 hx' with rfl | hx''
          · exact Or.inl (Or.inr h)
          · exact Or.inr ⟨x', hx'', h⟩
    · intro k hk
      obtain ⟨a1, a2, a3⟩ := h3 k hk
      obtain ⟨b1, b2, b3⟩ := accStep_value W g ids y m hs x k hk
      rw [a1, a2, a3, b1, b2, b3]
      simp only [List.map_cons, List.sum_cons]
      refine ⟨by ring, by ring, by ring⟩

/-- The accumulation loops over a list of rows. -/
theorem accRows (W : Int) (g ids : Int → Int) (lx ly : List Int) :
    ∀ (m : QMap), QMap.sorted m →
      QMap.sorted (ly.foldl (fun m y => lx.foldl (accStep W g ids y) m) m) ∧
      (∀ k, k ∈ QMap.keys (ly.foldl (fun m y => lx.foldl (accStep W g ids y) m) m) ↔
        k ∈ QMap.keys m ∨ ∃ y ∈ ly, ∃ x ∈ lx, ids (x + y * W) = k ∧ 0 < k) ∧
      ∀ k, 0 < k →
        (QMap.value (ly.foldl (fun m y => lx.foldl (accStep W g ids y) m) m) k).totalMass =
          (QMap.value m k).totalMass +
            (ly.map (fun y => (lx.map (fun x =>
              if ids (x + y * W) = k then (g (x + y * W) : ℚ) else 0)).sum)).sum ∧
        (QMap.value (ly.foldl (fun m y => lx.foldl (accStep W g ids y) m) m) k).massX =
          (QMap.value m k).massX +
            (ly.map (fun y => (lx.map (fun x =>
              if ids (x + y * W) = k then (x : ℚ) * (g (x + y * W) : ℚ) else 0)).sum)).sum ∧
        (QMap.value (ly.foldl (fun m y => lx.foldl (accStep W g ids y) m) m) k).massY =
          (QMap.value m k).massY +
            (ly.map (fun y => (lx.map (fun x =>
              if ids (x + y * W) = k then (y : ℚ) * (g (x + y * W) : ℚ) else 0)).sum)).sum := by
  induction ly with
  | nil =>
    intro m hs
    simp [hs]
  | cons y ly ih =>
    intro m hs
    rw [List.foldl_cons]
    obtain ⟨r1, r2, r3⟩ := accRow W g ids y lx m hs
    obtain ⟨h1, h2, h3⟩ := ih (lx.foldl (accStep W g ids y) m) r1
    refine ⟨h1, ?_, ?_⟩
    · intro k
      rw [h2, r2]
      constructor
      · rintro ((h | h) | ⟨y', hy', h⟩)
        · exact Or.inl h
        · exact Or.inr ⟨y, List.mem_cons_self _ _, h⟩
        · exact Or.inr ⟨y', List.mem_cons_of_mem _ hy', h⟩
      · rintro (h | ⟨y', hy', h⟩)
        · exact Or.inl (Or.inl h)
        · rcases List.mem_cons.1 hy' with rfl | hy''
          · exact Or.inl (Or.inr h)
          · exact Or.inr ⟨y', hy'', h⟩
    · intro k hk
      obtain ⟨a1, a2, a3⟩ := h3 k hk
      obtain ⟨b1, b2, b3⟩ := r3 k hk
      rw [a1, a2, a3, b1, b2, b3]
      simp only [List.map_cons, List.sum_cons]
      refine ⟨by ring, by ring, by ring⟩

/-- The table `regionMasses` holds, for every label `k > 0`, the sums of the
magnitude and of the two first moments over the pixels labelled `k`; its keys
are strictly ascending, and are 1 and the positive labels present. -/
theorem regionMasses_value (W H : Int) (g ids : Int → Int) :
    QMap.sorted (regionMasses W H g ids) ∧
    (∀ k, k ∈ QMap.keys (regionMasses W H g ids) ↔
      k = 1 ∨ ∃ y ∈ upTo H, ∃ x ∈ upTo W, ids (x + y * W) = k ∧ 0 < k) ∧
    ∀ k, 0 < k →
      (QMap.value (regionMasses W H g ids) k).totalMass
        = regionSum W H ids k (fun x y => (g (x + y * W) : ℚ)) ∧
      (QMap.value (regionMasses W H g ids) k).massX
        = regionSum W H ids k (fun x y => (x : ℚ) * (g (x + y * W) : ℚ)) ∧
      (QMap.value (regionMasses W H g ids) k).massY
        = regionSum W H ids k (fun x y => (y : ℚ) * (g (x + y * W) : ℚ)) := by
  have hnil : QMap.sorted [] := by simp [QMap.sorted, QMap.keys]
  obtain ⟨h1, h2, h3⟩ := accRows W g ids (upTo W) (upTo H) [] hnil
  rw [← accumulateMasses_eq] at h1 h2 h3
  unfold regionMasses
  refine ⟨QMap.sorted_modify _ h1 _ _, ?_, ?_⟩
  · intro k
    rw [QMap.keys_modify, h2]
    simp [QMap.keys]
  · intro k hk
    rw [QMap.value_modify _ h1]
    have hv : (if k = 1 then id (QMap.value (accumulateMasses W H g ids) 1)
        else QMap.value (accumulateMasses W H g ids) k) = QMap.value (accumulateMasses W H g ids) k := by
      split_ifs with h
      · rw [h]; rfl
      · rfl
    rw [hv]
    obtain ⟨a1, a2, a3⟩ := h3 k hk
    rw [a1, a2, a3]
    unfold regionSum
    simp [QMap.value]

/-- A sum over a list is at least any of its terms when all terms are `≥ 0`. -/
theorem le_sum_map {α : Type} (l : List α) (f : α → ℚ) (hnn : ∀ a ∈ l, 0 ≤ f a) (a : α)
    (ha : a ∈ l) : f a ≤ (l.map f).sum := by
  apply List.single_le_sum
  · intro x hx
    obtain ⟨b, hb, rfl⟩ := List.mem_map.1 hx
    exact hnn b hb
  · exact List.mem_map.2 ⟨a, ha, rfl⟩

theorem sum_map_nonneg {α : Type} (l : List α) (f : α → ℚ) (hnn : ∀ a ∈ l, 0 ≤ f a) :
    0 ≤ (l.map f).sum := by
  apply List.sum_nonneg
  intro x hx
  obtain ⟨b, hb, rfl⟩ := List.mem_map.1 hx
  exact hnn b hb

/-- A region sum of a weight that is `≥ 0` on the region is at least the weight
of any one of its pixels. -/
theorem regionSum_ge (W H : Int) (ids : Int → Int) (k : Int) (f : Int → Int → ℚ)
    (hnn : ∀ x y, inBounds W H x y → ids (x + y * W) = k → 0 ≤ f x y)
    (x0 y0 : Int) (hb : inBounds W H x0 y0) (hk : ids (x0 + y0 * W) = k) :
    f x0 y0 ≤ regionSum W H ids k f := by
  unfold regionSum
  have hterm : ∀ y ∈ upTo H, ∀ x ∈ upTo W,
      0 ≤ (if ids (x + y * W) = k then f x y else 0) := by
    intro y hy x hx
    rw [mem_upTo] at hx hy
    split_ifs with h
    · exact hnn x y ⟨hx.1, hx.2, hy.1, hy.2⟩ h
    · exact le_refl _
  have hrow : ∀ y ∈ upTo H,
      0 ≤ ((upTo W).map (fun x => if ids (x + y * W) = k then f x y else 0)).sum :=
    fun y hy => sum_map_nonneg _ _ (hterm y hy)
  have hx0 : x0 ∈ upTo W := mem_upTo.2 ⟨hb.1, hb.2.1⟩
  have hy0 : y0 ∈ upTo H := mem_upTo.2 ⟨hb.2.2.1, hb.2.2.2⟩
  have h1 := le_sum_map (upTo W) (fun x => if ids (x + y0 * W) = k then f x y0 else 0)
    (hterm y0 hy0) x0 hx0
  have h2 := le_sum_map (upTo H)
    (fun y => ((upTo W).map (fun x => if ids (x + y * W) = k then f x y else 0)).sum)
    hrow y0 hy0
  simp only [if_pos hk] at h1
  exact le_trans h1 h2

/-- The region selected by the loop is the initial one or one of the keys. -/
theorem select_fold_mem (masses : QMap) :
    ∀ (l : List Int) (s : Selection),
      (l.foldl (selectStep masses) s).maxRegionID = s.maxRegionID ∨
        (l.foldl (selectStep masses) s).maxRegionID ∈ l := by
  intro l
  induction l with
  | nil => intro s; exact Or.inl rfl
  | cons key l ih =>
    intro s
    rw [List.foldl_cons]
    rcases ih (selectStep masses s key) with h | h
    · rw [h]
      by_cases hgt : (QMap.value masses key).totalMass > float32 (s.maxTotalMass : ℚ)
      · rw [selectStep_pos masses s key hgt]
        exact Or.inr (List.mem_cons_self _ _)
      · rw [selectStep_neg masses s key hgt]
        exact Or.inl rfl
    · exact Or.inr (List.mem_cons_of_mem _ h)

/-- After `partition`, the keys of the mass table lie in `1..N` (for `N ≥ 1`),
and so does the selected region. -/
theorem regionMasses_keys_range (W H : Int) (g : Int → Int) (st : Int × (Int → Int))
    (hinv : PartInv W H g st) (hN : 1 ≤ st.1) :
    (∀ k ∈ QMap.keys (regionMasses W H g st.2), 1 ≤ k ∧ k ≤ st.1) ∧
    1 ≤ (selectMax (regionMasses W H g st.2)).maxRegionID ∧
    (selectMax (regionMasses W H g st.2)).maxRegionID ≤ st.1 := by
  have hkeys : ∀ k ∈ QMap.keys (regionMasses W H g st.2), 1 ≤ k ∧ k ≤ st.1 := by
    intro k hk
    rw [(regionMasses_value W H g st.2).2.1] at hk
    rcases hk with rfl | ⟨y, _, x, _, he, hpos⟩
    · exact ⟨le_refl _, hN⟩
    · have := hinv.range (x + y * W)
      omega
  refine ⟨hkeys, ?_⟩
  unfold selectMax
  rcases select_fold_mem (regionMasses W H g st.2) (QMap.keys (regionMasses W H g st.2))
    { maxRegionID := 1
      maxTotalMass := toInt32 (QMap.value (regionMasses W H g st.2) 1).totalMass
      totalMassRatio := ((1000000 : ℚ) : WithTop ℚ) } with h | h
  · rw [h]
    exact ⟨le_refl _, hN⟩
  · exact hkeys _ h

/-- After `partition`, every label `1..N` has a positive total mass. -/
theorem regionMasses_pos (W H : Int) (g : Int → Int) (st : Int × (Int → Int))
    (hinv : PartInv W H g st) (k : Int) (h1 : 1 ≤ k) (h2 : k ≤ st.1) :
    0 < (QMap.value (regionMasses W H g st.2) k).totalMass := by
  rw [((regionMasses_value W H g st.2).2.2 k (by omega)).1]
  obtain ⟨x0, y0, hint, he⟩ := hinv.surj k h1 h2
  have hb := interior_inBounds hint
  have hg : g (x0 + y0 * W) > 0 := hinv.pos _ (by rw [he]; omega)
  have := regionSum_ge W H st.2 k (fun x y => (g (x + y * W) : ℚ))
    (by
      intro x y _ hk
      have : g (x + y * W) > 0 := hinv.pos _ (by rw [hk]; omega)
      show (0 : ℚ) ≤ (g (x + y * W) : ℚ)
      exact_mod_cast le_of_lt this)
    x0 y0 hb he
  have hq : (0 : ℚ) < (g (x0 + y0 * W) : ℚ) := by exact_mod_cast hg
  exact lt_of_lt_of_le hq this

/-- C13: whenever `partition` returns `N ≥ 1`, every label `1..N` has an
accumulated total mass `> 0`, and so has the selected region (one of `1..N`):
the divisor of the centroid is never zero. -/
theorem total_mass_positive (W H : Int) (g : Int → Int) :
    ∃ N ids, partition W H g (fun _ => 0) = some (N, ids) ∧
      (1 ≤ N →
        (∀ k, 1 ≤ k → k ≤ N → 0 < (QMap.value (regionMasses W H g ids) k).totalMass) ∧
        1 ≤ (selectMax (regionMasses W H g ids)).maxRegionID ∧
        (selectMax (regionMasses W H g ids)).maxRegionID ≤ N ∧
        0 < (QMap.value (regionMasses W H g ids)
          (selectMax (regionMasses W H g ids)).maxRegionID).totalMass) := by
  obtain ⟨st, hst, hinv, _⟩ := partition_inv W H g
  refine ⟨st.1, st.2, hst, ?_⟩
  intro hN
  obtain ⟨_, hs1, hs2⟩ := regionMasses_keys_range W H g st hinv hN
  exact ⟨fun k h1 h2 => regionMasses_pos W H g st hinv k h1 h2, hs1, hs2,
    regionMasses_pos W H g st hinv _ hs1 hs2⟩

/-! ## Claims on the centroid and the selection -/

/-- The three guards of `detectFrom` and the feature it reports. -/
theorem detectFrom_eq (env : Collaborators) (data : FITSData) (starCenters : List Edge)
    (boundary : QRect) (g : Int → Int) (maxID : Int) (ids : Int → Int) :
    detectFrom env data starCenters boundary g maxID ids =
      if maxID = 0 then (0, starCenters)
      else if isNoise maxID
          (selectMax (regionMasses (subW data boundary) (subH data boundary) g ids)).totalMassRatio
        then (0, starCenters)
      else if scanWidth env (subW data boundary) (subH data boundary) g ids = -1
        then (0, starCenters)
      else (1, starCenters ++ [reportedEdge env data boundary g ids]) := rfl

theorem mem_radii {maxR r : Int} : r ∈ radii maxR ↔ 2 ≤ r ∧ r ≤ maxR := by
  unfold radii
  simp only [List.mem_map, List.mem_range]
  constructor
  · rintro ⟨a, ha, rfl⟩
    omega
  · rintro ⟨h0, h1⟩
    exact ⟨(maxR - r).toNat, by omega, by omega⟩

theorem radii_pairwise (maxR : Int) : (radii maxR).Pairwise (· > ·) := by
  unfold radii
  rw [List.pairwise_map]
  exact (List.pairwise_lt_range (maxR - 1).toNat).imp (fun h => by omega)

/-- For radii from 2 on, the bound by the truncating quotient is the bound by
the floor quotient. -/
theorem le_tdiv_two (m r : Int) (hr : 2 ≤ r) : r ≤ Int.tdiv m 2 ↔ r ≤ m / 2 := by
  by_cases hm : 0 ≤ m
  · rw [Int.tdiv_eq_ediv hm (by decide)]
  · have h1 : Int.tdiv m 2 ≤ 0 := by
      have : Int.tdiv m 2 = -(Int.tdiv (-m) 2) := by
        rw [Int.neg_tdiv, neg_neg]
      rw [this]
      have := Int.tdiv_nonneg (show 0 ≤ -m by omega) (show (0 : Int) ≤ 2 by decide)
      omega
    constructor
    · intro h; omega
    · intro h; omega

/-- The result of the outer loop: `-1` or twice a radius of the list. -/
theorem radiusScan_result (W H : Int) (g : Int → Int) (rays : List (ℚ × ℚ)) (cx cy : ℚ)
    (l : List Int) :
    radiusScan W H g rays cx cy l = -1 ∨ ∃ r ∈ l, radiusScan W H g rays cx cy l = r * 2 := by
  induction l with
  | nil => exact Or.inl rfl
  | cons r l ih =>
    unfold radiusScan
    split_ifs with h
    · exact Or.inr ⟨r, List.mem_cons_self _ _, rfl⟩
    · rcases ih with h1 | ⟨r', hr', h1⟩
      · exact Or.inl h1
      · exact Or.inr ⟨r', List.mem_cons_of_mem _ hr', h1⟩

/-- C14: the diameter left by the radius scan is `-1` or `2r` with
`2 ≤ r ≤ min(W-1, H-1) / 2`, so it never exceeds `min(W-1, H-1)`; it is `-1`
when `min(W, H) ≤ 4`. -/
theorem scan_width_range (W H : Int) (g : Int → Int) (rays : List (ℚ × ℚ)) (cx cy : ℚ) :
    (radiusScan W H g rays cx cy (radii (Int.tdiv (min (W - 1) (H - 1)) 2)) = -1 ∨
      ∃ r, radiusScan W H g rays cx cy (radii (Int.tdiv (min (W - 1) (H - 1)) 2)) = 2 * r ∧
        2 ≤ r ∧ r ≤ min (W - 1) (H - 1) / 2 ∧
        radiusScan W H g rays cx cy (radii (Int.tdiv (min (W - 1) (H - 1)) 2))
          ≤ min (W - 1) (H - 1)) ∧
    (min W H ≤ 4 →
      radiusScan W H g rays cx cy (radii (Int.tdiv (min (W - 1) (H - 1)) 2)) = -1) := by
  have key : ∀ r, r ∈ radii (Int.tdiv (min (W - 1) (H - 1)) 2) →
      2 ≤ r ∧ r ≤ min (W - 1) (H - 1) / 2 := by
    intro r hr
    rw [mem_radii] at hr
    exact ⟨hr.1, (le_tdiv_two _ r hr.1).1 hr.2⟩
  rcases radiusScan_result W H g rays cx cy (radii (Int.tdiv (min (W - 1) (H - 1)) 2)) with
    h | ⟨r, hr, h⟩
  · exact ⟨Or.inl h, fun _ => h⟩
  · obtain ⟨h2, hle⟩ := key r hr
    refine ⟨Or.inr ⟨r, by rw [h]; ring, h2, hle, ?_⟩, ?_⟩
    · rw [h]
      omega
    · intro hmin
      exfalso
      omega

/-- The inner loop succeeds exactly when the hits before the first outside
sample bring the counter to 24. -/
theorem rayLoop_iff (W H : Int) (g : Int → Int) (cx cy : ℚ) (r : Int) :
    ∀ (rays : List (ℚ × ℚ)) (pass : Int), pass < 24 →
      (rayLoop W H g cx cy r rays pass = true ↔
        24 ≤ pass + (hitsBeforeExit W H g cx cy r rays : Int)) := by
  intro rays
  induction rays with
  | nil =>
    intro pass hp
    simp only [rayLoop, hitsBeforeExit, List.takeWhile_nil, List.filter_nil, List.length_nil]
    constructor
    · intro h; exact absurd h (by decide)
    · intro h; exfalso; simp at h; omega
  | cons ray rays ih =>
    intro pass hp
    obtain ⟨c, s⟩ := ray
    unfold rayLoop
    simp only []
    by_cases hout : truncToInt (cx + c * (r : ℚ)) < 0 ∨ truncToInt (cx + c * (r : ℚ)) ≥ W ∨
        truncToInt (cy + s * (r : ℚ)) < 0 ∨ truncToInt (cy + s * (r : ℚ)) ≥ H
    · rw [if_pos hout]
      have hin : sampleInside W H cx cy r (c, s) = false := by
        unfold sampleInside samplePoint
        simp only [decide_eq_false_iff_not]
        omega
      have h0 : hitsBeforeExit W H g cx cy r ((c, s) :: rays) = 0 := by
        unfold hitsBeforeExit
        rw [List.takeWhile_cons_of_neg (by rw [hin]; decide)]
        rfl
      rw [h0]
      constructor
      · intro h; exact absurd h (by decide)
      · intro h; exfalso; simp at h; omega
    · rw [if_neg hout]
      have hin : sampleInside W H cx cy r (c, s) = true := by
        unfold sampleInside samplePoint
        simp only [decide_eq_true_eq]
        omega
      by_cases hhit : g (truncToInt (cx + c * (r : ℚ)) + truncToInt (cy + s * (r : ℚ)) * W) > 0
      · rw [if_pos hhit]
        have hh : sampleHits W g cx cy r (c, s) = true := by
          unfold sampleHits samplePoint
          simp only [decide_eq_true_eq]
          exact hhit
        have h1 : hitsBeforeExit W H g cx cy r ((c, s) :: rays) =
            hitsBeforeExit W H g cx cy r rays + 1 := by
          unfold hitsBeforeExit
          rw [List.takeWhile_cons_of_pos hin, List.filter_cons_of_pos hh, List.length_cons]
        rw [h1]
        by_cases h24 : pass + 1 ≥ 24
        · rw [if_pos h24]
          constructor
          · intro _; push_cast; omega
          · intro _; rfl
        · rw [if_neg h24, ih (pass + 1) (by omega)]
          push_cast
          constructor <;> intro h <;> omega
      · rw [if_neg hhit]
        have hh : sampleHits W g cx cy r (c, s) = false := by
          unfold sampleHits samplePoint
          simp only [decide_eq_false_iff_not]
          exact hhit
        have h1 : hitsBeforeExit W H g cx cy r ((c, s) :: rays) =
            hitsBeforeExit W H g cx cy r rays := by
          unfold hitsBeforeExit
          rw [List.takeWhile_cons_of_pos hin, List.filter_cons_of_neg (by rw [hh]; decide)]
        rw [h1]
        exact ih pass hp

/-- The outer loop stops at the first radius of the list whose inner loop
succeeds; what follows that radius in the list is not looked at. -/
theorem radiusScan_first (W H : Int) (g : Int → Int) (rays : List (ℚ × ℚ)) (cx cy : ℚ) :
    ∀ (pre : List Int) (r : Int) (rest : List Int),
      (∀ r' ∈ pre, rayLoop W H g cx cy r' rays 0 = false) →
      rayLoop W H g cx cy r rays 0 = true →
      radiusScan W H g rays cx cy (pre ++ r :: rest) = r * 2 := by
  intro pre
  induction pre with
  | nil =>
    intro r rest _ hr
    simp only [List.nil_append, radiusScan, hr, if_true]
  | cons a pre ih =>
    intro r rest hpre hr
    have ha : rayLoop W H g cx cy a rays 0 = false := hpre a (List.mem_cons_self _ _)
    simp only [List.cons_append, radiusScan, ha]
    exact ih r rest (fun r' hr' => hpre r' (List.mem_cons_of_mem _ hr')) hr

/-- When no radius of the list succeeds, the result is the sentinel. -/
theorem radiusScan_none (W H : Int) (g : Int → Int) (rays : List (ℚ × ℚ)) (cx cy : ℚ) :
    ∀ (l : List Int), (∀ r ∈ l, rayLoop W H g cx cy r rays 0 = false) →
      radiusScan W H g rays cx cy l = -1 := by
  intro l
  induction l with
  | nil => intro _; rfl
  | cons a l ih =>
    intro h
    have ha : rayLoop W H g cx cy a rays 0 = false := h a (List.mem_cons_self _ _)
    simp only [radiusScan, ha]
    exact ih (fun r hr => h r (List.mem_cons_of_mem _ hr))

/-- A list splits at its first element with a property, if there is one. -/
theorem split_first (p : Int → Bool) (l : List Int) :
    (∀ r ∈ l, p r = false) ∨
      ∃ pre r rest, l = pre ++ r :: rest ∧ (∀ r' ∈ pre, p r' = false) ∧ p r = true := by
  induction l with
  | nil => exact Or.inl (fun _ h => absurd h (List.not_mem_nil _))
  | cons a l ih =>
    by_cases ha : p a = true
    · exact Or.inr ⟨[], a, l, rfl, fun _ h => absurd h (List.not_mem_nil _), ha⟩
    · have ha' : p a = false := by simpa using ha
      rcases ih with h | ⟨pre, r, rest, hl, hpre, hr⟩
      · left
        intro r hr
        rcases List.mem_cons.1 hr with rfl | h'
        · exact ha'
        · exact h r h'
      · right
        refine ⟨a :: pre, r, rest, by rw [hl]; rfl, ?_, hr⟩
        intro r' hr'
        rcases List.mem_cons.1 hr' with rfl | h'
        · exact ha'
        · exact hpre r' h'

/-- C15: the radius scan returns `2 r*` for the largest radius `r*` in
`[2, min(W-1, H-1) / 2]` at which at least 24 rays, taken in order, hit a pixel
of positive magnitude before the first ray whose sample point is outside the
sub-region, and `-1` when no radius qualifies; the radii after `r*` do not
enter the result. -/
theorem scan_largest_qualifying (W H : Int) (g : Int → Int) (rays : List (ℚ × ℚ)) (cx cy : ℚ) :
    ((∃ r, 2 ≤ r ∧ r ≤ min (W - 1) (H - 1) / 2 ∧
        24 ≤ hitsBeforeExit W H g cx cy r rays ∧
        (∀ r', 2 ≤ r' → r' ≤ min (W - 1) (H - 1) / 2 →
          24 ≤ hitsBeforeExit W H g cx cy r' rays → r' ≤ r) ∧
        radiusScan W H g rays cx cy (radii (Int.tdiv (min (W - 1) (H - 1)) 2)) = 2 * r) ∨
      ((∀ r, 2 ≤ r → r ≤ min (W - 1) (H - 1) / 2 →
          ¬ 24 ≤ hitsBeforeExit W H g cx cy r rays) ∧
        radiusScan W H g rays cx cy (radii (Int.tdiv (min (W - 1) (H - 1)) 2)) = -1)) ∧
    (∀ (pre : List Int) (r : Int) (rest rest' : List Int),
      (∀ r' ∈ pre, ¬ 24 ≤ hitsBeforeExit W H g cx cy r' rays) →
      24 ≤ hitsBeforeExit W H g cx cy r rays →
      radiusScan W H g rays cx cy (pre ++ r :: rest) = 2 * r ∧
      radiusScan W H g rays cx cy (pre ++ r :: rest) =
        radiusScan W H g rays cx cy (pre ++ r :: rest')) := by
  have hq : ∀ r, rayLoop W H g cx cy r rays 0 = true ↔ 24 ≤ hitsBeforeExit W H g cx cy r rays := by
    intro r
    rw [rayLoop_iff W H g cx cy r rays 0 (by decide)]
    omega
  have hqf : ∀ r, rayLoop W H g cx cy r rays 0 = false ↔
      ¬ 24 ≤ hitsBeforeExit W H g cx cy r rays := by
    intro r
    rw [← hq r]
    simp
  have hmem : ∀ r, r ∈ radii (Int.tdiv (min (W - 1) (H - 1)) 2) ↔
      2 ≤ r ∧ r ≤ min (W - 1) (H - 1) / 2 := by
    intro r
    rw [mem_radii]
    constructor
    · rintro ⟨h1, h2⟩
      exact ⟨h1, (le_tdiv_two _ r h1).1 h2⟩
    · rintro ⟨h1, h2⟩
      exact ⟨h1, (le_tdiv_two _ r h1).2 h2⟩
  refine ⟨?_, ?_⟩
  · rcases split_first (fun r => rayLoop W H g cx cy r rays 0)
      (radii (Int.tdiv (min (W - 1) (H - 1)) 2)) with h | ⟨pre, r, rest, hl, hpre, hr⟩
    · right
      refine ⟨?_, radiusScan_none W H g rays cx cy _ h⟩
      intro r h1 h2
      exact (hqf r).1 (h r ((hmem r).2 ⟨h1, h2⟩))
    · left
      have hrmem : r ∈ radii (Int.tdiv (min (W - 1) (H - 1)) 2) := by
        rw [hl]; simp
      have hpw := radii_pairwise (Int.tdiv (min (W - 1) (H - 1)) 2)
      rw [hl] at hpw
      refine ⟨r, ((hmem r).1 hrmem).1, ((hmem r).1 hrmem).2, (hq r).1 hr, ?_, ?_⟩
      · intro r' h1 h2 hq'
        have hr'mem : r' ∈ pre ++ r :: rest := by
          rw [← hl]; exact (hmem r').2 ⟨h1, h2⟩
        rcases List.mem_append.1 hr'mem with h | h
        · have := hpre r' h
          rw [(hq r').2 hq'] at this
          exact absurd this (by decide)
        · rcases List.mem_cons.1 h with rfl | h'
          · exact le_refl _
          · have := List.rel_of_pairwise_cons (List.pairwise_append.1 hpw).2.1 h'
            omega
      · rw [hl, radiusScan_first W H g rays cx cy pre r rest hpre hr]
        ring
  · intro pre r rest rest' hpre hr
    have hpre' : ∀ r' ∈ pre, rayLoop W H g cx cy r' rays 0 = false :=
      fun r' h => (hqf r').2 (hpre r' h)
    have hr' := (hq r).2 hr
    rw [radiusScan_first W H g rays cx cy pre r rest hpre' hr',
      radiusScan_first W H g rays cx cy pre r rest' hpre' hr']
    exact ⟨by ring, rfl⟩

/-! ## Claims on the half-flux radius -/

theorem halfFluxRadius_eq (data : FITSData) (offset : Int) (cx cy : ℚ) (width : Int) :
    halfFluxRadius data offset cx cy width =
      hfrLoop (subPixelsOf data offset cx cy width)
        ((subPixelsOf data offset cx cy width).sum / 2) (subPixelCenterOf width)
        (from1 (subPixelCenterOf width))
        ((subPixelsOf data offset cx cy width).getD (subPixelCenterOf width).toNat 0)
        ((subPixelsOf data offset cx cy width).getD (subPixelCenterOf width).toNat 0) := rfl

theorem stepsFrom_succ (j n : Nat) :
    stepsFrom j (n + 1) = ((j + 1 : Nat) : Int) :: stepsFrom (j + 1) n := by
  unfold stepsFrom
  rw [List.range_succ_eq_map, List.map_cons, List.map_map]
  congr 1
  · simp
  · apply List.map_congr_left
    intro i _
    simp only [Function.comp]
    congr 1
    omega

theorem from1_eq_stepsFrom (c : Int) : from1 c = stepsFrom 0 (c - 1).toNat := by
  unfold from1 stepsFrom
  apply List.map_congr_left
  intro i _
  push_cast
  ring

/-- The integration loop from step `j + 1` on, when the threshold is first
crossed at step `k`. -/
theorem hfrLoop_cross (s : List ℚ) (HF : ℚ) (c : Int) :
    ∀ (n j k : Nat), j < k → k ≤ j + n → HF ≤ runningTotal s c k →
      (∀ i : Nat, j < i → i < k → runningTotal s c i < HF) →
      hfrLoop s HF c (stepsFrom j n) (runningTotal s c j) (runningTotal s c j) =
        ((k : ℚ) - 1 + ((HF - runningTotal s c (k - 1)) /
          (runningTotal s c k - runningTotal s c (k - 1))) * 2) * resolution := by
  intro n
  induction n with
  | zero => intro j k h1 h2; omega
  | succ n ih =>
    intro j k h1 h2 hc hl
    rw [stepsFrom_succ]
    unfold hfrLoop
    simp only []
    have hT : runningTotal s c j + s.getD (c + ((j + 1 : Nat) : Int)).toNat 0
        + s.getD (c - ((j + 1 : Nat) : Int)).toNat 0 = runningTotal s c (j + 1) := rfl
    rw [hT]
    by_cases hk : k = j + 1
    · subst hk
      rw [if_pos hc]
      simp
    · have hlt : runningTotal s c (j + 1) < HF := hl (j + 1) (by omega) (by omega)
      rw [if_neg (not_le.2 hlt)]
      exact ih (j + 1) k (by omega) (by omega) hc (fun i h3 h4 => hl i (by omega) h4)

set_option maxRecDepth 100000 in
/-- The detector on `sparseImage`: one feature, of width 4 and half-flux
radius 1. -/
theorem sparse_eval : findSourcesT starEnv (some sparseImage) [] nullRect
    = some (1, [{ x := 3, y := 141 / 32, width := 4, HFR := 1 }]) := by
  decide!

/-- The stages of the detector on `sparseImage`. -/
theorem sparse_stage :
    ∃ N ids,
      partition (subW sparseImage nullRect) (subH sparseImage nullRect) sparseGradients
        (fun _ => 0) = some (N, ids) ∧
      detectFrom starEnv sparseImage [] nullRect sparseGradients N ids =
        (1, [{ x := 3, y := 141 / 32, width := 4, HFR := 1 }]) ∧
      centroidX (subW sparseImage nullRect) (subH sparseImage nullRect) sparseGradients ids = 3 ∧
      centroidY (subW sparseImage nullRect) (subH sparseImage nullRect) sparseGradients ids
        = 141 / 32 ∧
      scanWidth starEnv (subW sparseImage nullRect) (subH sparseImage nullRect)
        sparseGradients ids = 4 := by
  have h := sparse_eval
  unfold findSourcesT at h
  simp only [] at h
  rw [if_neg (by decide)] at h
  change (partition (subW sparseImage nullRect) (subH sparseImage nullRect) sparseGradients
    (fun _ => 0)).map (fun r => detectFrom starEnv sparseImage [] nullRect sparseGradients
      r.1 r.2) = _ at h
  rcases hp : partition (subW sparseImage nullRect) (subH sparseImage nullRect) sparseGradients
    (fun _ => 0) with _ | ⟨N, ids⟩
  · rw [hp] at h
    exact absurd h (by simp)
  · rw [hp] at h
    simp only [Option.map_some', Option.some.injEq] at h
    refine ⟨N, ids, rfl, h, ?_⟩
    rw [detectFrom_eq] at h
    split_ifs at h with h1 h2 h3
    · exact absurd (congrArg Prod.fst h) (by decide)
    · exact absurd (congrArg Prod.fst h) (by decide)
    · exact absurd (congrArg Prod.fst h) (by decide)
    · have he := congrArg Prod.snd h
      simp only [List.nil_append, List.cons.injEq, and_true] at he
      have hx := congrArg Edge.x he
      have hy := congrArg Edge.y he
      have hw := congrArg Edge.width he
      simp only [reportedEdge] at hx hy hw
      have hsx : ((subX nullRect : Int) : ℚ) = 0 := by decide!
      have hsy : ((subY nullRect : Int) : ℚ) = 0 := by decide!
      rw [hsx, add_zero] at hx
      rw [hsy, add_zero] at hy
      exact ⟨hx, hy, hw⟩

/-- Rows of writes at `y * W + x`, read back at the index of a pixel. -/
theorem rows_setAt (W : Int) (v : Int → Int → Int) (l : List Int) (g0 : Int → Int) (x y : Int)
    (hx : 0 ≤ x) (hxW : x < W) :
    (l.foldl (fun d y' => (upTo W).foldl (fun d x' => setAt d (y' * W + x') (v x' y')) d) g0)
        (x + y * W)
      = if y ∈ l then v x y else g0 (x + y * W) := by
  induction l generalizing g0 with
  | nil => simp
  | cons y' l ih =>
    rw [List.foldl_cons, ih]
    by_cases h1 : y ∈ l
    · simp [h1]
    · rw [if_neg h1, foldl_setAt (fun x' => v x' y') (y' * W) (upTo W)]
      by_cases h2 : y = y'
      · subst h2
        have : x + y * W - y * W = x := by ring
        rw [this, if_pos (mem_upTo.2 ⟨hx, hxW⟩)]
        simp
      · have : ¬ (x + y * W - y' * W) ∈ upTo W := by
          rw [mem_upTo]
          rintro ⟨h3, h4⟩
          have := @index_inj W x y (x + y * W - y' * W) y'
            hx hxW h3 h4 (by ring)
          exact h2 this.2
        rw [if_neg this]
        simp [h1, h2]

/-- The direction `sobel` stores for a pixel. -/
theorem sobelDirection_at (atan : ℚ → ℚ) (M_PI : ℚ) (W H : Int) (I : Int → Int) (x y : Int)
    (hx : 0 ≤ x) (hxW : x < W) (hy : 0 ≤ y) (hyH : y < H) :
    sobelDirection atan M_PI W H I (x + y * W) =
      classifyDirection atan M_PI (gradXAt W H I x y) (gradYAt W H I x y) := by
  have h := rows_setAt W
    (fun x y => classifyDirection atan M_PI (gradXAt W H I x y) (gradYAt W H I x y))
    (upTo H) (fun _ => 0) x y hx hxW
  rw [if_pos (mem_upTo.2 ⟨hy, hyH⟩)] at h
  exact h

/-- C20: for every pixel `(x, y)` of a `W × H` buffer, the direction `sobel`
stores at `x + y*W` is one of 0, 1, 2, 3; it is 0 when `gradX` and `gradY` are
both zero, 3 when only `gradX` is zero, and otherwise, with
`a = 180 * atan (gradY / gradX) / M_PI`, it is 0 for `-22.5 ≤ a < 22.5`, 2 for
`22.5 ≤ a < 67.5`, 1 for `-67.5 ≤ a < -22.5` and 3 in every remaining case.
The functions `atan` and the constant `M_PI` of the C library are
parameters. -/
theorem sobel_direction (atan : ℚ → ℚ) (M_PI : ℚ) (W H : Int) (I : Int → Int) (x y : Int)
    (hx : 0 ≤ x) (hxW : x < W) (hy : 0 ≤ y) (hyH : y < H) :
    (sobelDirection atan M_PI W H I (x + y * W) = 0 ∨
      sobelDirection atan M_PI W H I (x + y * W) = 1 ∨
      sobelDirection atan M_PI W H I (x + y * W) = 2 ∨
      sobelDirection atan M_PI W H I (x + y * W) = 3) ∧
    (gradXAt W H I x y = 0 ∧ gradYAt W H I x y = 0 →
      sobelDirection atan M_PI W H I (x + y * W) = 0) ∧
    (gradXAt W H I x y = 0 ∧ gradYAt W H I x y ≠ 0 →
      sobelDirection atan M_PI W H I (x + y * W) = 3) ∧
    (gradXAt W H I x y ≠ 0 →
      (-45 / 2 ≤ angleDegrees atan M_PI (gradXAt W H I x y) (gradYAt W H I x y) ∧
        angleDegrees atan M_PI (gradXAt W H I x y) (gradYAt W H I x y) < 45 / 2 →
        sobelDirection atan M_PI W H I (x + y * W) = 0) ∧
      (45 / 2 ≤ angleDegrees atan M_PI (gradXAt W H I x y) (gradYAt W H I x y) ∧
        angleDegrees atan M_PI (gradXAt W H I x y) (gradYAt W H I x y) < 135 / 2 →
        sobelDirection atan M_PI W H I (x + y * W) = 2) ∧
      (-135 / 2 ≤ angleDegrees atan M_PI (gradXAt W H I x y) (gradYAt W H I x y) ∧
        angleDegrees atan M_PI (gradXAt W H I x y) (gradYAt W H I x y) < -45 / 2 →
        sobelDirection atan M_PI W H I (x + y * W) = 1) ∧
      (¬ (-135 / 2 ≤ angleDegrees atan M_PI (gradXAt W H I x y) (gradYAt W H I x y) ∧
          angleDegrees atan M_PI (gradXAt W H I x y) (gradYAt W H I x y) < 135 / 2) →
        sobelDirection atan M_PI W H I (x + y * W) = 3)) := by
  rw [sobelDirection_at atan M_PI W H I x y hx hxW hy hyH]
  generalize gradXAt W H I x y = gX
  generalize gradYAt W H I x y = gY
  unfold classifyDirection
  simp only []
  generalize angleDegrees atan M_PI gX gY = a
  refine ⟨?_, ?_, ?_, ?_⟩
  · split_ifs <;> simp
  · rintro ⟨h1, h2⟩
    rw [if_pos ⟨h1, h2⟩]
  · rintro ⟨h1, h2⟩
    rw [if_neg (fun h => h2 h.2), if_pos h1]
  · intro h1
    rw [if_neg (fun h => h1 h.1), if_neg h1]
    refine ⟨?_, ?_, ?_, ?_⟩
    · rintro ⟨h2, h3⟩
      rw [if_pos ⟨h2, h3⟩]
    · rintro ⟨h2, h3⟩
      rw [if_neg (fun h => not_lt.2 h2 h.2), if_pos ⟨h2, h3⟩]
    · rintro ⟨h2, h3⟩
      have h4 : a < 45 / 2 := lt_trans h3 (by norm_num)
      rw [if_neg (fun h => not_lt.2 h.1 h3), if_neg (fun h => not_lt.2 h.1 h4), if_pos ⟨h2, h3⟩]
    · intro h2
      have h5 : ¬ (a ≥ -45 / 2 ∧ a < 45 / 2) := fun h =>
        h2 ⟨le_trans (by norm_num) h.1, lt_trans h.2 (by norm_num)⟩
      have h6 : ¬ (a ≥ 45 / 2 ∧ a < 135 / 2) := fun h =>
        h2 ⟨le_trans (by norm_num) h.1, h.2⟩
      have h7 : ¬ (a ≥ -135 / 2 ∧ a < -45 / 2) := fun h =>
        h2 ⟨h.1, lt_trans h.2 (by norm_num)⟩
      rw [if_neg h5, if_neg h6, if_neg h7]

/-- Witness of C20: the pixel `(0, 1)` of the ramp image has `gradX = 22` and
`gradY = -42`, an angle of about `-62.3` degrees, and direction 1. -/
theorem sobel_direction_witness :
    sobelDirection sampleAtan (355 / 113) 3 2 rampImage (0 + 1 * 3) = 1 :=
  ((sobel_direction sampleAtan (355 / 113) 3 2 rampImage 0 1 (by decide) (by decide) (by decide)
    (by decide)).2.2.2 (by decide)).2.2.1 (by decide!)

/-- C19 (refuted): the dispatch sends `TULONG` to `uint16_t`, the sample type
of `TUSHORT`, not to the unsigned 32-bit type; the encodings of the eight tags
are therefore not pairwise distinct.  The other seven tags are dispatched as
the specification says. -/
theorem dispatch_tulong_not_uint32 :
    findSourcesDispatch DataType.TULONG = SampleType.uint16_t ∧
    findSourcesDispatch DataType.TULONG ≠ specEncoding DataType.TULONG ∧
    findSourcesDispatch DataType.TULONG = findSourcesDispatch DataType.TUSHORT ∧
    ¬ Function.Injective findSourcesDispatch ∧
    ∀ t, t ≠ DataType.TULONG → findSourcesDispatch t = specEncoding t := by
  refine ⟨rfl, by decide, rfl, ?_, ?_⟩
  · intro h
    exact absurd (@h DataType.TULONG DataType.TUSHORT rfl) (by decide)
  · intro t ht
    cases t <;> first | rfl | exact absurd rfl ht

/-- The sub-region copy for `ghostRect` takes every sample from after the
seven samples of the buffer. -/
theorem ghost_copy (buf : Int → Int) (n : Int) (h0 : 0 ≤ n) (h1 : n < 49) :
    copySubRegion buf (subX ghostRect) (subY ghostRect) (subW ghostImage ghostRect)
      (subH ghostImage ghostRect) ghostImage.width n = buf (n + 7) := by
  interval_cases n <;> rfl

set_option maxRecDepth 100000 in
/-- The detector on `ghostImage` within `ghostRect`. -/
theorem ghost_eval : findSourcesT starEnv (some ghostImage) [] ghostRect
    = some (1, [{ x := 3, y := 173 / 32, width := 4, HFR := 1 }]) := by
  decide!

/-- C18 (refuted): `ghostRect` lies below the last row of the `7 × 1` image
`ghostImage`, yet the sub-region copy reads 49 samples, every one of them at
an index past the end of the buffer; the scratch image is what the memory
there holds, and `findSources` reports one feature from it. -/
theorem outside_rectangle_is_read :
    ghostImage.height ≤ ghostRect.y ∧
    (copyReads (subX ghostRect) (subY ghostRect) (subW ghostImage ghostRect)
      (subH ghostImage ghostRect) ghostImage.width).length = 49 ∧
    (∀ i ∈ copyReads (subX ghostRect) (subY ghostRect) (subW ghostImage ghostRect)
      (subH ghostImage ghostRect) ghostImage.width, ghostImage.width * ghostImage.height ≤ i) ∧
    (∀ (buf : Int → Int) (n : Int), 0 ≤ n → n < 49 →
      copySubRegion buf (subX ghostRect) (subY ghostRect) (subW ghostImage ghostRect)
        (subH ghostImage ghostRect) ghostImage.width n = buf (n + 7)) ∧
    findSourcesT starEnv (some ghostImage) [] ghostRect
      = some (1, [{ x := 3, y := 173 / 32, width := 4, HFR := 1 }]) :=
  ⟨by decide, by decide, by decide, ghost_copy, ghost_eval⟩

/-! ## Concrete fields for the selection and the radius scan -/

set_option maxRecDepth 100000 in
/-- The regions of `dotsField`: eleven, the fourth of them with at least
`3/2` of the mass of every other one. -/
theorem dots_eval :
    (partition (subW dotsImage nullRect) (subH dotsImage nullRect) dotsField (fun _ => 0)).map
      (fun r => decide (r.1 = 11 ∧ ∀ k ∈ from1 12, k ≠ 4 →
        3 / 2 * regionSum (subW dotsImage nullRect) (subH dotsImage nullRect) r.2 k
            (fun x y => (dotsField (x + y * subW dotsImage nullRect) : ℚ))
          ≤ regionSum (subW dotsImage nullRect) (subH dotsImage nullRect) r.2 4
            (fun x y => (dotsField (x + y * subW dotsImage nullRect) : ℚ))))
      = some true := by
  decide!

/-- Witness of C13: the eleven regions of `dotsField` all have a positive
total mass, and so has the selected one. -/
theorem total_mass_positive_witness :
    ∃ N ids,
      partition (subW dotsImage nullRect) (subH dotsImage nullRect) dotsField (fun _ => 0)
        = some (N, ids) ∧
      N = 11 ∧
      (∀ k, 1 ≤ k → k ≤ N →
        0 < (QMap.value (regionMasses (subW dotsImage nullRect) (subH dotsImage nullRect)
          dotsField ids) k).totalMass) ∧
      0 < (QMap.value (regionMasses (subW dotsImage nullRect) (subH dotsImage nullRect)
          dotsField ids)
        (selectMax (regionMasses (subW dotsImage nullRect) (subH dotsImage nullRect)
          dotsField ids)).maxRegionID).totalMass := by
  obtain ⟨N, ids, hp, h⟩ :=
    total_mass_positive (subW dotsImage nullRect) (subH dotsImage nullRect) dotsField
  have ev := dots_eval
  rw [hp] at ev
  simp only [Option.map_some', Option.some.injEq, decide_eq_true_eq] at ev
  have hN : N = 11 := ev.1
  have hd := h (by omega)
  exact ⟨N, ids, hp, hN, hd.1, hd.2.2.2⟩

/-- Witness of C14: a sub-region of width 4 leaves the width at `-1`. -/
theorem scan_width_range_witness :
    radiusScan 4 9 dotsField rayTable 2 2 (radii (Int.tdiv (min (4 - 1) (9 - 1)) 2)) = -1 :=
  (scan_width_range 4 9 dotsField rayTable 2 2).2 (by decide)

/-- Witness of C15: on `sparseImage` the scan stops at the radius 2, where at
least 24 rays hit. -/
theorem scan_largest_qualifying_witness :
    ∃ r, 2 ≤ r ∧
      r ≤ min (subW sparseImage nullRect - 1) (subH sparseImage nullRect - 1) / 2 ∧
      24 ≤ hitsBeforeExit (subW sparseImage nullRect) (subH sparseImage nullRect)
        sparseGradients 3 (141 / 32) r starEnv.rays ∧
      radiusScan (subW sparseImage nullRect) (subH sparseImage nullRect) sparseGradients
        starEnv.rays 3 (141 / 32)
        (radii (Int.tdiv
          (min (subW sparseImage nullRect - 1) (subH sparseImage nullRect - 1)) 2)) = 2 * r := by
  obtain ⟨N, ids, _, _, hx, hy, hw⟩ := sparse_stage
  unfold scanWidth at hw
  rw [hx, hy] at hw
  rcases (scan_largest_qualifying (subW sparseImage nullRect) (subH sparseImage nullRect)
    sparseGradients starEnv.rays 3 (141 / 32)).1 with ⟨r, h1, h2, h3, _, h5⟩ | ⟨_, h⟩
  · exact ⟨r, h1, h2, h3, h5⟩
  · rw [hw] at h
    exact absurd h (by decide)

/-! ## Bounds on the half-flux radius -/

/-- The index `subPixelCenter` is `10 * width`. -/
theorem subPixelCenterOf_eq (w : Int) : subPixelCenterOf w = 10 * w := by
  unfold subPixelCenterOf resolution
  have : ((w : ℚ) / (1 / 20)) / 2 = ((10 * w : Int) : ℚ) := by
    push_cast
    ring
  rw [this, truncToInt_intCast]

/-- The value left by the integration loop when the threshold is first crossed
at step `k` lies in `((k-1)/20, (k+1)/20]`. -/
theorem hfr_cross_bounds (s : List ℚ) (c : Int) (k : Nat) (hk1 : 1 ≤ k) (hkc : (k : Int) < c)
    (hcentre : runningTotal s c 0 < s.sum / 2)
    (hcross : s.sum / 2 ≤ runningTotal s c k)
    (hleast : ∀ j : Nat, 1 ≤ j → j < k → runningTotal s c j < s.sum / 2) :
    0 < runningTotal s c k - runningTotal s c (k - 1) ∧
    ((k : ℚ) - 1) / 20 <
      hfrLoop s (s.sum / 2) c (from1 c) (s.getD c.toNat 0) (s.getD c.toNat 0) ∧
    hfrLoop s (s.sum / 2) c (from1 c) (s.getD c.toNat 0) (s.getD c.toNat 0)
      ≤ ((k : ℚ) + 1) / 20 := by
  have hlt : runningTotal s c (k - 1) < s.sum / 2 := by
    by_cases hk : 2 ≤ k
    · exact hleast (k - 1) (by omega) (by omega)
    · have hk1 : k = 1 := by omega
      subst hk1
      exact hcentre
  have hd : 0 < runningTotal s c k - runningTotal s c (k - 1) := by linarith
  have key : hfrLoop s (s.sum / 2) c (from1 c) (s.getD c.toNat 0) (s.getD c.toNat 0) =
      ((k : ℚ) - 1 + ((s.sum / 2 - runningTotal s c (k - 1)) /
        (runningTotal s c k - runningTotal s c (k - 1))) * 2) * resolution := by
    rw [from1_eq_stepsFrom]
    exact hfrLoop_cross s (s.sum / 2) c (c - 1).toNat 0 k (by omega) (by omega) hcross
      (fun i h1 h2 => hleast i (by omega) h2)
  have hr0 : 0 < (s.sum / 2 - runningTotal s c (k - 1)) /
      (runningTotal s c k - runningTotal s c (k - 1)) := div_pos (by linarith) hd
  have hr1 : (s.sum / 2 - runningTotal s c (k - 1)) /
      (runningTotal s c k - runningTotal s c (k - 1)) ≤ 1 := by
    rw [div_le_one hd]
    linarith
  refine ⟨hd, ?_, ?_⟩
  · rw [key]
    unfold resolution
    linarith
  · rw [key]
    unfold resolution
    linarith

/-- C28: for a list of sub-pixel contributions with centre index `c = 10 w`
whose centre sample is below the half-flux target `HF = (Σ s) / 2`, if the
threshold is first crossed at step `k` (in `1..c-1`), then the divisor
`T_k - T_(k-1)` is positive and the half-flux radius lies in
`((k-1)/20, (k+1)/20]`, hence in `(0, w/2]`; so does the half-flux radius of a
detector call with that `subPixels` list and found width `w`.  The bound does
not need the contributions to be non-negative. -/
theorem hfr_within_half_width (s : List ℚ) (w : Int) (k : Nat) (hk1 : 1 ≤ k)
    (hkc : (k : Int) < 10 * w)
    (hcentre : runningTotal s (10 * w) 0 < s.sum / 2)
    (hcross : s.sum / 2 ≤ runningTotal s (10 * w) k)
    (hleast : ∀ j : Nat, 1 ≤ j → j < k → runningTotal s (10 * w) j < s.sum / 2) :
    0 < runningTotal s (10 * w) k - runningTotal s (10 * w) (k - 1) ∧
    ((k : ℚ) - 1) / 20 <
      hfrLoop s (s.sum / 2) (10 * w) (from1 (10 * w)) (s.getD (10 * w).toNat 0)
        (s.getD (10 * w).toNat 0) ∧
    hfrLoop s (s.sum / 2) (10 * w) (from1 (10 * w)) (s.getD (10 * w).toNat 0)
        (s.getD (10 * w).toNat 0) ≤ ((k : ℚ) + 1) / 20 ∧
    0 < hfrLoop s (s.sum / 2) (10 * w) (from1 (10 * w)) (s.getD (10 * w).toNat 0)
        (s.getD (10 * w).toNat 0) ∧
    hfrLoop s (s.sum / 2) (10 * w) (from1 (10 * w)) (s.getD (10 * w).toNat 0)
        (s.getD (10 * w).toNat 0) ≤ (w : ℚ) / 2 ∧
    ∀ (data : FITSData) (offset : Int) (cx cy : ℚ),
      s = subPixelsOf data offset cx cy w →
      0 < halfFluxRadius data offset cx cy w ∧
        halfFluxRadius data offset cx cy w ≤ (w : ℚ) / 2 := by
  obtain ⟨hd, hlo, hhi⟩ := hfr_cross_bounds s (10 * w) k hk1 hkc hcentre hcross hleast
  have hk1q : (1 : ℚ) ≤ (k : ℚ) := by exact_mod_cast hk1
  have hkq : (k : ℚ) + 1 ≤ 10 * (w : ℚ) := by
    have : (k : Int) + 1 ≤ 10 * w := by omega
    exact_mod_cast this
  have h0 : 0 < hfrLoop s (s.sum / 2) (10 * w) (from1 (10 * w)) (s.getD (10 * w).toNat 0)
      (s.getD (10 * w).toNat 0) := by
    refine lt_of_le_of_lt ?_ hlo
    apply div_nonneg
    · linarith
    · norm_num
  have hw : hfrLoop s (s.sum / 2) (10 * w) (from1 (10 * w)) (s.getD (10 * w).toNat 0)
      (s.getD (10 * w).toNat 0) ≤ (w : ℚ) / 2 := by
    refine le_trans hhi ?_
    linarith
  refine ⟨hd, hlo, hhi, h0, hw, ?_⟩
  intro data offset cx cy hs
  rw [halfFluxRadius_eq, ← hs, subPixelCenterOf_eq]
  exact ⟨h0, hw⟩

/-- Witness of C28: 21 equal contributions (`w = 1`, centre index 10); the
threshold `21/2` is first crossed at step 5. -/
theorem hfr_within_half_width_witness :
    0 < hfrLoop (List.replicate 21 1) ((List.replicate 21 (1 : ℚ)).sum / 2) (10 * 1)
        (from1 (10 * 1)) ((List.replicate 21 (1 : ℚ)).getD (10 * 1 : Int).toNat 0)
        ((List.replicate 21 (1 : ℚ)).getD (10 * 1 : Int).toNat 0) ∧
    hfrLoop (List.replicate 21 1) ((List.replicate 21 (1 : ℚ)).sum / 2) (10 * 1)
        (from1 (10 * 1)) ((List.replicate 21 (1 : ℚ)).getD (10 * 1 : Int).toNat 0)
        ((List.replicate 21 (1 : ℚ)).getD (10 * 1 : Int).toNat 0) ≤ ((1 : Int) : ℚ) / 2 := by
  have h := hfr_within_half_width (List.replicate 21 1) 1 5 (by decide) (by decide)
    (by decide!) (by decide!)
    (by
      have hall : ∀ j : Nat, j < 5 →
          runningTotal (List.replicate 21 1) (10 * 1) j < (List.replicate 21 (1 : ℚ)).sum / 2 := by
        decide!
      intro j _ hj
      exact hall j hj)
  exact ⟨h.2.2.2.1, h.2.2.2.2.1⟩

/-- A region sum only depends on the weight at the pixels of the region. -/
theorem regionSum_congr (W H : Int) (ids : Int → Int) (k : Int) (f h : Int → Int → ℚ)
    (hfh : ∀ x y, inBounds W H x y → ids (x + y * W) = k → f x y = h x y) :
    regionSum W H ids k f = regionSum W H ids k h := by
  unfold regionSum
  congr 1
  apply List.map_congr_left
  intro y hy
  congr 1
  apply List.map_congr_left
  intro x hx
  rw [mem_upTo] at hx hy
  split_ifs with hk
  · exact hfh x y ⟨hx.1, hx.2, hy.1, hy.2⟩ hk
  · rfl

/-- An invariant of a loop in the `Option` monad that returns. -/
theorem foldlM_some_inv {α β : Type} (f : β → α → Option β) (P : β → Prop) (l : List α) :
    ∀ (b r : β), l.foldlM f b = some r → P b →
      (∀ b a b', a ∈ l → P b → f b a = some b' → P b') → P r := by
  induction l with
  | nil =>
    intro b r h hP _
    have : b = r := Option.some.inj h
    rw [← this]
    exact hP
  | cons a l ih =>
    intro b r h hP hstep
    rw [List.foldlM_cons] at h
    rcases hfa : f b a with _ | b'
    · rw [hfa] at h
      exact absurd h (by simp)
    · rw [hfa] at h
      exact ih b' r h (hstep b a b' (List.mem_cons_self _ _) hP hfa)
        (fun b a' b'' ha' => hstep b a' b'' (List.mem_cons_of_mem _ ha'))

/-- A chain stays a chain when the labels it uses are kept. -/
theorem chain_mono (W H : Int) (g ids ids' : Int → Int) (k : Int) (hk : k ≠ 0)
    (hmono : ∀ n, ids n ≠ 0 → ids' n = ids n) (p q : Int × Int)
    (h : chain W H g ids k p q) : chain W H g ids' k p q := by
  refine Relation.ReflTransGen.mono ?_ h
  intro a b hs
  refine ⟨hs.1, hs.2.1, hs.2.2.1, ?_⟩
  rw [hmono _ (by rw [hs.2.2.2]; exact hk)]
  exact hs.2.2.2

/-- The pixels a returning call of `trace` labels are chained to its start. -/
theorem trace_conn (W H id : Int) (g : Int → Int) (hid : id ≠ 0) (fuel : Nat) :
    ∀ (ids : Int → Int) (x y : Int) (ids' : Int → Int), inBounds W H x y →
      unlabelled W H ids < fuel → trace fuel W H id g ids x y = some ids' →
      TraceConn W H id g ids ids' x y := by
  induction fuel with
  | zero => intro ids x y ids' _ h; exact absurd h (Nat.not_lt_zero _)
  | succ fuel ih =>
    intro ids x y ids' hb hfuel htr
    have hidx : y * W + x = x + y * W := by ring
    unfold trace at htr
    simp only [] at htr
    by_cases hlab : ids (y * W + x) ≠ 0
    · rw [if_pos hlab] at htr
      have : ids = ids' := Option.some.inj htr
      subst this
      intro n h0 hne
      exact absurd h0 hne
    · rw [if_neg hlab, hidx] at htr
      have h0 : ids (x + y * W) = 0 := by
        rw [← hidx]; exact not_not.1 hlab
      have hlt : unlabelled W H (setAt ids (x + y * W) id) < unlabelled W H ids :=
        unlabelled_setAt W H ids x y id hid hb h0
      have hself : setAt ids (x + y * W) id (x + y * W) = id := by simp [setAt]
      have hoth : ∀ n, n ≠ x + y * W → setAt ids (x + y * W) id n = ids n := by
        intro n hn; simp [setAt, hn]
      have hfinal := foldlM_some_inv _
        (ConnInv W H id g (setAt ids (x + y * W) id) x y)
        loop3 _ ids' htr
        ⟨fun _ _ => rfl, fun _ h0 hne => absurd h0 hne⟩
        (by
          intro acc j r hj hP hstep
          by_cases hyb : y + j < 0 ∨ y + j ≥ H
          · rw [if_pos hyb] at hstep
            have : acc = r := Option.some.inj hstep
            rw [← this]
            exact hP
          · rw [if_neg hyb] at hstep
            refine foldlM_some_inv _ (ConnInv W H id g (setAt ids (x + y * W) id) x y)
              loop3 acc r hstep hP ?_
            intro b i b' hi hPb hstep2
            beta_reduce at hstep2
            have he : y * W + j * W + (x + i) = (x + i) + (y + j) * W := by ring
            by_cases hxb : i = j ∨ x + i < 0 ∨ x + i ≥ W
            · rw [if_pos hxb] at hstep2
              have : b = b' := Option.some.inj hstep2
              rw [← this]
              exact hPb
            · rw [if_neg hxb] at hstep2
              by_cases hpos : g (y * W + j * W + (x + i)) > 0
              · rw [if_pos hpos] at hstep2
                have hbi : inBounds W H (x + i) (y + j) := by
                  unfold inBounds
                  push_neg at hxb hyb
                  omega
                have hfu : unlabelled W H b < fuel := by
                  have := unlabelled_mono W H _ b hPb.1
                  omega
                obtain ⟨b'', hb'', hT⟩ := trace_post W H id g hid fuel b (x + i) (y + j) hbi hfu
                have hbb : b'' = b' := Option.some.inj (hb''.symm.trans hstep2)
                subst hbb
                have hC := ih b (x + i) (y + j) b'' hbi hfu hstep2
                refine ⟨?_, ?_⟩
                · intro n hn
                  rw [hT.mono n (by rw [hPb.1 n hn]; exact hn), hPb.1 n hn]
                · intro n hn0 hne
                  by_cases hbn : b n = 0
                  · obtain ⟨hlabel, x', y', hb', hn', hch⟩ := hC n hbn hne
                    refine ⟨x', y', hb', hn', ?_⟩
                    refine Relation.ReflTransGen.head ?_ hch
                    refine ⟨⟨i, hi, j, hj, ?_, rfl, rfl⟩, hbi, ?_, hlabel⟩
                    · intro hij
                      exact hxb (Or.inl hij)
                    · rw [← he]
                      exact hpos
                  · obtain ⟨x', y', hb', hn', hch⟩ := hPb.2 n hn0 hbn
                    exact ⟨x', y', hb', hn', chain_mono W H g b b'' id hid hT.mono _ _ hch⟩
              · rw [if_neg hpos] at hstep2
                have : b = b' := Option.some.inj hstep2
                rw [← this]
                exact hPb)
      obtain ⟨hm, hc⟩ := hfinal
      intro n hn0 hne
      refine ⟨by rw [hm _ (by rw [hself]; exact hid), hself], ?_⟩
      by_cases heq : n = x + y * W
      · exact ⟨x, y, hb, heq, Relation.ReflTransGen.refl⟩
      · exact hc n (by rw [hoth n heq]; exact hn0) hne

/-- One step of the scan keeps the two invariants. -/
theorem partitionStep_conn (W H : Int) (g : Int → Int) (x y : Int) (hint : interior W H x y)
    (st : Int × (Int → Int)) (hinv : PartInv W H g st) (hconn : PartConn W H g st)
    (st' : Int × (Int → Int)) (h : partitionStep W H g y st x = some st') :
    PartInv W H g st' ∧ PartConn W H g st' := by
  obtain ⟨st'', hst'', hinv', _, _⟩ := partitionStep_inv W H g x y hint st hinv
  have hEq : st'' = st' := Option.some.inj (hst''.symm.trans h)
  subst hEq
  refine ⟨hinv', ?_⟩
  unfold partitionStep at h
  simp only [] at h
  by_cases hc : g (x + y * W) > 0 ∧ st.2 (x + y * W) = 0
  · rw [if_pos hc] at h
    have hid : st.1 + 1 ≠ 0 := by have := hinv.id_nonneg; omega
    have hfuel : unlabelled W H st.2 < traceFuel W H := by
      have := unlabelled_le W H st.2
      unfold traceFuel
      omega
    have hb := interior_inBounds hint
    obtain ⟨ids', he, hT⟩ := trace_post W H (st.1 + 1) g hid (traceFuel W H) st.2 x y hb hfuel
    have hC := trace_conn W H (st.1 + 1) g hid (traceFuel W H) st.2 x y ids' hb hfuel he
    rw [he] at h
    have hst : st'' = (st.1 + 1, ids') := (Option.some.inj h).symm
    subst hst
    have hold : ∀ n, ids' n ≠ st.1 + 1 → ids' n = st.2 n := by
      intro n hn
      rcases hT.only n with h1 | h1
      · exact h1
      · exact absurd h1 hn
    have hnew : ∀ n, ids' n = st.1 + 1 → st.2 n = 0 := by
      intro n hn
      by_contra hne
      have := hT.mono n hne
      have := hinv.range n
      omega
    refine ⟨?_, ?_⟩
    · intro n hn
      by_cases h0 : st.2 n = 0
      · obtain ⟨_, x', y', hb', hn', _⟩ := hC n h0 hn
        exact ⟨x', y', hb', hn'⟩
      · exact hconn.inb n h0
    · intro k hk1 hk2
      by_cases hk : k ≤ st.1
      · obtain ⟨sx, sy, hsi, hsg, hsl, hch⟩ := hconn.seed k hk1 hk
        have hk0 : k ≠ 0 := by omega
        refine ⟨sx, sy, hsi, hsg, ?_, ?_⟩
        · show ids' (sx + sy * W) = k
          rw [hT.mono _ (by rw [hsl]; exact hk0)]
          exact hsl
        · intro x' y' hb' hl
          have hl' : ids' (x' + y' * W) = k := hl
          have : st.2 (x' + y' * W) = k := by
            rw [← hold _ (by rw [hl']; omega)]
            exact hl'
          exact chain_mono W H g st.2 ids' k hk0 hT.mono _ _ (hch x' y' hb' this)
      · have hkk : k = st.1 + 1 := by
          have : k ≤ st.1 + 1 := hk2
          omega
        subst hkk
        refine ⟨x, y, hint, hc.1, ?_, ?_⟩
        · show ids' (x + y * W) = st.1 + 1
          rcases hT.only (x + y * W) with h1 | h1
          · rw [hc.2] at h1
            exact absurd h1 hT.here
          · exact h1
        · intro x' y' hb' hl
          have hl' : ids' (x' + y' * W) = st.1 + 1 := hl
          obtain ⟨_, x2, y2, hb2, hn2, hch⟩ := hC (x' + y' * W) (hnew _ hl')
            (by rw [hl']; exact hid)
          obtain ⟨rfl, rfl⟩ := index_inj hb'.1 hb'.2.1 hb2.1 hb2.2.1 hn2
          exact hch
  · rw [if_neg hc] at h
    have : st = st'' := Option.some.inj h
    rw [← this]
    exact hconn

/-- The all-zero label map satisfies the connectivity invariant. -/
theorem partConn_zero (W H : Int) (g : Int → Int) : PartConn W H g (0, fun _ => 0) :=
  ⟨fun _ h => absurd rfl h, fun k h1 h2 => by change k ≤ 0 at h2; omega⟩

/-- The function `partition` returns from the all-zero label map with both
invariants, every positive pixel inside the outermost ring being labelled. -/
theorem partition_conn (W H : Int) (g : Int → Int) :
    ∃ st, partition W H g (fun _ => 0) = some st ∧ PartInv W H g st ∧
      (∀ x y, interior W H x y → g (x + y * W) > 0 → st.2 (x + y * W) ≠ 0) ∧
      PartConn W H g st := by
  obtain ⟨st, hst, hinv, hlab⟩ := partition_inv W H g
  refine ⟨st, hst, hinv, hlab, ?_⟩
  have hst' := hst
  unfold partition at hst'
  have := foldlM_some_inv (partitionRow W H g)
    (fun b => PartInv W H g b ∧ PartConn W H g b) (from1 (H - 1)) (0, fun _ => 0) st hst'
    ⟨partInv_zero W H g, partConn_zero W H g⟩
    (by
      intro b y b' hy hP hrow
      unfold partitionRow at hrow
      rw [mem_from1] at hy
      refine foldlM_some_inv (partitionStep W H g y)
        (fun b => PartInv W H g b ∧ PartConn W H g b) (from1 (W - 1)) b b' hrow hP ?_
      intro c x c' hx hPc hstep
      rw [mem_from1] at hx
      exact partitionStep_conn W H g x y ⟨hx.1, hx.2, hy.1, hy.2⟩ c hPc.1 hPc.2 c' hstep)
  exact this.2

/-- The test of `trace` on a neighbour is the adjacency rule with a bounds
check. -/
theorem considers_iff (W H x y x' y' : Int) :
    considers W H x y x' y' ↔ adjacent x y x' y' ∧ inBounds W H x' y' := by
  constructor
  · rintro ⟨⟨i, j⟩, hp, hx, hy, hb⟩
    rw [traceOffsets_mem] at hp
    exact ⟨⟨i, hp.1, j, hp.2.1, hp.2.2, hx, hy⟩, hb⟩
  · rintro ⟨⟨i, hi, j, hj, hne, hx, hy⟩, hb⟩
    exact ⟨(i, j), (traceOffsets_mem i j).2 ⟨hi, hj, hne⟩, hx, hy, hb⟩

/-- C23: the adjacency relation of the partitioner is symmetric: for in-bounds
pixels `p` and `q`, `trace` considers `q` a neighbour of `p` exactly when it
considers `p` a neighbour of `q`; the set of the six offsets is closed under
negation. -/
theorem adjacency_symmetric (W H x y x' y' : Int) (hp : inBounds W H x y)
    (hq : inBounds W H x' y') :
    (considers W H x y x' y' ↔ considers W H x' y' x y) ∧
    (adjacent x y x' y' ↔ adjacent x' y' x y) ∧
    (∀ i j, (i, j) ∈ traceOffsets → (-i, -j) ∈ traceOffsets) := by
  refine ⟨?_, ⟨adjacent_symm, adjacent_symm⟩, ?_⟩
  · rw [considers_iff, considers_iff]
    exact ⟨fun h => ⟨adjacent_symm h.1, hp⟩, fun h => ⟨adjacent_symm h.1, hq⟩⟩
  · intro i j h
    rw [traceOffsets_mem] at h ⊢
    obtain ⟨hi, hj, hne⟩ := h
    rw [mem_loop3] at hi hj ⊢
    rw [mem_loop3]
    refine ⟨by omega, by omega, by omega⟩

/-- Witness of C23: the pixels `(1, 1)` and `(2, 0)` of a `3 × 3` sub-region
consider each other. -/
theorem adjacency_symmetric_witness :
    considers 3 3 1 1 2 0 ∧ considers 3 3 2 0 1 1 := by
  have h := (adjacency_symmetric 3 3 1 1 2 0 (by unfold inBounds; decide)
    (by unfold inBounds; decide)).1
  have h1 : considers 3 3 1 1 2 0 :=
    ⟨(1, -1), by decide, by decide, by decide, by unfold inBounds; decide⟩
  exact ⟨h1, h.1 h1⟩

/-- A chain from a labelled in-bounds pixel ends on a labelled in-bounds
pixel. -/
theorem chain_target (W H : Int) (g ids : Int → Int) (k : Int) (p q : Int × Int)
    (hp : inBounds W H p.1 p.2 ∧ g (p.1 + p.2 * W) > 0 ∧ ids (p.1 + p.2 * W) = k)
    (h : chain W H g ids k p q) :
    inBounds W H q.1 q.2 ∧ g (q.1 + q.2 * W) > 0 ∧ ids (q.1 + q.2 * W) = k := by
  induction h with
  | refl => exact hp
  | tail _ hs _ => exact hs.2

/-- A chain can be walked backwards. -/
theorem chain_symm (W H : Int) (g ids : Int → Int) (k : Int) (p q : Int × Int)
    (hp : inBounds W H p.1 p.2 ∧ g (p.1 + p.2 * W) > 0 ∧ ids (p.1 + p.2 * W) = k)
    (h : chain W H g ids k p q) : chain W H g ids k q p := by
  induction h with
  | refl => exact Relation.ReflTransGen.refl
  | tail hpb hs ih =>
    have hb := chain_target W H g ids k p _ hp hpb
    exact Relation.ReflTransGen.head ⟨adjacent_symm hs.1, hb⟩ ih

/-- A chain inside a region is a chain of positive pixels. -/
theorem chain_linked (W H : Int) (g ids : Int → Int) (k : Int) (p q : Int × Int)
    (h : chain W H g ids k p q) : linked W H g p q :=
  Relation.ReflTransGen.mono (fun _ _ hs => ⟨hs.1, hs.2.1, hs.2.2.1⟩) h

/-- C21: after `partition` has run from the all-zero label map, an in-bounds
pixel has a non-zero label exactly when its magnitude is positive and it is
linked, through a chain of in-bounds pixels of positive magnitude that are
consecutive neighbours, to a pixel of positive magnitude strictly inside the
outermost ring.  No pixel of magnitude `≤ 0` is labelled, labels sit on
in-bounds pixels only, a labelled pixel of the outermost ring has a neighbour
with the same label (it is labelled by propagation), and there is no region
when `W < 3` or `H < 3`. -/
theorem partition_labels_reachable (W H : Int) (g : Int → Int) :
    ∃ N ids, partition W H g (fun _ => 0) = some (N, ids) ∧
      (∀ x y, inBounds W H x y →
        (ids (x + y * W) ≠ 0 ↔
          g (x + y * W) > 0 ∧
            ∃ sx sy, interior W H sx sy ∧ g (sx + sy * W) > 0 ∧
              linked W H g (sx, sy) (x, y))) ∧
      (∀ n, g n ≤ 0 → ids n = 0) ∧
      (∀ n, ids n ≠ 0 → ∃ x y, inBounds W H x y ∧ n = x + y * W) ∧
      (∀ x y, inBounds W H x y → ¬ interior W H x y → ids (x + y * W) ≠ 0 →
        ∃ x' y', inBounds W H x' y' ∧ adjacent x' y' x y ∧ g (x' + y' * W) > 0 ∧
          ids (x' + y' * W) = ids (x + y * W)) ∧
      (W < 3 ∨ H < 3 → N = 0 ∧ ∀ n, ids n = 0) := by
  obtain ⟨st, hst, hinv, hlab, hconn⟩ := partition_conn W H g
  refine ⟨st.1, st.2, hst, ?_, ?_, hconn.inb, ?_, ?_⟩
  · intro x y hb
    constructor
    · intro hne
      have hr := hinv.range (x + y * W)
      obtain ⟨sx, sy, hsi, hsg, _, hch⟩ := hconn.seed (st.2 (x + y * W)) (by omega) hr.2
      exact ⟨hinv.pos _ hne, sx, sy, hsi, hsg, chain_linked W H g st.2 _ _ _ (hch x y hb rfl)⟩
    · rintro ⟨_, sx, sy, hsi, hsg, hl⟩
      have key : inBounds W H x y ∧ st.2 (x + y * W) ≠ 0 := by
        have hs : inBounds W H (sx, sy).1 (sx, sy).2 ∧ st.2 ((sx, sy).1 + (sx, sy).2 * W) ≠ 0 :=
          ⟨interior_inBounds hsi, hlab sx sy hsi hsg⟩
        have : ∀ q : Int × Int, linked W H g (sx, sy) q →
            inBounds W H q.1 q.2 ∧ st.2 (q.1 + q.2 * W) ≠ 0 := by
          intro q hq
          induction hq with
          | refl => exact hs
          | tail _ hstep ih =>
            refine ⟨hstep.2.1, ?_⟩
            rw [hinv.closed _ _ ih.1 ih.2 _ _ hstep.1 hstep.2.1 hstep.2.2]
            exact ih.2
        exact this (x, y) hl
      exact key.2
  · intro n hn
    by_contra hne
    have := hinv.pos n hne
    omega
  · intro x y hb hni hne
    have hr := hinv.range (x + y * W)
    obtain ⟨sx, sy, hsi, hsg, hsl, hch⟩ :=
      hconn.seed (st.2 (x + y * W)) (by omega) hr.2
    have hc := hch x y hb rfl
    rcases Relation.ReflTransGen.cases_tail hc with heq | ⟨q, hq, hstep⟩
    · have h1 : x = sx := congrArg Prod.fst heq
      have h2 : y = sy := congrArg Prod.snd heq
      rw [h1, h2] at hni
      exact absurd hsi hni
    · have hq' := chain_target W H g st.2 _ (sx, sy) q
        ⟨interior_inBounds hsi, hsg, hsl⟩ hq
      exact ⟨q.1, q.2, hq'.1, hstep.1, hq'.2.1, hq'.2.2⟩
  · intro hsmall
    have hN : st.1 = 0 := by
      by_contra hne
      have h0 := hinv.id_nonneg
      obtain ⟨x, y, hi, _⟩ := hinv.surj 1 (le_refl _) (by omega)
      unfold interior at hi
      omega
    refine ⟨hN, ?_⟩
    intro n
    have := hinv.range n
    omega

/-- C24: after `partition` has run from the all-zero label map, two in-bounds
pixels with the same non-zero label are joined by a chain of pixels of positive
magnitude carrying that label, consecutive pixels being neighbours under the
adjacency rule; and two in-bounds pixels with different non-zero labels are
never neighbours. -/
theorem same_label_connected (W H : Int) (g : Int → Int) :
    ∃ N ids, partition W H g (fun _ => 0) = some (N, ids) ∧
      (∀ x y x' y', inBounds W H x y → inBounds W H x' y' → ids (x + y * W) ≠ 0 →
        ids (x' + y' * W) = ids (x + y * W) →
        g (x + y * W) > 0 ∧ chain W H g ids (ids (x + y * W)) (x, y) (x', y')) ∧
      (∀ x y x' y', inBounds W H x y → inBounds W H x' y' → ids (x + y * W) ≠ 0 →
        ids (x' + y' * W) ≠ 0 → ids (x + y * W) ≠ ids (x' + y' * W) →
        ¬ adjacent x y x' y') := by
  obtain ⟨st, hst, hinv, _, hconn⟩ := partition_conn W H g
  refine ⟨st.1, st.2, hst, ?_, ?_⟩
  · intro x y x' y' hb hb' hne heq
    have hr := hinv.range (x + y * W)
    obtain ⟨sx, sy, hsi, hsg, hsl, hch⟩ :=
      hconn.seed (st.2 (x + y * W)) (by omega) hr.2
    have h1 := hch x y hb rfl
    have h2 := hch x' y' hb' heq
    have h1' := chain_symm W H g st.2 _ (sx, sy) (x, y) ⟨interior_inBounds hsi, hsg, hsl⟩ h1
    exact ⟨hinv.pos _ hne, Relation.ReflTransGen.trans h1' h2⟩
  · intro x y x' y' hb hb' hne hne' hdiff hadj
    have := hinv.closed x y hb hne x' y' hadj hb' (hinv.pos _ hne')
    exact hdiff this.symm

/-! ## Termination of `trace` -/

/-- A loop on pairs whose steps follow a loop on the first components. -/
theorem foldlM_map_fst {α β γ : Type} (F : β × γ → α → Option (β × γ))
    (f : β → α → Option β) (l : List α)
    (hF : ∀ b a, a ∈ l → (F b a).map Prod.fst = f b.1 a) :
    ∀ b, (l.foldlM F b).map Prod.fst = l.foldlM f b.1 := by
  induction l with
  | nil => intro b; rfl
  | cons a l ih =>
    intro b
    rw [List.foldlM_cons, List.foldlM_cons]
    have h := hF b a (List.mem_cons_self _ _)
    rcases hfa : F b a with _ | b'
    · rw [hfa] at h
      rw [← h]
      rfl
    · rw [hfa] at h
      rw [← h]
      exact ih (fun b a' ha' => hF b a' (List.mem_cons_of_mem _ ha')) b'

/-- Without its counter, `traceCalls` is `trace`. -/
theorem traceCalls_fst (W H id : Int) (g : Int → Int) (fuel : Nat) :
    ∀ (st : (Int → Int) × Nat) (x y : Int),
      (traceCalls fuel W H id g st x y).map Prod.fst = trace fuel W H id g st.1 x y := by
  induction fuel with
  | zero => intro st x y; rfl
  | succ fuel ih =>
    intro st x y
    unfold traceCalls trace
    simp only []
    by_cases hlab : st.1 (y * W + x) ≠ 0
    · rw [if_pos hlab, if_pos hlab]
      rfl
    · rw [if_neg hlab, if_neg hlab]
      apply foldlM_map_fst _ _ loop3 _ (setAt st.1 (y * W + x) id, st.2 + 1)
      intro acc j _
      beta_reduce
      by_cases hyb : y + j < 0 ∨ y + j ≥ H
      · rw [if_pos hyb, if_pos hyb]
        rfl
      · rw [if_neg hyb, if_neg hyb]
        apply foldlM_map_fst _ _ loop3 _ acc
        intro acc2 i _
        beta_reduce
        by_cases hxb : i = j ∨ x + i < 0 ∨ x + i ≥ W
        · rw [if_pos hxb, if_pos hxb]
          rfl
        · rw [if_neg hxb, if_neg hxb]
          by_cases hpos : g (y * W + j * W + (x + i)) > 0
          · rw [if_pos hpos, if_pos hpos]
            exact ih acc2 (x + i) (y + j)
          · rw [if_neg hpos, if_neg hpos]
            rfl

/-- Labelling an unlabelled in-bounds pixel lowers the number of unlabelled
entries by one. -/
theorem unlabelled_setAt_eq (W H : Int) (ids : Int → Int) (x y id : Int) (hid : id ≠ 0)
    (hb : inBounds W H x y) (h0 : ids (x + y * W) = 0) :
    unlabelled W H (setAt ids (x + y * W) id) + 1 = unlabelled W H ids := by
  unfold unlabelled
  have hmem : x + y * W ∈ (Finset.Ico (0 : Int) (W * H)).filter (fun n => ids n = 0) := by
    rw [Finset.mem_filter, Finset.mem_Ico]
    exact ⟨index_bounds hb.1 hb.2.1 hb.2.2.1 hb.2.2.2, h0⟩
  have heq : (Finset.Ico (0 : Int) (W * H)).filter (fun n => setAt ids (x + y * W) id n = 0)
      = ((Finset.Ico (0 : Int) (W * H)).filter (fun n => ids n = 0)).erase (x + y * W) := by
    ext n
    simp only [Finset.mem_filter, Finset.mem_erase, setAt]
    constructor
    · rintro ⟨h1, h2⟩
      split_ifs at h2 with h
      · exact absurd h2 hid
      · exact ⟨h, h1, h2⟩
    · rintro ⟨h, h1, h2⟩
      refine ⟨h1, ?_⟩
      rw [if_neg h]
      exact h2
  rw [heq, Finset.card_erase_of_mem hmem]
  have : 0 < ((Finset.Ico (0 : Int) (W * H)).filter (fun n => ids n = 0)).card :=
    Finset.card_pos.2 ⟨_, hmem⟩
  omega

/-- The counter of `traceCalls` grows by the number of pixels that get
labelled. -/
theorem traceCalls_count (W H id : Int) (g : Int → Int) (hid : id ≠ 0) (fuel : Nat) :
    ∀ (st st' : (Int → Int) × Nat) (x y : Int), inBounds W H x y →
      traceCalls fuel W H id g st x y = some st' →
      st'.2 + unlabelled W H st'.1 = st.2 + unlabelled W H st.1 := by
  induction fuel with
  | zero =>
    intro st st' x y _ h
    exact absurd h (by simp [traceCalls])
  | succ fuel ih =>
    intro st st' x y hb h
    have hidx : y * W + x = x + y * W := by ring
    unfold traceCalls at h
    simp only [] at h
    by_cases hlab : st.1 (y * W + x) ≠ 0
    · rw [if_pos hlab] at h
      have : st = st' := Option.some.inj h
      rw [this]
    · rw [if_neg hlab, hidx] at h
      have h0 : st.1 (x + y * W) = 0 := by
        rw [← hidx]; exact not_not.1 hlab
      have hset := unlabelled_setAt_eq W H st.1 x y id hid hb h0
      refine foldlM_some_inv _
        (fun acc : (Int → Int) × Nat =>
          acc.2 + unlabelled W H acc.1 = st.2 + unlabelled W H st.1)
        loop3 _ st' h
        (by
          show st.2 + 1 + unlabelled W H (setAt st.1 (x + y * W) id)
            = st.2 + unlabelled W H st.1
          omega) ?_
      intro acc j r _ hP hstep
      beta_reduce at hstep
      by_cases hyb : y + j < 0 ∨ y + j ≥ H
      · rw [if_pos hyb] at hstep
        have : acc = r := Option.some.inj hstep
        rw [← this]
        exact hP
      · rw [if_neg hyb] at hstep
        refine foldlM_some_inv _
          (fun acc : (Int → Int) × Nat =>
            acc.2 + unlabelled W H acc.1 = st.2 + unlabelled W H st.1)
          loop3 acc r hstep hP ?_
        intro b i b' _ hPb hstep2
        beta_reduce at hstep2
        by_cases hxb : i = j ∨ x + i < 0 ∨ x + i ≥ W
        · rw [if_pos hxb] at hstep2
          have : b = b' := Option.some.inj hstep2
          rw [← this]
          exact hPb
        · rw [if_neg hxb] at hstep2
          by_cases hpos : g (y * W + j * W + (x + i)) > 0
          · rw [if_pos hpos] at hstep2
            have hbi : inBounds W H (x + i) (y + j) := by
              unfold inBounds
              push_neg at hxb hyb
              omega
            have := ih b b' (x + i) (y + j) hbi hstep2
            show b'.2 + unlabelled W H b'.1 = _
            rw [this]
            exact hPb
          · rw [if_neg hpos] at hstep2
            have : b = b' := Option.some.inj hstep2
            rw [← this]
            exact hPb

/-- C22: for every width, height, field, label map and in-bounds start pixel
(and a label `id ≠ 0`, as `partition` passes), `trace` terminates.  A call on a
labelled pixel returns at once; any other call labels its pixel, which lowers
the number of unlabelled pixels by one.  The call returns when the recursion
may descend `d` levels below it, for a `d ≤ W*H` (the number `U` of unlabelled
pixels: whenever the nesting depth, the call itself included, is more than
`U`); and the number `c` of calls that label a pixel is the number of pixels
that get labelled, so `c ≤ U ≤ W*H`. -/
theorem trace_terminates (W H id : Int) (g ids : Int → Int) (x y : Int) (hid : id ≠ 0)
    (hb : inBounds W H x y) :
    (∀ fuel, unlabelled W H ids < fuel →
      ∃ ids' c, traceCalls fuel W H id g (ids, 0) x y = some (ids', c) ∧
        trace fuel W H id g ids x y = some ids' ∧
        c + unlabelled W H ids' = unlabelled W H ids ∧
        c ≤ unlabelled W H ids ∧
        (c : Int) ≤ W * H) ∧
    (∃ d : Nat, (d : Int) ≤ W * H ∧
      ∃ ids', trace (d + 1) W H id g ids x y = some ids') ∧
    unlabelled W H ids + 1 ≤ traceFuel W H ∧
    (∀ fuel, ids (x + y * W) ≠ 0 →
      traceCalls (fuel + 1) W H id g (ids, 0) x y = some (ids, 0)) ∧
    (ids (x + y * W) = 0 →
      unlabelled W H (setAt ids (x + y * W) id) + 1 = unlabelled W H ids ∧
      ∀ fuel, trace (fuel + 1) W H id g ids x y =
        traceOffsets.foldlM (traceVisit fuel W H id g x y) (setAt ids (x + y * W) id)) := by
  have hle := unlabelled_le W H ids
  refine ⟨?_, ?_, ?_, ?_, ?_⟩
  · intro fuel hfuel
    obtain ⟨ids', htr, _⟩ := trace_post W H id g hid fuel ids x y hb hfuel
    have hfst := traceCalls_fst W H id g fuel (ids, 0) x y
    rw [htr] at hfst
    rcases hc : traceCalls fuel W H id g (ids, 0) x y with _ | ⟨ids'', c⟩
    · rw [hc] at hfst
      exact absurd hfst (by simp)
    · rw [hc] at hfst
      have hi : ids'' = ids' := Option.some.inj hfst
      subst hi
      have hcount := traceCalls_count W H id g hid fuel (ids, 0) (ids'', c) x y hb hc
      have hcount' : c + unlabelled W H ids'' = unlabelled W H ids := by
        have : c + unlabelled W H ids'' = 0 + unlabelled W H ids := hcount
        omega
      refine ⟨ids'', c, rfl, htr, hcount', by omega, ?_⟩
      have h1 : c ≤ (W * H).toNat := by omega
      have h2 : ((W * H).toNat : Int) ≤ W * H := by
        have := index_bounds hb.1 hb.2.1 hb.2.2.1 hb.2.2.2
        omega
      have h3 : (c : Int) ≤ ((W * H).toNat : Int) := by exact_mod_cast h1
      omega
  · refine ⟨unlabelled W H ids, ?_, ?_⟩
    · have h2 : ((W * H).toNat : Int) ≤ W * H := by
        have := index_bounds hb.1 hb.2.1 hb.2.2.1 hb.2.2.2
        omega
      have h3 : (unlabelled W H ids : Int) ≤ ((W * H).toNat : Int) := by exact_mod_cast hle
      omega
    · obtain ⟨ids', htr, _⟩ := trace_post W H id g hid (unlabelled W H ids + 1) ids x y hb
        (Nat.lt_succ_self _)
      exact ⟨ids', htr⟩
  · unfold traceFuel
    omega
  · intro fuel hne
    have hidx : y * W + x = x + y * W := by ring
    unfold traceCalls
    simp only [hidx]
    rw [if_pos hne]
  · intro h0
    refine ⟨unlabelled_setAt_eq W H ids x y id hid hb h0, ?_⟩
    intro fuel
    rw [trace_unfold, if_neg (not_not.2 h0)]

/-! ## Claims on the centroid and the sampled row -/

/-- Witness of C22: a call on the all-positive `1 × 2` field returns within
three nested activations and labels its two pixels. -/
theorem trace_terminates_witness :
    ∃ ids' c, traceCalls 3 1 2 1 (fun _ => 1) (fun _ => 0, 0) 0 0 = some (ids', c) ∧
      trace 3 1 2 1 (fun _ => 1) (fun _ => 0) 0 0 = some ids' ∧
      c + unlabelled 1 2 ids' = unlabelled 1 2 (fun _ => 0) ∧
      c ≤ unlabelled 1 2 (fun _ => 0) ∧
      (c : Int) ≤ 1 * 2 :=
  (trace_terminates 1 2 1 (fun _ => 1) (fun _ => 0) 0 0 (by decide)
    (by unfold inBounds; decide)).1 3
    (Nat.lt_of_le_of_lt (unlabelled_le 1 2 (fun _ => 0)) (by decide))

/-- Witness of C21: in `dotsField` the pixel `(1, 1)` is labelled and the
pixel `(0, 0)`, of magnitude 0, is not. -/
theorem partition_labels_reachable_witness :
    ∃ N ids, partition 23 3 dotsField (fun _ => 0) = some (N, ids) ∧
      ids (1 + 1 * 23) ≠ 0 ∧ ids 0 = 0 := by
  obtain ⟨N, ids, hp, h1, h2, _⟩ := partition_labels_reachable 23 3 dotsField
  refine ⟨N, ids, hp, ?_, h2 0 (by decide)⟩
  exact (h1 1 1 (by unfold inBounds; decide)).2
    ⟨by decide, 1, 1, by unfold interior; decide, by decide, Relation.ReflTransGen.refl⟩

/-- Witness of C24: the two positive pixels of `pairField` carry the same
label and are chained. -/
theorem same_label_connected_witness :
    ∃ N ids, partition 4 3 pairField (fun _ => 0) = some (N, ids) ∧
      ids (1 + 1 * 4) ≠ 0 ∧
      chain 4 3 pairField ids (ids (1 + 1 * 4)) (1, 1) (2, 1) := by
  obtain ⟨N, ids, hp, h1, _⟩ := same_label_connected 4 3 pairField
  obtain ⟨st, hst, hinv, hlab⟩ := partition_inv 4 3 pairField
  have he : (N, ids) = st := Option.some.inj (hp.symm.trans hst)
  subst he
  have hb1 : inBounds 4 3 1 1 := by unfold inBounds; decide
  have hb2 : inBounds 4 3 2 1 := by unfold inBounds; decide
  have hl : ids (1 + 1 * 4) ≠ 0 := hlab 1 1 (by unfold interior; decide) (by decide)
  have hadj : adjacent 1 1 2 1 := ⟨1, by decide, 0, by decide, by decide, by decide, by decide⟩
  have hsame : ids (2 + 1 * 4) = ids (1 + 1 * 4) :=
    hinv.closed 1 1 hb1 hl 2 1 hadj hb2 (by decide)
  exact ⟨N, ids, hp, hl, (h1 1 1 2 1 hb1 hb2 hl hsame).2⟩

/-! ## Rounding -/

/-- A mass the selection loop handles without loss converts to `int` and back
unchanged. -/
theorem plainMass_toInt32 (q : ℚ) (h : plainMass q) : ((toInt32 q : Int) : ℚ) = q := by
  obtain ⟨h1, h2, h3, _⟩ := h
  have hlo : (0 : Int) ≤ truncToInt q := by
    have : (0 : ℚ) ≤ (truncToInt q : ℚ) := by rw [← h1]; exact h2
    exact_mod_cast this
  have hhi : truncToInt q < 2147483648 := by
    have : (truncToInt q : ℚ) < ((2147483648 : Int) : ℚ) := by rw [← h1]; exact_mod_cast h3
    exact_mod_cast this
  unfold toInt32
  rw [if_pos ⟨by omega, by omega⟩]
  exact h1.symm

/-- The default entry of a mass table has a plain mass. -/
theorem plainMass_zero : plainMass 0 := by decide!

/-- In a table of plain masses every lookup is a plain mass. -/
theorem value_plain (masses : QMap) (h : ∀ p ∈ masses, plainMass p.2.totalMass) (k : Int) :
    plainMass (QMap.value masses k).totalMass := by
  induction masses with
  | nil => exact plainMass_zero
  | cons p rest ih =>
    obtain ⟨k', v⟩ := p
    unfold QMap.value
    split_ifs with hk
    · exact h (k', v) (List.mem_cons_self _ _)
    · exact ih (fun p hp => h p (List.mem_cons_of_mem _ hp))

/-- The selection step when the running maximum is the plain mass `M`. -/
theorem selectStep_plain (masses : QMap) (s : Selection) (key : Int) (M : ℚ)
    (hs : (s.maxTotalMass : ℚ) = M) (hM : plainMass M)
    (hk : plainMass (QMap.value masses key).totalMass) :
    (M < (QMap.value masses key).totalMass →
      (selectStep masses s key).maxRegionID = key ∧
      ((selectStep masses s key).maxTotalMass : ℚ) = (QMap.value masses key).totalMass ∧
      (selectStep masses s key).totalMassRatio =
        (if M = 0 then ⊤
          else ((float32 ((QMap.value masses key).totalMass / M) : ℚ) : WithTop ℚ))) ∧
    (¬ M < (QMap.value masses key).totalMass → selectStep masses s key = s) := by
  have hf : float32 (s.maxTotalMass : ℚ) = M := by rw [hs]; exact hM.2.2.2
  constructor
  · intro hlt
    have hgt : (QMap.value masses key).totalMass > float32 (s.maxTotalMass : ℚ) := by
      rw [hf]; exact hlt
    rw [selectStep_pos masses s key hgt]
    refine ⟨rfl, plainMass_toInt32 _ hk, ?_⟩
    show floatDiv _ _ = _
    unfold floatDiv
    rw [hf]
    have h0 : s.maxTotalMass = 0 ↔ M = 0 := by
      rw [← hs]
      exact Int.cast_eq_zero.symm
    by_cases hz : s.maxTotalMass = 0
    · rw [if_pos hz, if_pos (h0.1 hz)]
    · rw [if_neg hz, if_neg (fun h => hz (h0.2 h))]
  · intro hlt
    apply selectStep_neg
    rw [hf]
    exact hlt

/-! ## The selection loop on masses held exactly -/

/-- One step of the selection loop keeps `SelInv`, for ascending keys and plain
masses. -/
theorem selectStep_inv (masses : QMap)
    (hplain : ∀ k, plainMass (QMap.value masses k).totalMass)
    (seen : List Int) (s : Selection) (key : Int) (hinv : SelInv masses seen s)
    (hle : ∀ a ∈ seen, a ≤ key) :
    SelInv masses (seen ++ [key]) (selectStep masses s key) := by
  obtain ⟨h1, h2, h3⟩ := hinv
  obtain ⟨hpos, hneg⟩ := selectStep_plain masses s key _ h1 (hplain s.maxRegionID) (hplain key)
  by_cases hlt : (QMap.value masses s.maxRegionID).totalMass < (QMap.value masses key).totalMass
  · obtain ⟨e1, e2, _⟩ := hpos hlt
    refine ⟨by rw [e2, e1], by rw [e1]; simp, ?_⟩
    intro k hk
    rw [e1]
    rcases List.mem_append.1 hk with h | h
    · have := (h3 k h).1
      constructor
      · linarith
      · intro he; linarith
    · rw [List.mem_singleton] at h
      subst h
      exact ⟨le_refl _, fun _ => le_refl _⟩
  · rw [hneg hlt]
    refine ⟨h1, List.mem_append_left _ h2, ?_⟩
    intro k hk
    rcases List.mem_append.1 hk with h | h
    · exact h3 k h
    · rw [List.mem_singleton] at h
      subst h
      exact ⟨not_lt.1 hlt, fun _ => hle _ h2⟩

/-- The selection loop keeps `SelInv` over an ascending key list. -/
theorem selectMax_fold (masses : QMap)
    (hplain : ∀ k, plainMass (QMap.value masses k).totalMass) :
    ∀ (l seen : List Int) (s : Selection), SelInv masses seen s →
      (∀ a ∈ seen, ∀ b ∈ l, a ≤ b) → l.Pairwise (· ≤ ·) →
      SelInv masses (seen ++ l) (l.foldl (selectStep masses) s) := by
  intro l
  induction l with
  | nil =>
    intro seen s h _ _
    simpa using h
  | cons key l ih =>
    intro seen s h h4 h5
    rw [List.foldl_cons]
    have hsorted : ∀ a ∈ seen ++ [key], ∀ b ∈ l, a ≤ b := by
      intro a ha b hb
      rcases List.mem_append.1 ha with h | h
      · exact h4 a h b (List.mem_cons_of_mem _ hb)
      · rw [List.mem_singleton] at h
        subst h
        exact List.rel_of_pairwise_cons h5 hb
    have := ih (seen ++ [key]) (selectStep masses s key)
      (selectStep_inv masses hplain seen s key h (fun a ha => h4 a ha key (List.mem_cons_self _ _)))
      hsorted (List.pairwise_cons.1 h5).2
    simpa [List.append_assoc] using this

/-- On a mass table with the labels `1..N` and plain masses, the selected
region has the greatest mass and the smallest label among those of greatest
mass. -/
theorem select_plain (masses : QMap) (N : Int) (hN : 1 ≤ N)
    (hkeys : QMap.keys masses = labels N)
    (hplain : ∀ p ∈ masses, plainMass p.2.totalMass) :
    1 ≤ (selectMax masses).maxRegionID ∧ (selectMax masses).maxRegionID ≤ N ∧
    ∀ k, 1 ≤ k → k ≤ N →
      (QMap.value masses k).totalMass
          ≤ (QMap.value masses (selectMax masses).maxRegionID).totalMass ∧
      ((QMap.value masses k).totalMass
          = (QMap.value masses (selectMax masses).maxRegionID).totalMass →
        (selectMax masses).maxRegionID ≤ k) := by
  have hv := value_plain masses hplain
  have h0 : SelInv masses [1]
      { maxRegionID := 1
        maxTotalMass := toInt32 (QMap.value masses 1).totalMass
        totalMassRatio := ((1000000 : ℚ) : WithTop ℚ) } := by
    refine ⟨plainMass_toInt32 _ (hv 1), by simp, ?_⟩
    intro k hk
    rw [List.mem_singleton] at hk
    subst hk
    exact ⟨le_refl _, fun _ => le_refl _⟩
  have hmem : ∀ k, k ∈ labels N ↔ 1 ≤ k ∧ k ≤ N := by
    intro k
    unfold labels
    rw [mem_from1]
    omega
  have := selectMax_fold masses hv (labels N) [1] _ h0
    (by
      intro a ha b hb
      rw [List.mem_singleton] at ha
      rw [hmem] at hb
      omega)
    (labels_pairwise N)
  obtain ⟨_, h2, h3⟩ := this
  have hsel : selectMax masses = (labels N).foldl (selectStep masses)
      { maxRegionID := 1
        maxTotalMass := toInt32 (QMap.value masses 1).totalMass
        totalMassRatio := ((1000000 : ℚ) : WithTop ℚ) } := by
    unfold selectMax
    rw [hkeys]
  rw [← hsel] at h2 h3
  have hid : 1 ≤ (selectMax masses).maxRegionID ∧ (selectMax masses).maxRegionID ≤ N := by
    rcases List.mem_append.1 h2 with h | h
    · rw [List.mem_singleton] at h
      omega
    · exact (hmem _).1 h
  refine ⟨hid.1, hid.2, ?_⟩
  intro k hk1 hk2
  exact h3 k (List.mem_append_right _ ((hmem k).2 ⟨hk1, hk2⟩))

set_option maxRecDepth 100000 in
/-- The Sobel field of the scratch image of `brightImage` is `brightField`. -/
theorem sobel_brightImage :
    sobel 45 5 (boundedImage plainEnv brightImage nullRect) = brightField := by
  rw [sobel_eq_sobelField 45 5 _ (by decide)]
  have key : ∀ n ∈ upTo 225,
      sobelField 45 5 (boundedImage plainEnv brightImage nullRect) n = brightField n := by
    decide!
  funext n
  by_cases h : 0 ≤ n ∧ n < 225
  · exact key n (mem_upTo.2 h)
  · have h' : ¬ (0 ≤ n ∧ n < 45 * 5) := by omega
    unfold sobelField brightField
    rw [if_neg h, if_neg h']

set_option maxRecDepth 100000 in
/-- The detector on `brightField`: eleven regions, the first of total mass
`2^32`, at least `3/2` of the total mass of each other one, and the second of
total mass 160; the selection loop ends on region 2 and the detector leaves by
the noise test. -/
theorem bright_eval :
    (partition 45 5 brightField (fun _ => 0)).map
      (fun r => decide (
        r.1 = 11 ∧
        (QMap.value (regionMasses 45 5 brightField r.2) 1).totalMass = 4294967296 ∧
        (QMap.value (regionMasses 45 5 brightField r.2) 2).totalMass = 160 ∧
        (∀ k ∈ from1 12, k ≠ 1 →
          3 / 2 * (QMap.value (regionMasses 45 5 brightField r.2) k).totalMass
            ≤ (QMap.value (regionMasses 45 5 brightField r.2) 1).totalMass) ∧
        (selectMax (regionMasses 45 5 brightField r.2)).maxRegionID = 2 ∧
        detectExit starEnv brightImage nullRect brightField r.1 r.2 = Exit.noise))
      = some true := by
  decide!

/-- C8 (the code fails the claim on a mass of `2^31` or more): among the
eleven regions of `brightImage`, region 1 has the total mass `2^32` and region
2 the total mass 160, and the selection loop ends on region 2.  On a mass table
with the labels `1..N` (`N ≥ 1`) whose masses are whole numbers below `2^31`
held exactly by a `float`, the selected region is one of the labels, its total
mass is at least that of every region, and it is the smallest label among the
regions of greatest mass. -/
theorem select_greatest_mass :
    (∃ N ids,
      partition 45 5 (sobel 45 5 (boundedImage plainEnv brightImage nullRect)) (fun _ => 0)
        = some (N, ids) ∧
      (QMap.value (regionMasses 45 5
        (sobel 45 5 (boundedImage plainEnv brightImage nullRect)) ids) 1).totalMass
        = 4294967296 ∧
      (QMap.value (regionMasses 45 5
        (sobel 45 5 (boundedImage plainEnv brightImage nullRect)) ids) 2).totalMass = 160 ∧
      (selectMax (regionMasses 45 5
        (sobel 45 5 (boundedImage plainEnv brightImage nullRect)) ids)).maxRegionID = 2) ∧
    ∀ (masses : QMap) (N : Int), 1 ≤ N → QMap.keys masses = labels N →
      (∀ p ∈ masses, plainMass p.2.totalMass) →
      1 ≤ (selectMax masses).maxRegionID ∧ (selectMax masses).maxRegionID ≤ N ∧
      ∀ k, 1 ≤ k → k ≤ N →
        (QMap.value masses k).totalMass
            ≤ (QMap.value masses (selectMax masses).maxRegionID).totalMass ∧
        ((QMap.value masses k).totalMass
            = (QMap.value masses (selectMax masses).maxRegionID).totalMass →
          (selectMax masses).maxRegionID ≤ k) := by
  refine ⟨?_, fun masses N hN hkeys hplain => select_plain masses N hN hkeys hplain⟩
  rw [sobel_brightImage]
  obtain ⟨st, hst, _, _⟩ := partition_inv 45 5 brightField
  have ev := bright_eval
  rw [hst] at ev
  simp only [Option.map_some', Option.some.injEq, decide_eq_true_eq] at ev
  exact ⟨st.1, st.2, hst, ev.2.1, ev.2.2.1, ev.2.2.2.2.1⟩

/-- Witness of C8: in `threeRegions` the tie between regions 2 and 3 goes to
region 2. -/
theorem select_greatest_mass_witness :
    (selectMax threeRegions).maxRegionID = 2 ∧
    ∀ k, 1 ≤ k → k ≤ 3 →
      (QMap.value threeRegions k).totalMass
          ≤ (QMap.value threeRegions (selectMax threeRegions).maxRegionID).totalMass ∧
      ((QMap.value threeRegions k).totalMass
          = (QMap.value threeRegions (selectMax threeRegions).maxRegionID).totalMass →
        (selectMax threeRegions).maxRegionID ≤ k) := by
  refine ⟨by decide!, (select_greatest_mass.2 threeRegions 3 (by decide) (by decide) ?_).2.2⟩
  decide!

set_option maxRecDepth 100000 in
/-- Counterexample to C3 as stated: on the flat `3 × 3` buffer of `float`
samples `8388609`, `sobel<float>` writes the magnitude 2 at the pixel `(1, 1)`,
and `partition` finds one region in that field. -/
theorem flat_float_gradient :
    (∀ n m, flatFloat n = flatFloat m) ∧
    sobelFloat 3 3 flatFloat (1 + 1 * 3) = 2 ∧
    (partition 3 3 (sobelFloat 3 3 flatFloat) (fun _ => 0)).map (fun r => r.1) = some 1 := by
  refine ⟨fun _ _ => rfl, by decide!, by decide!⟩

/-- C3, for integer samples: on a flat `W × H` buffer of integer samples
`sobel` writes magnitude 0 everywhere, `partition` on that field returns 0
regions, and a detector call whose scratch image (the filtered sub-region copy,
of a size that is not negative) is that buffer returns no feature. -/
theorem flat_image_no_feature (W H : Int) (I : Int → Int) (hflat : isFlat W H I) :
    (∀ n, sobel W H I n = 0) ∧
    partition W H (sobel W H I) (fun _ => 0) = some (0, fun _ => 0) ∧
    ∀ (env : Collaborators) (data : FITSData) (starCenters : List Edge) (boundary : QRect),
      0 ≤ W → 0 ≤ H →
      subW data boundary = W → subH data boundary = H → boundedImage env data boundary = I →
      findSourcesT env (some data) starCenters boundary = some (0, starCenters) := by
  have h1 := sobel_flat W H I hflat
  have h2 : partition W H (sobel W H I) (fun _ => 0) = some (0, fun _ => 0) := by
    apply partition_noop
    intro x y _ hc
    rw [h1] at hc
    exact absurd hc.1 (by decide)
  refine ⟨h1, h2, ?_⟩
  intro env data starCenters boundary h0W h0H hW hH hI
  unfold findSourcesT
  simp only []
  rw [hW, hH, hI, h2, if_neg (by omega)]
  simp [detectFrom]

/-- Witness of C3: the flat `3 × 3` image with filters that change nothing. -/
theorem flat_image_no_feature_witness :
    isFlat 3 3 (boundedImage plainEnv flatImage nullRect) ∧
    findSourcesT plainEnv (some flatImage) [] nullRect = some (0, []) := by
  have hflat : isFlat 3 3 (boundedImage plainEnv flatImage nullRect) := by
    intro n m hn hn' hm hm'
    have e : ∀ k : Int, 0 ≤ k → k < 3 * 3 →
        boundedImage plainEnv flatImage nullRect k = 7 := by
      intro k hk hk'
      have hk2 : k < 9 := by omega
      simp [boundedImage, plainEnv, flatImage, nullRect, copySubRegion, memcpy, subX, subY, subW,
        subH, QRect.isNull, hk, hk2]
    rw [e n hn hn', e m hm hm']
  exact ⟨hflat, (flat_image_no_feature 3 3 _ hflat).2.2 plainEnv flatImage [] nullRect
    (by decide) (by decide) rfl rfl rfl⟩

/-! ## The half-flux radius from the list of contributions -/

set_option maxRecDepth 100000 in
/-- With rounded sums the row `qRound (center->y)` can lie past the last row:
in `borderField`, a `7 × 7` field whose only region is the pixel `(3, 5)` of
magnitude 2 and the pixel `(3, 6)` of magnitude `2^25`, the `float` sums give
the row 7, where the sums without rounding give the row 6; the radius scan
then finds no width. -/
theorem border_eval :
    (partition 7 7 borderField (fun _ => 0)).map
      (fun r => decide (
        r.1 = 1 ∧
        qRound (centroidY 7 7 borderField r.2) = 6 ∧
        sampledRowFloat 7 7 borderField r.2 = 7 ∧
        radiusScan 7 7 borderField starEnv.rays (centerXFloat 7 7 borderField r.2)
          (centerYFloat 7 7 borderField r.2) (radii (Int.tdiv (min (7 - 1) (7 - 1)) 2)) = -1))
      = some true := by
  decide!

end FITSGradientDetector
